import Mathlib

/-! Evoplex: the experiment / trial scheduler.

A shallow embedding of `src/core/experiment.cpp` and a verification of the
properties stated for it.

Conventions of the embedding

* C++ `int` fields are `Int`, `quint16` values are `Nat` reduced modulo `2^16`
  where a conversion happens, integer division is the truncating `Int.tdiv`.
* `QString` is a list of characters.
* The trial map `m_trials` is an association list keyed by the trial id; the
  per-trial row buffers of a cache are a function from the trial id to a queue
  (oldest row first).
* The file system is part of the state: `files id` is the content of the CSV
  file of trial `id`, `opens` counts the `QFile::open` attempts made so far, and
  the collaborator `MainApp.openOk n` tells whether attempt number `n` succeeds.
* `clones` counts the calls of `Utils::clone`; it is a ghost counter.
* Signals (`emit`), logging, the mutex and `QThread::msleep` have no effect on
  the modelled state and are left out; calls are sequential.
* The `float` accumulator of `updateProgressValue` is modelled by exact
  rationals.
* `Q_ASSERT_X` is a debug check and has no effect; `qFatal` aborts the
  process, which the functions concerned report by returning `none`.
* `Cache`, `Output`, `Utils::clone` and `Experiment::pause` are declared in
  files that are not part of the sources at hand; they are modelled from the
  specification: a cache is a first-in first-out queue of rows per trial, an
  output feeds one row to each of its caches.
-/

namespace evoplex

/-! ## Data model -/

abbrev QString := List Char

/-- QString::chop(n): removes `n` characters from the end of the string. -/
def chop (s : QString) (n : Nat) : QString := s.take (s.length - n)

/-- Status values shared by experiments and trials (`Experiment::Status`). -/
inductive Status
  | INVALID
  | READY
  | QUEUED
  | RUNNING
  | FINISHED
  deriving DecidableEq, Repr

/-- A value of an attribute, known here by its printed form `toQString()`. -/
structure Value where
  toQString : QString
  deriving DecidableEq, Repr

abbrev Values := List Value

/-- A node (agent) with its attribute values. -/
structure Node where
  id : Nat
  attrs : Values
  deriving DecidableEq, Repr

abbrev Nodes := List Node

/-- `AbstractGraph::GraphType`. -/
inductive GraphType
  | Invalid_Type
  | Undirected
  | Directed
  deriving DecidableEq, Repr

/-- A trial: an instantiated model (`AbstractModel`) with its step counter and
status; `model` is the plugin-defined state (graph, agents, generator). -/
structure AbstractModel (σ : Type) where
  m_currStep : Int
  m_status : Status
  model : σ

/-- An output object (`OutputPtr`): `addr` is the identity of the object, the
other three fields are what `Output::operator==` compares. -/
structure Output where
  addr : Nat
  attr : Nat
  entity : Nat
  func : Nat
  deriving DecidableEq, Repr

/-- A file cache: the output it belongs to, its header, the values it records
from a trial and its per-trial queues of buffered rows. -/
structure Cache (σ : Type) where
  output : Output
  printableHeader : QString
  inputs : AbstractModel σ → Values
  rows : Nat → List Values

/-- The configuration of an experiment (`ExpInputs`), with the general
attributes already converted as `init`, `reset` and `createTrial` read them:
`nodes` is the result `(nodes, errMsg)` of `Nodes::fromCmd` on the configured
command and `graphType` the result of `AbstractGraph::enumFromString`. -/
structure ExpInputs (σ : Type) where
  seed : Int
  stopAt : Int
  trials : Int
  autoDelete : Bool
  graphType : GraphType
  nodes : Nodes × QString
  fileCaches : List (Cache σ)

/-- The collaborators of the experiment outside `experiment.cpp`: settings of
the application, the plugin factories and the behaviour of the file system. -/
structure MainApp (σ : Type) where
  stepsToFlush : Int
  defaultStepDelay : Int
  /-- graph plugin: `create`, `setup(prg, inputs, nodes, type)` and `init` succeed -/
  graph : Int → Nodes → Bool
  /-- model plugin: the object after `create`, `setup(prg, inputs, graph)` and `init`; `none` on failure -/
  modelPlugin : Int → Nodes → Option (AbstractModel σ)
  /-- `AbstractModel::algorithmStep`: the next state and whether it converged -/
  algorithmStep : σ → σ × Bool
  /-- whether the `n`-th attempt to open a file succeeds -/
  openOk : Nat → Bool

/-- The state of an experiment together with the files it writes. -/
structure Experiment (σ : Type) where
  m_inputs : ExpInputs σ
  m_outputs : List Output
  m_fileHeader : QString
  m_numTrials : Int
  m_autoDeleteTrials : Bool
  m_expStatus : Status
  m_trials : List (Nat × AbstractModel σ)
  m_clonableNodes : Nodes
  m_delay : Int
  m_stopAt : Int
  m_pauseAt : Int
  m_progress : Nat
  files : Nat → QString
  opens : Nat
  clones : Nat

variable {σ : Type}

/-! ## Progress -/

/-- Experiment::updateProgressValue (experiment.cpp 137-155). The quotient
`m_currStep / m_pauseAt` is a division of two `int`s, converted to `float`
afterwards. -/
def updateProgressValue (e : Experiment σ) : Experiment σ :=
  if e.m_expStatus = Status.FINISHED then
    { e with m_progress := 360 }
  else if e.m_expStatus = Status.INVALID then
    { e with m_progress := 0 }
  else if e.m_expStatus = Status.RUNNING then
    let p : ℚ := (e.m_trials.map (fun t => ((Int.tdiv t.2.m_currStep e.m_pauseAt : Int) : ℚ))).sum
    { e with m_progress := (⌈p * 360 / (e.m_numTrials : ℚ)⌉).toNat % 65536 }
  else e

/-- The progress of a running experiment as the specification gives it:
`ceil(360 · Σ(currStep_i / pauseAt) / trialCount)` with the exact ratio. -/
def progressSpec (e : Experiment σ) : Int :=
  ⌈360 * (e.m_trials.map (fun t => (t.2.m_currStep : ℚ) / (e.m_pauseAt : ℚ))).sum
      / (e.m_numTrials : ℚ)⌉

/-! ## Seed of a trial -/

/-- The seed given to the generator of a trial in `createTrial`
(experiment.cpp 269-270): the configured seed is converted to `quint16`
before the trial id is added. -/
def trialSeed (inputs : ExpInputs σ) (trialId : Nat) : Int :=
  inputs.seed % 65536 + (trialId : Int)

/-! ## Caches and outputs

`Cache` and `Output` are declared outside `experiment.cpp`; the scheduler uses
them through the five operations below. -/

/-- Modelled from the spec: the emptiness check of a sink for one trial
(`Cache::isEmpty(trialId)`). -/
def Cache.isEmpty (c : Cache σ) (trialId : Nat) : Bool :=
  (c.rows trialId).isEmpty

/-- Modelled from the spec: the values of the oldest buffered row of a trial
(`Cache::readFrontRow(trialId).second`). -/
def Cache.readFrontRow (c : Cache σ) (trialId : Nat) : Values :=
  (c.rows trialId).headD []

/-- Modelled from the spec: drops the oldest buffered row of a trial
(`Cache::flushFrontRow(trialId)`). -/
def Cache.flushFrontRow (c : Cache σ) (trialId : Nat) : Cache σ :=
  { c with rows := fun j => if j = trialId then (c.rows j).tail else c.rows j }

/-- Appends a row to the queue of a trial. -/
def Cache.push (c : Cache σ) (trialId : Nat) (vals : Values) : Cache σ :=
  { c with rows := fun j => if j = trialId then c.rows j ++ [vals] else c.rows j }

/-- Modelled from the spec: `Output::doOperation(trialId, trial)` feeds the
current state of the trial to the sink: each cache of this output buffers one
row for the trial. -/
def Output.doOperation (o : Output) (trialId : Nat) (trial : AbstractModel σ)
    (caches : List (Cache σ)) : List (Cache σ) :=
  caches.map (fun c => if c.output.addr = o.addr then c.push trialId (c.inputs trial) else c)

/-- Modelled from the spec: `Output::flushAll()` clears the buffers of the
caches of this output. -/
def Output.flushAll (o : Output) (caches : List (Cache σ)) : List (Cache σ) :=
  caches.map (fun c => if c.output.addr = o.addr then { c with rows := fun _ => [] } else c)

/-- The loop `for (output : m_outputs) output->doOperation(trialId, trial)`. -/
def doOperations (trialId : Nat) (trial : AbstractModel σ) (e : Experiment σ) :
    Experiment σ :=
  { e with m_inputs := { e.m_inputs with
      fileCaches := e.m_outputs.foldl (fun cs o => o.doOperation trialId trial cs)
        e.m_inputs.fileCaches } }

/-! ## Flushing buffered rows to the file -/

/-- The text of one row: every value of the front row of every cache, in cache
order, each followed by a comma (experiment.cpp 373-380). -/
def frontRow (trialId : Nat) (caches : List (Cache σ)) : QString :=
  (caches.map (fun c => ((c.readFrontRow trialId).map (fun v => v.toQString ++ [','])).flatten)).flatten

/-- One pass through the body of the do-while loop of `writeCachedSteps`
(experiment.cpp 373-382): pops the front row of every cache and writes the
line. -/
def writeRow (trialId : Nat) (e : Experiment σ) : Experiment σ :=
  { e with
    m_inputs := { e.m_inputs with
      fileCaches := e.m_inputs.fileCaches.map (fun c => c.flushFrontRow trialId) }
    files := fun j =>
      if j = trialId then
        e.files j ++ (chop (frontRow trialId e.m_inputs.fileCaches) 1 ++ ['\n'])
      else e.files j }

/-- The do-while loop of `writeCachedSteps` (experiment.cpp 372-386). It is
entered with the number of rows of the lead cache as fuel: every pass removes
one of them. -/
def writeRows (trialId : Nat) : Nat → Experiment σ → Experiment σ
  | 0, e => e
  | fuel + 1, e =>
    let e1 := writeRow trialId e
    match e1.m_inputs.fileCaches.head? with
    | none => e1
    | some lead => if lead.isEmpty trialId then e1 else writeRows trialId fuel e1

/-- Experiment::writeCachedSteps (experiment.cpp 358-390). -/
def writeCachedSteps (app : MainApp σ) (trialId : Nat) (e : Experiment σ) :
    Bool × Experiment σ :=
  match e.m_inputs.fileCaches.head? with
  | none => (true, e)
  | some lead =>
    if lead.isEmpty trialId then (true, e)
    else if app.openOk e.opens then
      (true, writeRows trialId (lead.rows trialId).length { e with opens := e.opens + 1 })
    else
      (false, { e with opens := e.opens + 1 })

/-! ## Node sets -/

/-- Modelled from the spec: `Utils::clone` deep-copies the attribute values of
a node set. -/
def Utils.clone (nodes : Nodes) : Nodes := nodes

/-- Experiment::createNodes (experiment.cpp 316-348). The assertion of line 329
is a debug check and has no effect. -/
def createNodes (gType : GraphType) (e : Experiment σ) : Nodes × Experiment σ :=
  if e.m_expStatus = Status.INVALID ∨ gType = GraphType.Invalid_Type then
    ([], e)
  else if e.m_clonableNodes ≠ [] then
    if (e.m_trials.length : Int) = e.m_numTrials - 1 then
      (e.m_clonableNodes, { e with m_clonableNodes := [] })
    else
      (Utils.clone e.m_clonableNodes, { e with clones := e.clones + 1 })
  else if e.m_inputs.nodes.2 ≠ [] ∨ e.m_inputs.nodes.1 = [] then
    ([], e)
  else if e.m_numTrials > 1 then
    (e.m_inputs.nodes.1,
      { e with m_clonableNodes := Utils.clone e.m_inputs.nodes.1, clones := e.clones + 1 })
  else
    (e.m_inputs.nodes.1, e)

/-! ## Trials -/

/-- Experiment::setExpStatus (experiment.cpp 424-429). -/
def setExpStatus (st : Status) (e : Experiment σ) : Experiment σ :=
  { e with m_expStatus := st }

/-- Modelled from the spec: `Experiment::pause()` (declared in `experiment.h`)
requests a pause of all trials; the request is recorded by lowering the pause
horizon to 0, the value `createTrial` fails fast on. -/
def pause (e : Experiment σ) : Experiment σ :=
  { e with m_pauseAt := 0 }

/-- Replaces the trial stored under `trialId`: the effect on `m_trials` of the
writes `processTrial` makes through the pointer `m_trials.at(trialId)`. -/
def storeTrial (trialId : Nat) (trial : AbstractModel σ) (e : Experiment σ) :
    Experiment σ :=
  { e with m_trials := e.m_trials.map (fun kv => if kv.1 = trialId then (kv.1, trial) else kv) }

/-- The file part of `createTrial` (experiment.cpp 292-310): creates the file
of the trial with the header and writes the row of the initial step. The flag
is `false` when the file cannot be opened. -/
def writeInitialStep (app : MainApp σ) (trialId : Nat) (modelObj : AbstractModel σ)
    (e : Experiment σ) : Bool × Experiment σ :=
  if e.m_inputs.fileCaches.isEmpty = false then
    if app.openOk e.opens then
      let e2 := { e with
        opens := e.opens + 1
        files := fun j => if j = trialId then e.m_fileHeader else e.files j }
      let e3 := doOperations trialId modelObj e2
      (true, (writeCachedSteps app trialId e3).2)
    else
      (false, { e with opens := e.opens + 1 })
  else
    (true, e)

/-- Experiment::createTrial (experiment.cpp 248-314). The result is `none` when
the process is aborted by `qFatal`; otherwise it is the new trial (`none` for
`nullptr`) and the state the call leaves. The model plugin returns the model
object as its constructor, `setup` and `init` leave it. -/
def createTrial (app : MainApp σ) (trialId : Nat) (e : Experiment σ) :
    Option (Option (AbstractModel σ) × Experiment σ) :=
  if e.m_expStatus = Status.INVALID ∨ e.m_pauseAt = 0 then
    some (none, e)
  else if (e.m_trials.length : Int) = e.m_numTrials then
    none
  else
    let r := createNodes e.m_inputs.graphType e
    let nodes := r.1
    let e1 := r.2
    if nodes = [] then
      some (none, e1)
    else
      let seed := trialSeed e1.m_inputs trialId
      if app.graph seed nodes = false then
        some (none, e1)
      else
        match app.modelPlugin seed nodes with
        | none => some (none, e1)
        | some modelObj =>
          let f := writeInitialStep app trialId modelObj e1
          if f.1 then
            some (some { modelObj with m_status := Status.READY }, f.2)
          else
            some (none, f.2)

/-- The stepping loop of `processTrial` (experiment.cpp 210-229), entered with
`m_pauseAt - m_currStep` as fuel: every pass increments `m_currStep`. The result
is the trial, the flag `algorithmConverged`, the state, and whether the loop
was left by the `return` of line 224 (a flush failed). -/
def stepLoop (app : MainApp σ) (trialId : Nat) :
    Nat → AbstractModel σ → Bool → Experiment σ → AbstractModel σ × Bool × Experiment σ × Bool
  | 0, trial, algorithmConverged, e => (trial, algorithmConverged, e, false)
  | fuel + 1, trial, algorithmConverged, e =>
    if trial.m_currStep < e.m_pauseAt ∧ algorithmConverged = false then
      let r := app.algorithmStep trial.model
      let trial1 := { trial with model := r.1, m_currStep := trial.m_currStep + 1 }
      let e1 := doOperations trialId trial1 e
      if e1.m_inputs.fileCaches.length ≠ 0 ∧ Int.tmod trial1.m_currStep app.stepsToFlush = 0 then
        let w := writeCachedSteps app trialId e1
        if w.1 = false then
          ({ trial1 with m_status := Status.INVALID }, r.2,
            pause (setExpStatus Status.INVALID w.2), true)
        else
          stepLoop app trialId fuel trial1 r.2 w.2
      else
        stepLoop app trialId fuel trial1 r.2 e1
    else
      (trial, algorithmConverged, e, false)

/-- The part of `processTrial` that advances a trial of the map
(experiment.cpp 200-246). -/
def runTrial (app : MainApp σ) (trialId : Nat) (e : Experiment σ) : Experiment σ :=
  match e.m_trials.lookup trialId with
  | none => e
  | some trial =>
    if trial.m_status ≠ Status.READY then e
    else
      let l := stepLoop app trialId (e.m_pauseAt - trial.m_currStep).toNat
        { trial with m_status := Status.RUNNING } false e
      let trial1 := l.1
      let e1 := l.2.2.1
      if l.2.2.2 then
        storeTrial trialId trial1 e1
      else if trial1.m_currStep ≥ e1.m_stopAt ∨ l.2.1 = true then
        let w := writeCachedSteps app trialId e1
        if w.1 then
          storeTrial trialId { trial1 with m_status := Status.FINISHED } w.2
        else
          pause (setExpStatus Status.INVALID
            (storeTrial trialId { trial1 with m_status := Status.INVALID } w.2))
      else
        storeTrial trialId { trial1 with m_status := Status.READY } e1

/-- Experiment::processTrial (experiment.cpp 185-246). The result is `none` when
`createTrial` aborts the process. -/
def processTrial (app : MainApp σ) (trialId : Nat) (e : Experiment σ) :
    Option (Experiment σ) :=
  if e.m_expStatus = Status.INVALID then
    some e
  else
    match e.m_trials.lookup trialId with
    | some _ => some (runTrial app trialId e)
    | none =>
      match createTrial app trialId e with
      | none => none
      | some (none, e1) => some (pause (setExpStatus Status.INVALID e1))
      | some (some trial, e1) =>
        some (runTrial app trialId { e1 with m_trials := e1.m_trials ++ [(trialId, trial)] })

/-! ## Reset -/

/-- Experiment::deleteTrials (experiment.cpp 125-135). -/
def deleteTrials (e : Experiment σ) : Experiment σ :=
  { e with m_trials := [], m_clonableNodes := [] }

/-- Experiment::reset (experiment.cpp 98-123). -/
def reset (app : MainApp σ) (e : Experiment σ) : Experiment σ :=
  if e.m_expStatus = Status.RUNNING ∨ e.m_expStatus = Status.QUEUED then
    e
  else
    let e1 := deleteTrials e
    { e1 with
      m_inputs := { e1.m_inputs with
        fileCaches := e1.m_outputs.foldl (fun cs o => o.flushAll cs) e1.m_inputs.fileCaches }
      m_delay := app.defaultStepDelay
      m_stopAt := e1.m_inputs.stopAt
      m_pauseAt := e1.m_inputs.stopAt
      m_progress := 0
      m_expStatus := Status.READY }

/-! ## Concrete configurations -/

/-- An output object observing attribute 0 of the nodes. -/
def exOutput : Output := ⟨1, 0, 0, 0⟩

/-- A file cache recording the model state as one value. -/
def exCache : Cache Nat :=
  { output := exOutput
    printableHeader := ['x']
    inputs := fun t => [⟨Nat.toDigits 10 t.model⟩]
    rows := fun _ => [] }

/-- A configuration with one file cache, three trials and stop horizon 10. -/
def exInputs : ExpInputs Nat :=
  { seed := 7, stopAt := 10, trials := 3, autoDelete := false,
    graphType := GraphType.Undirected, nodes := ([⟨0, []⟩], []), fileCaches := [exCache] }

/-- Collaborators that never fail: the model plugin stores the seed it is given
as the state of the model, a step adds one and never converges. -/
def exApp : MainApp Nat :=
  { stepsToFlush := 4, defaultStepDelay := 0
    graph := fun _ _ => true
    modelPlugin := fun seed _ => some ⟨0, Status.INVALID, seed.toNat⟩
    algorithmStep := fun n => (n + 1, false)
    openOk := fun _ => true }

/-- An experiment as `init` leaves it for `exInputs`, before `reset`. -/
def exExperiment : Experiment Nat :=
  { m_inputs := exInputs, m_outputs := [exOutput], m_fileHeader := ['x', '\n'],
    m_numTrials := 3, m_autoDeleteTrials := false, m_expStatus := Status.INVALID,
    m_trials := [], m_clonableNodes := [], m_delay := 0, m_stopAt := 0, m_pauseAt := 0,
    m_progress := 0, files := fun _ => [], opens := 0, clones := 0 }

/-- A running experiment of one trial that is at step 5 of a pause horizon of 10. -/
def exHalfway : Experiment Nat :=
  { exExperiment with
    m_numTrials := 1, m_expStatus := Status.RUNNING, m_stopAt := 10, m_pauseAt := 10,
    m_trials := [(0, ⟨5, Status.RUNNING, 12⟩)] }

/-- The experiment `exExperiment` with base seed 65536, reset. -/
def exBigSeed : Experiment Nat :=
  reset exApp { exExperiment with m_inputs := { exInputs with seed := 65536 } }


/-! ## Runs of several calls -/

/-- The calls `processTrial(id)` for the ids of a list, one after another. -/
def processTrials (app : MainApp σ) : List Nat → Experiment σ → Option (Experiment σ)
  | [], e => some e
  | trialId :: ids, e => (processTrial app trialId e).bind (processTrials app ids)

/-- Every call of the run `processTrials app ids e` finds its trial id absent
from the trial map and creates the trial successfully. -/
def createdInTurn (app : MainApp σ) : List Nat → Experiment σ → Bool
  | [], _ => true
  | trialId :: ids, e =>
    if e.m_expStatus = Status.INVALID then false
    else
      match e.m_trials.lookup trialId, createTrial app trialId e with
      | none, some (some trial, e1) =>
        createdInTurn app ids
          (runTrial app trialId { e1 with m_trials := e1.m_trials ++ [(trialId, trial)] })
      | _, _ => false

/-- The bookkeeping of the node sets of an experiment of `T` trials in which
`c0` clone operations had been made before the first trial was created: nothing
is retained before the first creation and after the last one, and one clone has
been made for each trial created so far except the last of the `T`. -/
def nodesInv (T : Int) (c0 : Nat) (e : Experiment σ) : Prop :=
  e.m_numTrials = T ∧
  ((e.m_trials.length = 0 ∧ e.m_clonableNodes = [] ∧ e.clones = c0) ∨
   (0 < e.m_trials.length ∧ (e.m_trials.length : Int) < T ∧ e.m_clonableNodes ≠ [] ∧
      e.clones = c0 + e.m_trials.length) ∨
   (0 < e.m_trials.length ∧ (e.m_trials.length : Int) = T ∧ e.m_clonableNodes = [] ∧
      (e.clones : Int) = c0 + (T - 1)))

/-- The model state after `n` algorithm steps. -/
def stepsFrom (app : MainApp σ) (n : Nat) (m : σ) : σ :=
  (fun s => (app.algorithmStep s).1)^[n] m

/-- The experiment `exExperiment` after `reset` and a call `processTrial(0)`
made with pause horizon -1 (the way `playNext` creates the trials without
stepping them), with the pause horizon then set to 5: trial 0 is Ready at
step 0, the stop horizon is 10. -/
def exCreated : Experiment Nat :=
  match processTrial exApp 0 { reset exApp exExperiment with m_pauseAt := -1 } with
  | some e => { e with m_pauseAt := 5 }
  | none => exExperiment

/-- The experiment `exCreated` after `processTrial(0)`, with the pause horizon
raised to 10. -/
def exResumed : Experiment Nat :=
  match processTrial exApp 0 exCreated with
  | some e => { e with m_pauseAt := 10 }
  | none => exExperiment

/-! ## The text of the rows -/

/-- A line of the file: the printed values joined with `,`, and a newline. -/
def csvLine (vals : Values) : QString :=
  [','].intercalate (vals.map (fun v => v.toQString)) ++ ['\n']

/-- The `k`-th oldest row buffered for a trial: the values of the `k`-th oldest
row of every cache, in cache order. -/
def bufferedRow (trialId : Nat) (caches : List (Cache σ)) (k : Nat) : Values :=
  caches.flatMap (fun c => (c.rows trialId).getD k [])

/-- The lines of the `n` oldest rows buffered for a trial. -/
def bufferedText (trialId : Nat) (caches : List (Cache σ)) (n : Nat) : QString :=
  ((List.range n).map (fun k => csvLine (bufferedRow trialId caches k))).flatten

/-- A cache without the `n` oldest rows of a trial. -/
def Cache.dropRows (c : Cache σ) (trialId : Nat) (n : Nat) : Cache σ :=
  { c with rows := fun j => if j = trialId then (c.rows j).drop n else c.rows j }

/-- A file cache holding two rows of two values for trial 0. -/
def exLeadCache : Cache Nat :=
  { exCache with
    rows := fun j => if j = 0 then [[⟨['1']⟩, ⟨['2']⟩], [⟨['3']⟩, ⟨['4']⟩]] else [] }

/-- An experiment with two file caches that both hold two buffered rows for
trial 0, whose file holds the header. -/
def exBuffered : Experiment Nat :=
  { reset exApp exExperiment with
    m_inputs := { exInputs with
      fileCaches :=
        [exLeadCache,
         { exCache with
            output := ⟨2, 1, 0, 0⟩
            rows := fun j => if j = 0 then [[⟨['a']⟩], [⟨['b']⟩]] else [] }] }
    m_outputs := [exOutput, ⟨2, 1, 0, 0⟩]
    files := fun j => if j = 0 then ['x', ',', 'y', '\n'] else [] }

/-- The collaborators of `exApp` with a file system that refuses every open. -/
def exAppNoOpen : MainApp Nat :=
  { exApp with openOk := fun _ => false }

/-- The collaborators of `exApp` with a model plugin whose setup fails for the
generator seeded with 8, the seed of trial 1 of `exExperiment`. -/
def exAppFail : MainApp Nat :=
  { exApp with
    modelPlugin := fun seed _ => if seed = 8 then none else some ⟨0, Status.INVALID, seed.toNat⟩ }

/-- The experiment `exExperiment` after `reset` and the call `processTrial(0)`
with the collaborators `exAppFail`: trial 0 is created and finished. -/
def exAfterTrial0 : Experiment Nat :=
  match processTrial exAppFail 0 (reset exAppFail exExperiment) with
  | some e => e
  | none => exExperiment

/-! ## Notions used to describe the file of a trial -/

/-- The output of every file cache is registered in `m_outputs`, an output
object being registered once: the state `init` leaves for the file caches. -/
def wired (e : Experiment σ) : Prop :=
  (e.m_outputs.map (fun o => o.addr)).Nodup ∧
  ∀ c ∈ e.m_inputs.fileCaches, c.output.addr ∈ e.m_outputs.map (fun o => o.addr)

/-- The line the caches record for a state of a trial. -/
def rowOf (caches : List (Cache σ)) (t : AbstractModel σ) : QString :=
  csvLine (caches.flatMap (fun c => c.inputs t))

/-- The trial as the sinks see it at step `i` of its first run: the object the
model plugin returned at step 0, the running trial afterwards. -/
def observed (app : MainApp σ) (m0 : AbstractModel σ) : Nat → AbstractModel σ
  | 0 => m0
  | i + 1 => ⟨((i + 1 : Nat) : Int), Status.RUNNING, stepsFrom app (i + 1) m0.model⟩

/-- The state a pass of the stepping loop leaves when its flush, if any,
succeeds: the sinks are fed and, at a multiple of the cadence, flushed. -/
def passState (app : MainApp σ) (trialId : Nat) (trial1 : AbstractModel σ)
    (e : Experiment σ) : Experiment σ :=
  if (doOperations trialId trial1 e).m_inputs.fileCaches.length ≠ 0 ∧
      Int.tmod trial1.m_currStep app.stepsToFlush = 0 then
    (writeCachedSteps app trialId (doOperations trialId trial1 e)).2
  else
    doOperations trialId trial1 e

/-- Two lists of caches are the same sinks: they agree on everything but the
buffered rows. -/
def sameSinks (cs cs' : List (Cache σ)) : Prop :=
  cs'.map (fun c => (c.output, c.inputs)) = cs.map (fun c => (c.output, c.inputs))

/-- The file expected for a trial of `exExperiment` seeded with 7: the header
and the eleven rows of the steps 0 to 10. -/
def exExpectedFile : QString :=
  "x\n7\n8\n9\n10\n11\n12\n13\n14\n15\n16\n17\n".toList

/-! ## Initialisation and the output set -/

/-- Insertion into `m_outputs`, a `std::unordered_set<OutputPtr>`: the set is
keyed by the identity of the object, an object already in it is not added. -/
def insertOutput (o : Output) (s : List Output) : List Output :=
  if s.any (fun x => x.addr == o.addr) then s else s ++ [o]

/-- The loop of `init` over the file caches (experiment.cpp 78-82): the header
grows by the printable header of the cache and a comma, the output of the
cache is inserted into the output set. -/
def initCaches (caches : List (Cache σ)) : QString × List Output :=
  caches.foldl (fun acc c => (acc.1 ++ (c.printableHeader ++ [',']), insertOutput c.output acc.2))
    ([], [])

/-- The message `init` gives when it refuses a running experiment. -/
def initError : QString :=
  "Tried to initialize a running experiment.\nPlease, pause it and try again.".toList

/-- Experiment::init (experiment.cpp 57-96). The result is the returned flag,
the content of `error` after the call and the state. The plugin handles of
lines 90-91 are the plugin functions of `MainApp`. -/
def init (app : MainApp σ) (inputs : ExpInputs σ) (error : QString) (e : Experiment σ) :
    Bool × QString × Experiment σ :=
  if e.m_expStatus = Status.RUNNING ∨ e.m_expStatus = Status.QUEUED then
    (false, initError, e)
  else
    let e1 := { e with m_outputs := [], m_inputs := inputs, m_fileHeader := [] }
    let e2 :=
      if inputs.fileCaches.isEmpty = false then
        { e1 with
          m_fileHeader := chop (initCaches inputs.fileCaches).1 1 ++ ['\n']
          m_outputs := (initCaches inputs.fileCaches).2 }
      else e1
    (true, error,
      reset app { e2 with m_numTrials := inputs.trials, m_autoDeleteTrials := inputs.autoDelete })

/-- Experiment::removeOutput (experiment.cpp 392-412). `outputIsEmpty` is the
result of `output->isEmpty()`, a method of the class `Output`, which is not
among the sources: whether the buffer of the sink is empty. -/
def removeOutput (output : Output) (outputIsEmpty : Bool) (e : Experiment σ) :
    Bool × Experiment σ :=
  if e.m_expStatus ≠ Status.READY then
    (false, e)
  else if outputIsEmpty = false then
    (false, e)
  else if e.m_outputs.any (fun x => x.addr == output.addr) = false then
    (false, e)
  else
    (true, { e with m_outputs := e.m_outputs.filter (fun x => x.addr != output.addr) })

/-- Modelled from the spec: `Output::operator==` compares the observed
attribute, the entity and the aggregation, not the identity of the object. -/
def Output.sameAs (o find : Output) : Bool :=
  o.attr == find.attr && o.entity == find.entity && o.func == find.func

/-- Experiment::searchOutput (experiment.cpp 414-422). -/
def searchOutput (find : Output) (e : Experiment σ) : Option Output :=
  e.m_outputs.find? (fun o => o.sameAs find)

/-- A configuration with two file caches whose outputs are distinct objects
describing the same attribute, entity and aggregation. -/
def exTwinInputs : ExpInputs Nat :=
  { exInputs with
    fileCaches := [exCache, { exCache with output := ⟨2, 0, 0, 0⟩ }] }

/-- A running experiment: `exExperiment` reset and started. -/
def exRunning : Experiment Nat :=
  { reset exApp exExperiment with m_expStatus := Status.RUNNING }

/-- The experiment `exCreated` with its pause horizon lowered to 0. -/
def exPaused : Experiment Nat :=
  { exCreated with m_pauseAt := 0 }

/-- The invariant of the trial map of an experiment of `T` trials: at most `T`
trials, each id mapped once, and a pause horizon other than 0 as long as
trials exist and the experiment is not Invalid. -/
def mapInv (T : Int) (s : Experiment σ) : Prop :=
  s.m_numTrials = T ∧ (s.m_trials.length : Int) ≤ T ∧
  (s.m_trials.map Prod.fst).Nodup ∧
  (s.m_expStatus ≠ Status.INVALID → 0 < s.m_trials.length → s.m_pauseAt ≠ 0)

/-- The experiment `exExperiment` after `reset` and the calls `processTrial` for
the trial ids 0, 1 and 2: all three trials are created and finished. -/
def exAllTrials : Experiment Nat :=
  match processTrials exApp [0, 1, 2] (reset exApp exExperiment) with
  | some e => e
  | none => exExperiment

/-! ## States of a driven experiment -/

/-- The states an experiment reaches from a reset: by `processTrial` calls, by
changes of the pause horizon within `1..stopAt`, and by the status changes the
dispatcher makes through `setExpStatus`. -/
inductive Reachable (app : MainApp σ) (e0 : Experiment σ) : Experiment σ → Prop
  | start : Reachable app e0 (reset app e0)
  | call (s s' : Experiment σ) (trialId : Nat) :
      Reachable app e0 s → processTrial app trialId s = some s' → Reachable app e0 s'
  | horizon (s : Experiment σ) (p : Int) :
      Reachable app e0 s → 1 ≤ p → p ≤ s.m_stopAt → Reachable app e0 { s with m_pauseAt := p }
  | status (s : Experiment σ) (st : Status) :
      Reachable app e0 s → Reachable app e0 (setExpStatus st s)

/-- The experiment `exExperiment` reset, set Running by the dispatcher, given
the pause horizon 5 (the stop horizon is 10) and advanced by `processTrial`
for its three trials: every trial is Ready at step 5. -/
def exAtPause : Experiment Nat :=
  match processTrials exApp [0, 1, 2]
    { setExpStatus Status.RUNNING (reset exApp exExperiment) with m_pauseAt := 5 } with
  | some e => e
  | none => exExperiment

/-- The cadence flush of a pass of the stepping loop is due and fails: the
condition of the `if` of experiment.cpp 218-220, for the trial `trial1` as it
is after the step of the pass. -/
def flushFails (app : MainApp σ) (trialId : Nat) (trial1 : AbstractModel σ)
    (e : Experiment σ) : Prop :=
  ((doOperations trialId trial1 e).m_inputs.fileCaches.length ≠ 0 ∧
      Int.tmod trial1.m_currStep app.stepsToFlush = 0) ∧
    (writeCachedSteps app trialId (doOperations trialId trial1 e)).1 = false

/-- The stepping loop of a call `processTrial` for a Ready trial of the map, as
`runTrial` enters it. -/
def loopOf (app : MainApp σ) (trialId : Nat) (trial : AbstractModel σ) (e : Experiment σ) :
    AbstractModel σ × Bool × Experiment σ × Bool :=
  stepLoop app trialId (e.m_pauseAt - trial.m_currStep).toNat
    { trial with m_status := Status.RUNNING } false e

/-- The first `n` passes of the stepping loop of such a call. -/
def firstPasses (app : MainApp σ) (trialId : Nat) (trial : AbstractModel σ) (e : Experiment σ)
    (n : Nat) : AbstractModel σ × Bool × Experiment σ × Bool :=
  stepLoop app trialId n { trial with m_status := Status.RUNNING } false e

/-- The final flush of a call (experiment.cpp 236), made in the state the
stepping loop leaves. -/
def finalFlush (app : MainApp σ) (trialId : Nat) (trial : AbstractModel σ)
    (e : Experiment σ) : Bool × Experiment σ :=
  writeCachedSteps app trialId (loopOf app trialId trial e).2.2.1

/-- Collaborators whose model signals convergence when its state reaches 9. -/
def exAppConv : MainApp Nat :=
  { exApp with algorithmStep := fun n => (n + 1, decide (9 ≤ n + 1)) }

/-- The collaborators `exAppConv` with a file system in which only the first two
opens succeed. -/
def exAppConvNoOpen : MainApp Nat :=
  { exAppConv with openOk := fun n => decide (n < 2) }

/-! ## Notions used to count the buffered rows -/

/-- What the file caches hold for one trial between two calls, `F` being the
flush cadence: nothing as long as the trial is not in the map, `currStep mod F`
rows while it is Ready and nothing once it is Finished. -/
def trialRows (app : MainApp σ) (trialId : Nat) (s : Experiment σ) : Prop :=
  (s.m_trials.lookup trialId = none → ∀ c ∈ s.m_inputs.fileCaches, c.rows trialId = []) ∧
  ∀ t, s.m_trials.lookup trialId = some t →
    0 ≤ t.m_currStep ∧
    (t.m_status = Status.READY → ∀ c ∈ s.m_inputs.fileCaches,
      ((c.rows trialId).length : Int) = t.m_currStep % app.stepsToFlush) ∧
    (t.m_status = Status.FINISHED → ∀ c ∈ s.m_inputs.fileCaches,
      (c.rows trialId).length = 0)

/-- The invariant of the buffered rows: the file caches, at least one, are
registered through their outputs and hold for every trial id what `trialRows`
says. -/
def rowsInv (app : MainApp σ) (s : Experiment σ) : Prop :=
  wired s ∧ 0 < s.m_inputs.fileCaches.length ∧ ∀ trialId, trialRows app trialId s

/-- The experiment `init` leaves for the configuration `exInputs`. -/
def exInit : Experiment Nat :=
  (init exApp exInputs [] exExperiment).2.2

/-- The experiment `exInit` reset, given the pause horizon 5 and advanced by a
first call `processTrial(0)`, which creates trial 0 and leaves it Ready at step
5. -/
def exReadyAt5 : Experiment Nat :=
  match processTrial exApp 0 { reset exApp exInit with m_pauseAt := 5 } with
  | some e => e
  | none => exExperiment

/-- The experiment `exReadyAt5` with the pause horizon raised to 10. -/
def exPausedAt5 : Experiment Nat :=
  { exReadyAt5 with m_pauseAt := 10 }

/-- The experiment `exPausedAt5` after a second call `processTrial(0)`, which
resumes trial 0 at step 5 and finishes it at step 10. -/
def exFinishedAt10 : Experiment Nat :=
  match processTrial exApp 0 exPausedAt5 with
  | some e => e
  | none => exExperiment

/-! ## Which fields the operations touch -/

theorem doOperations_shape (trialId : Nat) (trial : AbstractModel σ) (e : Experiment σ) :
    ∃ cs, doOperations trialId trial e =
      { e with m_inputs := { e.m_inputs with fileCaches := cs } } :=
  ⟨_, rfl⟩

theorem writeRows_shape (trialId : Nat) (fuel : Nat) (e : Experiment σ) :
    ∃ cs fs, writeRows trialId fuel e =
      { e with m_inputs := { e.m_inputs with fileCaches := cs }, files := fs } := by
  induction fuel generalizing e with
  | zero => exact ⟨_, _, rfl⟩
  | succ n ih =>
    simp only [writeRows]
    split
    · exact ⟨_, _, rfl⟩
    · split
      · exact ⟨_, _, rfl⟩
      · obtain ⟨cs, fs, h⟩ := ih (writeRow trialId e)
        exact ⟨cs, fs, h⟩

theorem writeCachedSteps_shape (app : MainApp σ) (trialId : Nat) (e : Experiment σ) :
    ∃ cs fs n, (writeCachedSteps app trialId e).2 =
      { e with m_inputs := { e.m_inputs with fileCaches := cs }, files := fs, opens := n } := by
  simp only [writeCachedSteps]
  split
  · exact ⟨_, _, _, rfl⟩
  · split
    · exact ⟨_, _, _, rfl⟩
    · split
      · obtain ⟨cs, fs, h⟩ := writeRows_shape trialId _ { e with opens := e.opens + 1 }
        exact ⟨cs, fs, e.opens + 1, h⟩
      · exact ⟨_, _, _, rfl⟩

theorem stepLoop_shape (app : MainApp σ) (trialId : Nat) (fuel : Nat)
    (trial : AbstractModel σ) (conv : Bool) (e : Experiment σ) :
    ∃ cs fs n st pa, (stepLoop app trialId fuel trial conv e).2.2.1 =
      { e with m_inputs := { e.m_inputs with fileCaches := cs }, files := fs, opens := n,
               m_expStatus := st, m_pauseAt := pa } := by
  induction fuel generalizing trial conv e with
  | zero => exact ⟨_, _, _, _, _, rfl⟩
  | succ k ih =>
    simp only [stepLoop]
    generalize (⟨trial.m_currStep + 1, trial.m_status, (app.algorithmStep trial.model).1⟩ :
      AbstractModel σ) = T
    generalize (app.algorithmStep trial.model).2 = c
    obtain ⟨cs1, h1⟩ := doOperations_shape trialId T e
    obtain ⟨cs2, fs2, n2, h2⟩ := writeCachedSteps_shape app trialId (doOperations trialId T e)
    split
    · split
      · split
        · exact ⟨cs2, fs2, n2, Status.INVALID, 0, by simp only [pause, setExpStatus]; rw [h2, h1]⟩
        · obtain ⟨cs3, fs3, n3, st3, pa3, h3⟩ :=
            ih T c (writeCachedSteps app trialId (doOperations trialId T e)).2
          exact ⟨cs3, fs3, n3, st3, pa3, by rw [h3, h2, h1]⟩
      · obtain ⟨cs3, fs3, n3, st3, pa3, h3⟩ := ih T c (doOperations trialId T e)
        exact ⟨cs3, fs3, n3, st3, pa3, by rw [h3, h1]⟩
    · exact ⟨_, _, _, _, _, rfl⟩

theorem storeTrial_keys (trialId : Nat) (t : AbstractModel σ)
    (l : List (Nat × AbstractModel σ)) :
    (l.map (fun kv => if kv.1 = trialId then (kv.1, t) else kv)).map Prod.fst
      = l.map Prod.fst := by
  induction l with
  | nil => rfl
  | cons a l ih =>
    simp only [List.map_cons, ih]
    split <;> rfl

theorem runTrial_shape (app : MainApp σ) (trialId : Nat) (e : Experiment σ) :
    ∃ cs fs n st pa tr, runTrial app trialId e =
      { e with m_inputs := { e.m_inputs with fileCaches := cs }, files := fs, opens := n,
               m_expStatus := st, m_pauseAt := pa, m_trials := tr } ∧
      tr.map Prod.fst = e.m_trials.map Prod.fst := by
  simp only [runTrial]
  split
  · exact ⟨_, _, _, _, _, _, rfl, rfl⟩
  · rename_i trial _
    generalize (⟨trial.m_currStep, Status.RUNNING, trial.model⟩ : AbstractModel σ) = T
    generalize (e.m_pauseAt - trial.m_currStep).toNat = fuel
    obtain ⟨cs, fs, n, st, pa, h⟩ := stepLoop_shape app trialId fuel T false e
    obtain ⟨cs2, fs2, n2, h2⟩ := writeCachedSteps_shape app trialId
      (stepLoop app trialId fuel T false e).2.2.1
    split
    · exact ⟨_, _, _, _, _, _, rfl, rfl⟩
    · split
      · exact ⟨cs, fs, n, st, pa, _, by simp only [storeTrial]; rw [h], storeTrial_keys _ _ _⟩
      · split
        · split
          · exact ⟨cs2, fs2, n2, st, pa, _, by simp only [storeTrial]; rw [h2, h],
              storeTrial_keys _ _ _⟩
          · exact ⟨cs2, fs2, n2, Status.INVALID, 0, _,
              by simp only [storeTrial, pause, setExpStatus]; rw [h2, h], storeTrial_keys _ _ _⟩
        · exact ⟨cs, fs, n, st, pa, _, by simp only [storeTrial]; rw [h], storeTrial_keys _ _ _⟩

/-! ## Progress (C1) -/

/-- C1 (code defect): for a running experiment of one trial at step 5 of a pause
horizon of 10, `updateProgressValue` leaves progress 0, because the ratio
`currStep / pauseAt` is computed by integer division, while the stated formula
with the exact ratio gives 180. -/
theorem C1_updateProgressValue_integer_division :
    exHalfway.m_numTrials = 1 ∧ exHalfway.m_pauseAt = 10 ∧
    exHalfway.m_expStatus = Status.RUNNING ∧
    (updateProgressValue exHalfway).m_progress = 0 ∧ progressSpec exHalfway = 180 ∧
    ((updateProgressValue exHalfway).m_progress : Int) ≠ progressSpec exHalfway := by
  have h1 : (updateProgressValue exHalfway).m_progress = 0 := by
    have h : Int.tdiv 5 10 = 0 := by decide
    simp [updateProgressValue, exHalfway, exExperiment, h]
  have h2 : progressSpec exHalfway = 180 := by
    simp [progressSpec, exHalfway, exExperiment]
    norm_num [Int.ceil_eq_iff]
  refine ⟨rfl, rfl, rfl, h1, h2, ?_⟩
  rw [h1, h2]
  decide

/-! ## Seed (C2) -/

/-- C2 (code defect): with the configured base seed 65536, which the seed field
accepts, `createTrial` seeds the generator of trial 0 with 0 and not with
65536 + 0: the model plugin of `exApp` stores the seed it receives. -/
theorem C2_createTrial_seed_wraps :
    exBigSeed.m_inputs.seed = 65536 ∧
    trialSeed exBigSeed.m_inputs 0 = 0 ∧
    trialSeed exBigSeed.m_inputs 0 ≠ exBigSeed.m_inputs.seed + 0 ∧
    (createTrial exApp 0 exBigSeed).map (fun r => r.1.map (fun t => t.model)) = some (some 0) := by
  refine ⟨rfl, rfl, by decide, ?_⟩
  rfl

/-! ## Node-set reuse (C3) -/

theorem writeInitialStep_shape (app : MainApp σ) (trialId : Nat)
    (modelObj : AbstractModel σ) (e : Experiment σ) :
    ∃ cs fs n, (writeInitialStep app trialId modelObj e).2 =
      { e with m_inputs := { e.m_inputs with fileCaches := cs }, files := fs, opens := n } := by
  simp only [writeInitialStep]
  split
  · split
    · obtain ⟨cs, fs, n, hw⟩ := writeCachedSteps_shape app trialId
        (doOperations trialId modelObj { e with
          opens := e.opens + 1
          files := fun j => if j = trialId then e.m_fileHeader else e.files j })
      exact ⟨cs, fs, n, hw⟩
    · exact ⟨_, _, _, rfl⟩
  · exact ⟨_, _, _, rfl⟩

theorem createTrial_success (app : MainApp σ) (trialId : Nat) (e e1 : Experiment σ)
    (trial : AbstractModel σ) (h : createTrial app trialId e = some (some trial, e1)) :
    e.m_expStatus ≠ Status.INVALID ∧ e.m_pauseAt ≠ 0 ∧
    (e.m_trials.length : Int) ≠ e.m_numTrials ∧
    (createNodes e.m_inputs.graphType e).1 ≠ [] ∧
    ∃ cs fs n, e1 = { (createNodes e.m_inputs.graphType e).2 with
      m_inputs := { (createNodes e.m_inputs.graphType e).2.m_inputs with fileCaches := cs },
      files := fs, opens := n } := by
  unfold createTrial at h
  split at h
  · simp at h
  · rename_i h0
    split at h
    · simp at h
    · rename_i h1
      simp only at h
      split at h
      · simp at h
      · rename_i h2
        split at h
        · simp at h
        · split at h
          · simp at h
          · rename_i modelObj _
            split at h
            · simp only [Option.some.injEq, Prod.mk.injEq] at h
              obtain ⟨cs, fs, n, hw⟩ := writeInitialStep_shape app trialId modelObj
                (createNodes e.m_inputs.graphType e).2
              exact ⟨fun h' => h0 (Or.inl h'), fun h' => h0 (Or.inr h'), h1, h2,
                cs, fs, n, h.2.symm.trans hw⟩
            · simp at h

theorem createNodes_cases (gType : GraphType) (e : Experiment σ)
    (hne : (createNodes gType e).1 ≠ []) :
    (e.m_clonableNodes ≠ [] ∧ (e.m_trials.length : Int) = e.m_numTrials - 1 ∧
      createNodes gType e = (e.m_clonableNodes, { e with m_clonableNodes := [] })) ∨
    (e.m_clonableNodes ≠ [] ∧ (e.m_trials.length : Int) ≠ e.m_numTrials - 1 ∧
      createNodes gType e =
        (Utils.clone e.m_clonableNodes, { e with clones := e.clones + 1 })) ∨
    (e.m_clonableNodes = [] ∧ 1 < e.m_numTrials ∧ e.m_inputs.nodes.1 ≠ [] ∧
      createNodes gType e = (e.m_inputs.nodes.1,
        { e with m_clonableNodes := Utils.clone e.m_inputs.nodes.1,
                 clones := e.clones + 1 })) ∨
    (e.m_clonableNodes = [] ∧ ¬ 1 < e.m_numTrials ∧ e.m_inputs.nodes.1 ≠ [] ∧
      createNodes gType e = (e.m_inputs.nodes.1, e)) := by
  unfold createNodes at hne ⊢
  split
  · rename_i h; simp [h] at hne
  · rename_i h0
    split
    · rename_i h1
      split
      · rename_i h2; exact Or.inl ⟨h1, h2, rfl⟩
      · rename_i h2; exact Or.inr (Or.inl ⟨h1, h2, rfl⟩)
    · rename_i h1
      have h1' : e.m_clonableNodes = [] := by simpa using h1
      split
      · rename_i h2; simp [h0, h1, h2] at hne
      · rename_i h2
        have h3 : e.m_inputs.nodes.1 ≠ [] := fun h' => h2 (Or.inr h')
        split
        · rename_i h4; exact Or.inr (Or.inr (Or.inl ⟨h1', h4, h3, rfl⟩))
        · rename_i h4; exact Or.inr (Or.inr (Or.inr ⟨h1', h4, h3, rfl⟩))

theorem createTrial_run_fields (app : MainApp σ) (trialId : Nat)
    (e e1 : Experiment σ) (trial : AbstractModel σ)
    (h : createTrial app trialId e = some (some trial, e1)) :
    (runTrial app trialId
      { e1 with m_trials := e1.m_trials ++ [(trialId, trial)] }).m_numTrials
        = (createNodes e.m_inputs.graphType e).2.m_numTrials ∧
    (runTrial app trialId
      { e1 with m_trials := e1.m_trials ++ [(trialId, trial)] }).m_clonableNodes
        = (createNodes e.m_inputs.graphType e).2.m_clonableNodes ∧
    (runTrial app trialId
      { e1 with m_trials := e1.m_trials ++ [(trialId, trial)] }).clones
        = (createNodes e.m_inputs.graphType e).2.clones ∧
    (runTrial app trialId
      { e1 with m_trials := e1.m_trials ++ [(trialId, trial)] }).m_trials.length
        = (createNodes e.m_inputs.graphType e).2.m_trials.length + 1 := by
  obtain ⟨_, _, _, _, cs, fs, n, he1⟩ := createTrial_success app trialId e e1 trial h
  obtain ⟨cs', fs', n', st', pa', tr, hrun, hkeys⟩ := runTrial_shape app trialId
    { e1 with m_trials := e1.m_trials ++ [(trialId, trial)] }
  have hlen : tr.length = e1.m_trials.length + 1 := by
    have := congrArg List.length hkeys
    simpa using this
  rw [hrun]
  subst he1
  exact ⟨rfl, rfl, rfl, hlen⟩

theorem nodesInv_step (app : MainApp σ) (T : Int) (c0 : Nat) (trialId : Nat)
    (e e1 : Experiment σ) (trial : AbstractModel σ) (hT1 : 1 ≤ T) (hinv : nodesInv T c0 e)
    (h : createTrial app trialId e = some (some trial, e1)) :
    nodesInv T c0
      (runTrial app trialId { e1 with m_trials := e1.m_trials ++ [(trialId, trial)] }) ∧
    (runTrial app trialId
      { e1 with m_trials := e1.m_trials ++ [(trialId, trial)] }).m_trials.length
      = e.m_trials.length + 1 := by
  obtain ⟨_, _, hsz, hne, _⟩ := createTrial_success app trialId e e1 trial h
  obtain ⟨f1, f2, f3, f4⟩ := createTrial_run_fields app trialId e e1 trial h
  obtain ⟨hT, hinv⟩ := hinv
  have hclone : ∀ ns : Nodes, ns ≠ [] → Utils.clone ns ≠ [] := fun _ hns => hns
  unfold nodesInv
  rw [f1, f2, f3, f4]
  rcases createNodes_cases e.m_inputs.graphType e hne with
    ⟨hc, hk, hcn⟩ | ⟨hc, hk, hcn⟩ | ⟨hc, hk, hn, hcn⟩ | ⟨hc, hk, hn, hcn⟩
  · rw [hcn]
    refine ⟨⟨hT, ?_⟩, rfl⟩
    rcases hinv with ⟨h0, h1, h2⟩ | ⟨h0, h1, h2, h3⟩ | ⟨h0, h1, h2, h3⟩
    · exact absurd h1 hc
    · exact Or.inr (Or.inr ⟨by omega, by show ((e.m_trials.length + 1 : Nat) : Int) = T; omega,
        rfl, by show (e.clones : Int) = c0 + (T - 1); omega⟩)
    · exact absurd h2 hc
  · rw [hcn]
    refine ⟨⟨hT, ?_⟩, rfl⟩
    rcases hinv with ⟨h0, h1, h2⟩ | ⟨h0, h1, h2, h3⟩ | ⟨h0, h1, h2, h3⟩
    · exact absurd h1 hc
    · exact Or.inr (Or.inl ⟨by omega, by show ((e.m_trials.length + 1 : Nat) : Int) < T; omega,
        hc, by show e.clones + 1 = c0 + (e.m_trials.length + 1); omega⟩)
    · exact absurd h2 hc
  · rw [hcn]
    refine ⟨⟨hT, ?_⟩, rfl⟩
    rcases hinv with ⟨h0, h1, h2⟩ | ⟨h0, h1, h2, h3⟩ | ⟨h0, h1, h2, h3⟩
    · exact Or.inr (Or.inl ⟨by omega, by show ((e.m_trials.length + 1 : Nat) : Int) < T; omega,
        hclone _ hn, by show e.clones + 1 = c0 + (e.m_trials.length + 1); omega⟩)
    · exact absurd hc h2
    · exact absurd (hT ▸ h1) hsz
  · rw [hcn]
    refine ⟨⟨hT, ?_⟩, rfl⟩
    rcases hinv with ⟨h0, h1, h2⟩ | ⟨h0, h1, h2, h3⟩ | ⟨h0, h1, h2, h3⟩
    · exact Or.inr (Or.inr ⟨by omega, by show ((e.m_trials.length + 1 : Nat) : Int) = T; omega,
        hc, by show (e.clones : Int) = c0 + (T - 1); omega⟩)
    · exact absurd hc h2
    · exact absurd (hT ▸ h1) hsz

theorem createdInTurn_cons (app : MainApp σ) (trialId : Nat) (ids : List Nat)
    (e : Experiment σ) (h : createdInTurn app (trialId :: ids) e = true) :
    ∃ trial e1, createTrial app trialId e = some (some trial, e1) ∧
      processTrial app trialId e = some
        (runTrial app trialId { e1 with m_trials := e1.m_trials ++ [(trialId, trial)] }) ∧
      createdInTurn app ids
        (runTrial app trialId { e1 with m_trials := e1.m_trials ++ [(trialId, trial)] })
          = true ∧
      e.m_expStatus ≠ Status.INVALID ∧ e.m_trials.lookup trialId = none := by
  rw [createdInTurn] at h
  split at h
  · simp at h
  · rename_i hst
    split at h
    · rename_i trial e1 hl hc
      refine ⟨trial, e1, hc, ?_, h, hst, hl⟩
      simp only [processTrial, hst, if_false, hl, hc]
    · simp at h

theorem createdInTurn_intro (app : MainApp σ) (trialId : Nat) (ids : List Nat)
    (e e1 : Experiment σ) (trial : AbstractModel σ)
    (hst : e.m_expStatus ≠ Status.INVALID) (hl : e.m_trials.lookup trialId = none)
    (hc : createTrial app trialId e = some (some trial, e1))
    (h : createdInTurn app ids
        (runTrial app trialId { e1 with m_trials := e1.m_trials ++ [(trialId, trial)] })
          = true) :
    createdInTurn app (trialId :: ids) e = true := by
  rw [createdInTurn, if_neg hst]
  simp only [hl, hc]
  exact h

theorem nodesInv_run (app : MainApp σ) (T : Int) (c0 : Nat) (hT1 : 1 ≤ T) (ids : List Nat) :
    ∀ e : Experiment σ, nodesInv T c0 e → createdInTurn app ids e = true →
      ∃ final, processTrials app ids e = some final ∧ nodesInv T c0 final ∧
        final.m_trials.length = e.m_trials.length + ids.length := by
  induction ids with
  | nil => intro e hinv _; exact ⟨e, rfl, hinv, rfl⟩
  | cons a ids ih =>
    intro e hinv hok
    obtain ⟨trial, e1, hc, hp, hrest, _, _⟩ := createdInTurn_cons app a ids e hok
    obtain ⟨hinv', hlen'⟩ := nodesInv_step app T c0 a e e1 trial hT1 hinv hc
    obtain ⟨final, hf, hfinv, hflen⟩ := ih _ hinv' hrest
    refine ⟨final, ?_, hfinv, ?_⟩
    · simp only [processTrials, hp, Option.some_bind, hf]
    · rw [hflen, hlen', List.length_cons]; omega

theorem processTrials_append (app : MainApp σ) (l1 l2 : List Nat) (e : Experiment σ) :
    processTrials app (l1 ++ l2) e = (processTrials app l1 e).bind (processTrials app l2) := by
  induction l1 generalizing e with
  | nil => rfl
  | cons a l ih =>
    simp only [List.cons_append, processTrials]
    cases processTrial app a e with
    | none => rfl
    | some e' => exact ih e'

theorem createdInTurn_append (app : MainApp σ) (l1 l2 : List Nat) (e : Experiment σ)
    (h : createdInTurn app (l1 ++ l2) e = true) :
    createdInTurn app l1 e = true ∧
      ∀ mid, processTrials app l1 e = some mid → createdInTurn app l2 mid = true := by
  induction l1 generalizing e with
  | nil =>
    refine ⟨rfl, ?_⟩
    intro mid hmid
    have hm : e = mid := by simpa [processTrials] using hmid
    subst hm
    exact h
  | cons a l ih =>
    obtain ⟨trial, e1, hc, hp, hrest, hst, hl⟩ := createdInTurn_cons app a (l ++ l2) e h
    obtain ⟨h1, h2⟩ := ih _ hrest
    refine ⟨createdInTurn_intro app a l e e1 trial hst hl hc h1, ?_⟩
    intro mid hmid
    simp only [processTrials, hp, Option.some_bind] at hmid
    exact h2 mid hmid

theorem reset_fresh (app : MainApp σ) (e : Experiment σ)
    (hst : e.m_expStatus ≠ Status.RUNNING ∧ e.m_expStatus ≠ Status.QUEUED) :
    (reset app e).m_trials = [] ∧ (reset app e).m_clonableNodes = [] ∧
    (reset app e).m_numTrials = e.m_numTrials ∧
    (reset app e).m_pauseAt = e.m_inputs.stopAt ∧ (reset app e).m_stopAt = e.m_inputs.stopAt ∧
    (reset app e).m_progress = 0 ∧ (reset app e).m_expStatus = Status.READY := by
  have h : ¬ (e.m_expStatus = Status.RUNNING ∨ e.m_expStatus = Status.QUEUED) := by
    intro h'; rcases h' with h' | h'
    · exact hst.1 h'
    · exact hst.2 h'
  simp [reset, h, deleteTrials]

/-- C3: node-set reuse. When the `T ≥ 1` trials of a freshly reset experiment
are created successfully one after another by `processTrial`, the run performs
exactly `T - 1` clone operations in total (none for `T = 1`); the `T`-th
creation makes no clone: `createNodes` hands it the canonical node set itself,
which is the retained set `m_clonableNodes` when `T > 1` and the set built from
the configured command when `T = 1` (nothing is retained for a single trial);
the retained set is empty afterwards. -/
theorem C3_node_set_reuse (app : MainApp σ) (e : Experiment σ) (ids : List Nat)
    (hst : e.m_expStatus ≠ Status.RUNNING ∧ e.m_expStatus ≠ Status.QUEUED)
    (hT : 1 ≤ e.m_numTrials) (hlen : (ids.length : Int) = e.m_numTrials)
    (hok : createdInTurn app ids (reset app e) = true) :
    ∃ pre final last,
      ids = ids.dropLast ++ [last] ∧
      processTrials app ids.dropLast (reset app e) = some pre ∧
      processTrial app last pre = some final ∧
      processTrials app ids (reset app e) = some final ∧
      (final.clones : Int) = (reset app e).clones + (e.m_numTrials - 1) ∧
      final.m_clonableNodes = [] ∧
      (createNodes pre.m_inputs.graphType pre).2.clones = pre.clones ∧
      (createNodes pre.m_inputs.graphType pre).2.m_clonableNodes = [] ∧
      (createNodes pre.m_inputs.graphType pre).1 ≠ [] ∧
      (createNodes pre.m_inputs.graphType pre).1 =
        (if 1 < e.m_numTrials then pre.m_clonableNodes else pre.m_inputs.nodes.1) := by
  obtain ⟨r1, r2, r3, -⟩ := reset_fresh app e hst
  have hinv0 : nodesInv e.m_numTrials (reset app e).clones (reset app e) :=
    ⟨r3, Or.inl ⟨by rw [r1]; rfl, r2, rfl⟩⟩
  have hne : ids ≠ [] := by
    intro h0
    rw [h0] at hlen
    simp only [List.length_nil, Nat.cast_zero] at hlen
    omega
  have hsplit : ids = ids.dropLast ++ [ids.getLast hne] :=
    (List.dropLast_append_getLast hne).symm
  have hdl : ids.dropLast.length = ids.length - 1 := List.length_dropLast ids
  have hpos : 0 < ids.length := List.length_pos.mpr hne
  have hok' := hok
  rw [hsplit] at hok'
  obtain ⟨hok1, hok2⟩ := createdInTurn_append app _ _ _ hok'
  obtain ⟨pre, hpre, hpinv, hplen⟩ :=
    nodesInv_run app e.m_numTrials _ hT ids.dropLast _ hinv0 hok1
  have hoklast := hok2 pre hpre
  obtain ⟨trial, e1, hc, hp, -, -, -⟩ := createdInTurn_cons app _ [] pre hoklast
  obtain ⟨final, hfin, hfinv, hflen⟩ := nodesInv_run app e.m_numTrials _ hT ids _ hinv0 hok
  have hfin' : processTrial app (ids.getLast hne) pre = some final := by
    have h1 := processTrials_append app ids.dropLast [ids.getLast hne] (reset app e)
    rw [← hsplit, hfin, hpre] at h1
    simp only [Option.some_bind, processTrials] at h1
    cases hq : processTrial app (ids.getLast hne) pre with
    | none => rw [hq] at h1; simp at h1
    | some q => rw [hq] at h1; simp only [Option.some_bind, Option.some.injEq] at h1; rw [h1]
  rw [r1] at hplen hflen
  simp only [List.length_nil, Nat.zero_add] at hplen hflen
  obtain ⟨-, -, hsz, hcne, -⟩ := createTrial_success app _ pre e1 trial hc
  obtain ⟨hpT, hpcases⟩ := hpinv
  obtain ⟨hfT, hfcases⟩ := hfinv
  have hfinal : (final.clones : Int) = (reset app e).clones + (e.m_numTrials - 1) ∧
      final.m_clonableNodes = [] := by
    rcases hfcases with ⟨h0, _, _⟩ | ⟨_, h1, _, _⟩ | ⟨_, _, h2, h3⟩
    · omega
    · omega
    · exact ⟨h3, h2⟩
  refine ⟨pre, final, ids.getLast hne, hsplit, hpre, hfin', hfin, hfinal.1, hfinal.2, ?_⟩
  rcases createNodes_cases pre.m_inputs.graphType pre hcne with
    ⟨hcl, hk, hcn⟩ | ⟨hcl, hk, hcn⟩ | ⟨hcl, hk, hn, hcn⟩ | ⟨hcl, hk, hn, hcn⟩
  · have h1T : 1 < e.m_numTrials := by
      rcases hpcases with ⟨_, h1, _⟩ | ⟨h0, _, _, _⟩ | ⟨_, _, h2, _⟩
      · exact absurd h1 hcl
      · omega
      · exact absurd h2 hcl
    rw [if_pos h1T, hcn]
    exact ⟨rfl, rfl, hcl, rfl⟩
  · exfalso; omega
  · exfalso
    rcases hpcases with ⟨h0, _, _⟩ | ⟨_, _, h2, _⟩ | ⟨_, h1, _, _⟩
    · omega
    · exact h2 hcl
    · omega
  · have h1T : ¬ 1 < e.m_numTrials := by rw [← hpT]; exact hk
    rw [if_neg h1T, hcn]
    exact ⟨rfl, hcl, hn, rfl⟩

/-- Witness of C3: the three trials of `exExperiment`, created in the order 0, 1, 2. -/
theorem C3_node_set_reuse_witness :
    (exExperiment.m_expStatus ≠ Status.RUNNING ∧ exExperiment.m_expStatus ≠ Status.QUEUED) ∧
    1 ≤ exExperiment.m_numTrials ∧
    (([0, 1, 2] : List Nat).length : Int) = exExperiment.m_numTrials ∧
    createdInTurn exApp [0, 1, 2] (reset exApp exExperiment) = true ∧
    ∃ pre final last,
      [0, 1, 2] = [0, 1, 2].dropLast ++ [last] ∧
      processTrials exApp [0, 1, 2].dropLast (reset exApp exExperiment) = some pre ∧
      processTrial exApp last pre = some final ∧
      processTrials exApp [0, 1, 2] (reset exApp exExperiment) = some final ∧
      (final.clones : Int) = (reset exApp exExperiment).clones + (exExperiment.m_numTrials - 1) ∧
      final.m_clonableNodes = [] ∧
      (createNodes pre.m_inputs.graphType pre).2.clones = pre.clones ∧
      (createNodes pre.m_inputs.graphType pre).2.m_clonableNodes = [] ∧
      (createNodes pre.m_inputs.graphType pre).1 ≠ [] ∧
      (createNodes pre.m_inputs.graphType pre).1 =
        (if 1 < exExperiment.m_numTrials then pre.m_clonableNodes else pre.m_inputs.nodes.1) :=
  ⟨by decide, by decide, by decide, by rfl,
    C3_node_set_reuse exApp exExperiment [0, 1, 2] (by decide) (by decide) (by decide) (by rfl)⟩

/-! ## Stepping a trial up to the pause horizon (C4) -/

theorem writeCachedSteps_opens_ok (app : MainApp σ) (hopen : ∀ n, app.openOk n = true)
    (trialId : Nat) (e : Experiment σ) : (writeCachedSteps app trialId e).1 = true := by
  unfold writeCachedSteps
  split
  · rfl
  · split
    · rfl
    · rw [if_pos (hopen _)]

theorem lookup_storeTrial (trialId : Nat) (t t0 : AbstractModel σ)
    (l : List (Nat × AbstractModel σ)) (h : l.lookup trialId = some t0) :
    (l.map (fun kv => if kv.1 = trialId then (kv.1, t) else kv)).lookup trialId = some t := by
  induction l with
  | nil => simp at h
  | cons a l ih =>
    obtain ⟨k, v⟩ := a
    rw [List.map_cons]
    by_cases hk : k = trialId
    · rw [if_pos hk, List.lookup_cons]
      simp [hk]
    · have hb : (trialId == k) = false := by
        simp only [beq_eq_false_iff_ne, ne_eq]
        exact fun h' => hk h'.symm
      rw [List.lookup_cons, hb] at h
      rw [if_neg hk, List.lookup_cons, hb]
      exact ih h

theorem stepLoop_run (app : MainApp σ) (trialId : Nat)
    (hconv : ∀ s, (app.algorithmStep s).2 = false) (hopen : ∀ n, app.openOk n = true)
    (fuel : Nat) : ∀ (trial : AbstractModel σ) (e : Experiment σ),
      trial.m_currStep + fuel = e.m_pauseAt →
      ∃ e', stepLoop app trialId fuel trial false e =
          (⟨e.m_pauseAt, trial.m_status, stepsFrom app fuel trial.model⟩, false, e', false) ∧
        e'.m_pauseAt = e.m_pauseAt ∧ e'.m_stopAt = e.m_stopAt ∧
        e'.m_expStatus = e.m_expStatus ∧ e'.m_trials = e.m_trials := by
  induction fuel with
  | zero =>
    intro trial e h
    refine ⟨e, ?_, rfl, rfl, rfl, rfl⟩
    have h' : trial.m_currStep = e.m_pauseAt := by simpa using h
    simp only [stepLoop, stepsFrom, Function.iterate_zero, id_eq, ← h']
  | succ k ih =>
    intro trial e h
    have hlt : trial.m_currStep < e.m_pauseAt := by push_cast at h; omega
    simp only [stepLoop, hlt, true_and, if_true, hconv]
    generalize hT : (⟨trial.m_currStep + 1, trial.m_status, (app.algorithmStep trial.model).1⟩ :
      AbstractModel σ) = T
    have hTs : T.m_status = trial.m_status := by rw [← hT]
    have hTm : stepsFrom app k T.model = stepsFrom app (k + 1) trial.model := by
      rw [← hT]; rfl
    obtain ⟨cs1, h1⟩ := doOperations_shape trialId T e
    obtain ⟨cs2, fs2, n2, h2⟩ := writeCachedSteps_shape app trialId (doOperations trialId T e)
    have hw := writeCachedSteps_opens_ok app hopen trialId (doOperations trialId T e)
    split
    · rw [if_neg (by rw [hw]; simp)]
      obtain ⟨e', he', g1, g2, g3, g4⟩ := ih T
        (writeCachedSteps app trialId (doOperations trialId T e)).2
        (by rw [h2, h1, ← hT]; show trial.m_currStep + 1 + (k : Int) = e.m_pauseAt; push_cast at h; omega)
      refine ⟨e', ?_, ?_, ?_, ?_, ?_⟩
      · rw [he', hTs, hTm, h2, h1]
      · rw [g1, h2, h1]
      · rw [g2, h2, h1]
      · rw [g3, h2, h1]
      · rw [g4, h2, h1]
    · obtain ⟨e', he', g1, g2, g3, g4⟩ := ih T (doOperations trialId T e)
        (by rw [h1, ← hT]; show trial.m_currStep + 1 + (k : Int) = e.m_pauseAt; push_cast at h; omega)
      refine ⟨e', ?_, ?_, ?_, ?_, ?_⟩
      · rw [he', hTs, hTm, h1]
      · rw [g1, h1]
      · rw [g2, h1]
      · rw [g3, h1]
      · rw [g4, h1]

/-- C4: for a Ready trial of a non-Invalid experiment with
`currStep ≤ pauseAt ≤ stopAt`, a model that never signals convergence and file
opens that all succeed, `processTrial` returns with the trial at
`currStep = pauseAt`, its model state being the result of exactly
`pauseAt - currStep` algorithm steps; the trial is Ready if `pauseAt < stopAt`
and Finished otherwise (`pauseAt = stopAt`). -/
theorem C4_processTrial_runs_to_pause (app : MainApp σ) (trialId : Nat) (e : Experiment σ)
    (trial : AbstractModel σ)
    (hst : e.m_expStatus ≠ Status.INVALID)
    (hl : e.m_trials.lookup trialId = some trial)
    (hready : trial.m_status = Status.READY)
    (hcp : trial.m_currStep ≤ e.m_pauseAt) (hps : e.m_pauseAt ≤ e.m_stopAt)
    (hconv : ∀ s, (app.algorithmStep s).2 = false) (hopen : ∀ n, app.openOk n = true) :
    ∃ final, processTrial app trialId e = some final ∧
      final.m_trials.lookup trialId = some
        ⟨e.m_pauseAt,
         if e.m_pauseAt < e.m_stopAt then Status.READY else Status.FINISHED,
         stepsFrom app (e.m_pauseAt - trial.m_currStep).toNat trial.model⟩ := by
  have hfuel : trial.m_currStep + ((e.m_pauseAt - trial.m_currStep).toNat : Int) = e.m_pauseAt := by
    rw [Int.toNat_of_nonneg (by omega)]; omega
  obtain ⟨e', hloop, g1, g2, g3, g4⟩ := stepLoop_run app trialId hconv hopen
    (e.m_pauseAt - trial.m_currStep).toNat ⟨trial.m_currStep, Status.RUNNING, trial.model⟩ e hfuel
  refine ⟨runTrial app trialId e, ?_, ?_⟩
  · simp only [processTrial, if_neg hst, hl]
  · simp only [runTrial, hl, hready, ne_eq, not_true_eq_false, if_false, hloop,
      Bool.false_eq_true, g2]
    by_cases hlt : e.m_pauseAt < e.m_stopAt
    · have hge : ¬ (e.m_pauseAt ≥ e.m_stopAt ∨ False) := by
        intro h; rcases h with h | h
        · omega
        · exact h
      rw [if_neg hge, if_pos hlt]
      simp only [storeTrial]
      rw [g4]
      exact lookup_storeTrial trialId _ trial e.m_trials hl
    · have hge : e.m_pauseAt ≥ e.m_stopAt ∨ False := Or.inl (by omega)
      rw [if_pos hge, if_neg hlt, writeCachedSteps_opens_ok app hopen]
      obtain ⟨cs, fs, n, hw⟩ := writeCachedSteps_shape app trialId e'
      simp only [storeTrial, if_true]
      rw [hw]
      simp only
      rw [g4]
      exact lookup_storeTrial trialId _ trial e.m_trials hl

/-- Witness of C4: trial 0 of `exCreated` (pause horizon 5, stop horizon 10)
is left at step 5 and Ready; with the pause horizon raised to 10 (`exResumed`)
the next call leaves it at step 10 and Finished. -/
theorem C4_processTrial_runs_to_pause_witness :
    (exCreated.m_expStatus ≠ Status.INVALID ∧
      exCreated.m_trials.lookup 0 = some ⟨0, Status.READY, 7⟩ ∧
      (0 : Int) ≤ exCreated.m_pauseAt ∧ exCreated.m_pauseAt ≤ exCreated.m_stopAt ∧
      exCreated.m_pauseAt = 5 ∧ exCreated.m_stopAt = 10 ∧
      ∃ final, processTrial exApp 0 exCreated = some final ∧
        final.m_trials.lookup 0 = some ⟨5, Status.READY, 12⟩) ∧
    (exResumed.m_expStatus ≠ Status.INVALID ∧
      exResumed.m_trials.lookup 0 = some ⟨5, Status.READY, 12⟩ ∧
      (5 : Int) ≤ exResumed.m_pauseAt ∧ exResumed.m_pauseAt ≤ exResumed.m_stopAt ∧
      exResumed.m_pauseAt = 10 ∧ exResumed.m_stopAt = 10 ∧
      ∃ final, processTrial exApp 0 exResumed = some final ∧
        final.m_trials.lookup 0 = some ⟨10, Status.FINISHED, 17⟩) :=
  ⟨⟨by decide, rfl, by decide, by decide, rfl, rfl,
      C4_processTrial_runs_to_pause exApp 0 exCreated ⟨0, Status.READY, 7⟩
        (by decide) rfl rfl (by decide) (by decide) (fun _ => rfl) (fun _ => rfl)⟩,
   ⟨by decide, rfl, by decide, by decide, rfl, rfl,
      C4_processTrial_runs_to_pause exApp 0 exResumed ⟨5, Status.READY, 12⟩
        (by decide) rfl rfl (by decide) (by decide) (fun _ => rfl) (fun _ => rfl)⟩⟩

/-! ## Flushing (C6, C7, C8) -/

theorem chop_one (s : QString) : chop s 1 = s.dropLast := by
  rw [chop, List.dropLast_eq_take]

theorem chop_commas (vals : List QString) :
    chop ((vals.map (fun v => v ++ [','])).flatten) 1 = [','].intercalate vals := by
  rw [chop_one]
  induction vals with
  | nil => rfl
  | cons v vs ih =>
    cases vs with
    | nil => simp [List.intercalate, List.intersperse]
    | cons w ws =>
      have hne : ((w :: ws).map (fun v => v ++ [','])).flatten ≠ [] := by simp
      rw [List.map_cons, List.flatten_cons, List.dropLast_append_of_ne_nil _ hne, ih]
      simp [List.intercalate, List.intersperse]

theorem frontRow_eq (trialId : Nat) (caches : List (Cache σ)) :
    chop (frontRow trialId caches) 1 ++ ['\n'] = csvLine (bufferedRow trialId caches 0) := by
  have h : frontRow trialId caches =
      (((bufferedRow trialId caches 0).map (fun v => v.toQString)).map
        (fun v => v ++ [','])).flatten := by
    unfold frontRow bufferedRow Cache.readFrontRow
    induction caches with
    | nil => rfl
    | cons c cs ih =>
      simp only [List.map_cons, List.flatten_cons, List.flatMap_cons, List.map_append,
        List.flatten_append, ih, List.map_map]
      congr 2
      cases c.rows trialId <;> rfl
  rw [h, chop_commas, csvLine]

theorem flushFrontRow_dropRows (c : Cache σ) (trialId n : Nat) :
    (c.dropRows trialId n).flushFrontRow trialId = c.dropRows trialId (n + 1) := by
  unfold Cache.flushFrontRow Cache.dropRows
  congr 1
  funext j
  by_cases hj : j = trialId
  · simp only [if_pos hj, List.tail_drop]
  · simp only [if_neg hj]

theorem dropRows_zero (c : Cache σ) (trialId : Nat) : c.dropRows trialId 0 = c := by
  unfold Cache.dropRows
  simp only [List.drop_zero, ite_self]

theorem bufferedRow_dropRows (trialId : Nat) (caches : List (Cache σ)) (n k : Nat) :
    bufferedRow trialId (caches.map (fun c => c.dropRows trialId n)) k
      = bufferedRow trialId caches (n + k) := by
  unfold bufferedRow
  rw [List.flatMap_map]
  congr 1
  funext c
  simp only [Cache.dropRows, if_true, List.getD_eq_getElem?_getD, List.getElem?_drop]

theorem writeRow_iterate (trialId : Nat) (k : Nat) (e : Experiment σ) :
    ((writeRow trialId)^[k] e).m_inputs.fileCaches
      = e.m_inputs.fileCaches.map (fun c => c.dropRows trialId k) ∧
    ((writeRow trialId)^[k] e).files
      = fun j => if j = trialId then
          e.files j ++ bufferedText trialId e.m_inputs.fileCaches k else e.files j := by
  induction k with
  | zero =>
    refine ⟨?_, ?_⟩
    · simp only [Function.iterate_zero, id_eq, dropRows_zero, List.map_id']
    · funext j
      simp [bufferedText]
  | succ k ih =>
    rw [Function.iterate_succ_apply']
    obtain ⟨ih1, ih2⟩ := ih
    refine ⟨?_, ?_⟩
    · simp only [writeRow, ih1, List.map_map]
      congr 1
      funext c
      exact flushFrontRow_dropRows c trialId k
    · funext j
      simp only [writeRow, ih1, ih2]
      by_cases hj : j = trialId
      · simp only [if_pos hj, frontRow_eq, bufferedRow_dropRows, bufferedText,
          List.range_succ, List.map_append, List.flatten_append, List.map_cons, List.map_nil,
          List.flatten_cons, List.flatten_nil, List.append_nil, Nat.add_zero, List.append_assoc]
      · simp only [if_neg hj]

theorem writeRows_eq_iterate (trialId : Nat) (n : Nat) :
    ∀ (e : Experiment σ) (lead : Cache σ) (rest : List (Cache σ)),
      e.m_inputs.fileCaches = lead :: rest → (lead.rows trialId).length = n + 1 →
      writeRows trialId (n + 1) e = (writeRow trialId)^[n + 1] e := by
  induction n with
  | zero =>
    intro e lead rest hc hlen
    have hcs : (writeRow trialId e).m_inputs.fileCaches
        = lead.flushFrontRow trialId :: rest.map (fun c => c.flushFrontRow trialId) := by
      simp only [writeRow, hc, List.map_cons]
    have hemp : (lead.flushFrontRow trialId).isEmpty trialId = true := by
      simp only [Cache.isEmpty, Cache.flushFrontRow, if_true, List.isEmpty_iff]
      cases hr : lead.rows trialId with
      | nil => rfl
      | cons a t =>
        rw [hr] at hlen
        cases t with
        | nil => rfl
        | cons b u => simp at hlen
    simp only [writeRows, hcs, List.head?_cons, hemp, if_true, Function.iterate_succ,
      Function.iterate_zero, Function.comp_apply, id_eq]
  | succ n ih =>
    intro e lead rest hc hlen
    have hcs : (writeRow trialId e).m_inputs.fileCaches
        = lead.flushFrontRow trialId :: rest.map (fun c => c.flushFrontRow trialId) := by
      simp only [writeRow, hc, List.map_cons]
    have hlen' : ((lead.flushFrontRow trialId).rows trialId).length = n + 1 := by
      simp only [Cache.flushFrontRow, if_true, List.length_tail, hlen]
      omega
    have hemp : (lead.flushFrontRow trialId).isEmpty trialId = false := by
      simp only [Cache.isEmpty]
      cases hr : (lead.flushFrontRow trialId).rows trialId with
      | nil => rw [hr] at hlen'; simp at hlen'
      | cons a t => rfl
    rw [writeRows]
    simp only [hcs, List.head?_cons, hemp, Bool.false_eq_true, if_false]
    rw [ih (writeRow trialId e) _ _ hcs hlen', Function.iterate_succ_apply (writeRow trialId) (n + 1)]

/-- C6: when opening the file succeeds and every file cache holds the same
number `n ≥ 1` of buffered rows for the trial, `writeCachedSteps` returns true
after exactly `n` passes of its loop (the lead cache is not empty after fewer
passes), appends exactly `n` lines to the file of the trial, the `k`-th being
the values of the `k`-th oldest row of every cache, in cache order, joined with
`,` without a trailing comma, and leaves the buffer of every cache empty for
that trial. -/
theorem C6_writeCachedSteps_drains (app : MainApp σ) (trialId : Nat) (e : Experiment σ)
    (n : Nat) (hcs : 0 < e.m_inputs.fileCaches.length) (hn : 1 ≤ n)
    (halign : ∀ c ∈ e.m_inputs.fileCaches, (c.rows trialId).length = n)
    (hopen : app.openOk e.opens = true) :
    (writeCachedSteps app trialId e).1 = true ∧
    (writeCachedSteps app trialId e).2 = (writeRow trialId)^[n] { e with opens := e.opens + 1 } ∧
    (∀ k, k < n → ∃ lead,
      ((writeRow trialId)^[k] { e with opens := e.opens + 1 }).m_inputs.fileCaches.head?
        = some lead ∧ lead.isEmpty trialId = false) ∧
    (writeCachedSteps app trialId e).2.files trialId
      = e.files trialId ++
        ((List.range n).map (fun k =>
          [','].intercalate
            ((e.m_inputs.fileCaches.flatMap (fun c => (c.rows trialId).getD k [])).map
              (fun v => v.toQString)) ++ ['\n'])).flatten ∧
    (∀ j, j ≠ trialId → (writeCachedSteps app trialId e).2.files j = e.files j) ∧
    (writeCachedSteps app trialId e).2.m_inputs.fileCaches.length
      = e.m_inputs.fileCaches.length ∧
    (∀ c ∈ (writeCachedSteps app trialId e).2.m_inputs.fileCaches, c.rows trialId = []) := by
  obtain ⟨m, rfl⟩ : ∃ m, n = m + 1 := ⟨n - 1, by omega⟩
  cases hc : e.m_inputs.fileCaches with
  | nil => rw [hc] at hcs; simp at hcs
  | cons lead rest =>
    have hlead : (lead.rows trialId).length = m + 1 :=
      halign lead (by rw [hc]; exact List.mem_cons_self _ _)
    have hemp : lead.isEmpty trialId = false := by
      simp only [Cache.isEmpty]
      cases hr : lead.rows trialId with
      | nil => rw [hr] at hlead; simp at hlead
      | cons a t => rfl
    have hw : writeCachedSteps app trialId e
        = (true, (writeRow trialId)^[m + 1] { e with opens := e.opens + 1 }) := by
      simp only [writeCachedSteps, hc, List.head?_cons, hemp, Bool.false_eq_true, if_false,
        hopen, if_true, hlead]
      rw [writeRows_eq_iterate trialId m { e with opens := e.opens + 1 } lead rest hc hlead]
    have hit := fun k => writeRow_iterate trialId k { e with opens := e.opens + 1 }
    rw [hw]
    refine ⟨rfl, rfl, ?_, ?_, ?_, ?_, ?_⟩
    · intro k hk
      refine ⟨lead.dropRows trialId k, ?_, ?_⟩
      · rw [(hit k).1]
        simp only [hc, List.map_cons, List.head?_cons]
      · simp only [Cache.isEmpty, Cache.dropRows, if_true]
        cases hr : (lead.rows trialId).drop k with
        | nil =>
          have := congrArg List.length hr
          simp only [List.length_drop, List.length_nil, hlead] at this
          omega
        | cons a t => rfl
    · simp only
      rw [(hit (m + 1)).2]
      simp only [if_true, hc]
      rfl
    · intro j hj
      simp only
      rw [(hit (m + 1)).2]
      simp only [if_neg hj]
    · simp only
      rw [(hit (m + 1)).1]
      simp only [List.length_map, hc]
    · intro c hcm
      simp only at hcm
      rw [(hit (m + 1)).1] at hcm
      simp only [List.mem_map] at hcm
      obtain ⟨c0, hc0, rfl⟩ := hcm
      simp only [Cache.dropRows, if_true]
      have := halign c0 (by simpa only [hc] using hc0)
      exact List.drop_of_length_le (by omega)

/-- Witness of C6: the two caches of `exBuffered` hold two rows each for trial
0; the flush appends the lines `1,2,a` and `3,4,b`. -/
theorem C6_writeCachedSteps_drains_witness :
    0 < exBuffered.m_inputs.fileCaches.length ∧ 1 ≤ 2 ∧
    (∀ c ∈ exBuffered.m_inputs.fileCaches, (c.rows 0).length = 2) ∧
    exApp.openOk exBuffered.opens = true ∧
    (writeCachedSteps exApp 0 exBuffered).2.files 0
      = ['x', ',', 'y', '\n', '1', ',', '2', ',', 'a', '\n', '3', ',', '4', ',', 'b', '\n'] ∧
    (∀ c ∈ (writeCachedSteps exApp 0 exBuffered).2.m_inputs.fileCaches, c.rows 0 = []) :=
  ⟨by decide, by decide, by decide, rfl,
    (C6_writeCachedSteps_drains exApp 0 exBuffered 2 (by decide) (by decide) (by decide)
      rfl).2.2.2.1,
    (C6_writeCachedSteps_drains exApp 0 exBuffered 2 (by decide) (by decide) (by decide)
      rfl).2.2.2.2.2.2⟩

theorem writeCachedSteps_lead_empty (app : MainApp σ) (trialId : Nat) (e : Experiment σ)
    (h : (writeCachedSteps app trialId e).1 = true) :
    ∀ lead, (writeCachedSteps app trialId e).2.m_inputs.fileCaches.head? = some lead →
      lead.isEmpty trialId = true := by
  intro lead' hl
  cases hc : e.m_inputs.fileCaches with
  | nil =>
    simp only [writeCachedSteps, hc, List.head?_nil] at hl
    simp at hl
  | cons lead rest =>
    by_cases hemp : lead.isEmpty trialId = true
    · simp only [writeCachedSteps, hc, List.head?_cons, hemp, if_true] at hl
      simp only [Option.some.injEq] at hl
      rw [← hl]; exact hemp
    · have hemp' : lead.isEmpty trialId = false := by simpa using hemp
      by_cases hopen : app.openOk e.opens = true
      · obtain ⟨m, hm⟩ : ∃ m, (lead.rows trialId).length = m + 1 := by
          cases hr : lead.rows trialId with
          | nil => simp [Cache.isEmpty, hr] at hemp'
          | cons a t => exact ⟨t.length, rfl⟩
        simp only [writeCachedSteps, hc, List.head?_cons, hemp', Bool.false_eq_true, if_false,
          hopen, if_true, hm] at hl
        rw [writeRows_eq_iterate trialId m { e with opens := e.opens + 1 } lead rest hc hm,
          (writeRow_iterate trialId (m + 1) { e with opens := e.opens + 1 }).1] at hl
        simp only [hc, List.map_cons, List.head?_cons, Option.some.injEq] at hl
        rw [← hl]
        simp only [Cache.isEmpty, Cache.dropRows, if_true, List.isEmpty_iff]
        exact List.drop_of_length_le (by omega)
      · simp only [writeCachedSteps, hc, List.head?_cons, hemp', Bool.false_eq_true, if_false,
          hopen] at h

/-- C7: if there are no file caches or the buffer of the lead cache is empty
for the trial, `writeCachedSteps` returns true and leaves the whole state (the
files and every buffer) as it was; hence a second call right after a successful
call returns true and changes nothing. -/
theorem C7_writeCachedSteps_idempotent (app : MainApp σ) (trialId : Nat) (e : Experiment σ) :
    ((∀ lead, e.m_inputs.fileCaches.head? = some lead → lead.isEmpty trialId = true) →
      writeCachedSteps app trialId e = (true, e)) ∧
    ((writeCachedSteps app trialId e).1 = true →
      writeCachedSteps app trialId (writeCachedSteps app trialId e).2
        = (true, (writeCachedSteps app trialId e).2)) := by
  have hnoop : ∀ s : Experiment σ,
      (∀ lead, s.m_inputs.fileCaches.head? = some lead → lead.isEmpty trialId = true) →
      writeCachedSteps app trialId s = (true, s) := by
    intro s hs
    unfold writeCachedSteps
    split
    · rfl
    · rename_i lead hl
      rw [if_pos (hs lead hl)]
  exact ⟨hnoop e, fun h => hnoop _ (writeCachedSteps_lead_empty app trialId e h)⟩

/-- Witness of C7: flushing `exBuffered` twice is the same as flushing it once. -/
theorem C7_writeCachedSteps_idempotent_witness :
    (writeCachedSteps exApp 0 exBuffered).1 = true ∧
    writeCachedSteps exApp 0 (writeCachedSteps exApp 0 exBuffered).2
      = (true, (writeCachedSteps exApp 0 exBuffered).2) :=
  ⟨rfl, (C7_writeCachedSteps_idempotent exApp 0 exBuffered).2 rfl⟩

/-- C8: when the buffer of the lead cache is not empty for the trial and
opening the file fails, `writeCachedSteps` returns false and the caches (the
buffered rows of every cache, for every trial) and the files are what they
were before the call. -/
theorem C8_writeCachedSteps_open_failure (app : MainApp σ) (trialId : Nat) (e : Experiment σ)
    (lead : Cache σ) (hl : e.m_inputs.fileCaches.head? = some lead)
    (hemp : lead.isEmpty trialId = false) (hopen : app.openOk e.opens = false) :
    (writeCachedSteps app trialId e).1 = false ∧
    (writeCachedSteps app trialId e).2.m_inputs.fileCaches = e.m_inputs.fileCaches ∧
    (writeCachedSteps app trialId e).2.files = e.files := by
  simp only [writeCachedSteps, hl, hemp, hopen, Bool.false_eq_true, if_false]
  exact ⟨trivial, trivial, trivial⟩

/-- Witness of C8: flushing `exBuffered` when the file cannot be opened. -/
theorem C8_writeCachedSteps_open_failure_witness :
    exBuffered.m_inputs.fileCaches.head? = some exLeadCache ∧
    exLeadCache.isEmpty 0 = false ∧
    exAppNoOpen.openOk exBuffered.opens = false ∧
    (writeCachedSteps exAppNoOpen 0 exBuffered).1 = false ∧
    (writeCachedSteps exAppNoOpen 0 exBuffered).2.m_inputs.fileCaches
      = exBuffered.m_inputs.fileCaches ∧
    (writeCachedSteps exAppNoOpen 0 exBuffered).2.files = exBuffered.files :=
  ⟨rfl, rfl, rfl,
    C8_writeCachedSteps_open_failure exAppNoOpen 0 exBuffered exLeadCache rfl rfl rfl⟩

/-! ## Failure of a trial construction (C9) -/

theorem createNodes_shape (gType : GraphType) (e : Experiment σ) :
    ∃ cl k, (createNodes gType e).2 = { e with m_clonableNodes := cl, clones := k } := by
  unfold createNodes
  split
  · exact ⟨_, _, rfl⟩
  · split
    · split
      · exact ⟨_, _, rfl⟩
      · exact ⟨_, _, rfl⟩
    · split
      · exact ⟨_, _, rfl⟩
      · split
        · exact ⟨_, _, rfl⟩
        · exact ⟨_, _, rfl⟩

theorem createTrial_shape (app : MainApp σ) (trialId : Nat) (e e1 : Experiment σ)
    (r : Option (AbstractModel σ)) (h : createTrial app trialId e = some (r, e1)) :
    ∃ cs fs n cl k, e1 = { e with
      m_inputs := { e.m_inputs with fileCaches := cs }, files := fs, opens := n,
      m_clonableNodes := cl, clones := k } := by
  obtain ⟨cl, k, hn⟩ := createNodes_shape e.m_inputs.graphType e
  have hfile : ∀ modelObj : AbstractModel σ, ∃ cs fs n,
      (writeInitialStep app trialId modelObj (createNodes e.m_inputs.graphType e).2).2 =
        { e with m_inputs := { e.m_inputs with fileCaches := cs }, files := fs, opens := n,
                 m_clonableNodes := cl, clones := k } := by
    intro modelObj
    obtain ⟨cs, fs, n, hw⟩ := writeInitialStep_shape app trialId modelObj
      (createNodes e.m_inputs.graphType e).2
    refine ⟨cs, fs, n, ?_⟩
    rw [hw, hn]
  have hplain : (createNodes e.m_inputs.graphType e).2 =
      { e with m_inputs := { e.m_inputs with fileCaches := e.m_inputs.fileCaches },
               files := e.files, opens := e.opens, m_clonableNodes := cl, clones := k } := hn
  unfold createTrial at h
  split at h
  · simp only [Option.some.injEq, Prod.mk.injEq] at h
    exact ⟨_, _, _, _, _, h.2.symm⟩
  · split at h
    · simp at h
    · simp only at h
      split at h
      · simp only [Option.some.injEq, Prod.mk.injEq] at h
        exact ⟨_, _, _, cl, k, h.2.symm.trans hplain⟩
      · split at h
        · simp only [Option.some.injEq, Prod.mk.injEq] at h
          exact ⟨_, _, _, cl, k, h.2.symm.trans hplain⟩
        · split at h
          · simp only [Option.some.injEq, Prod.mk.injEq] at h
            exact ⟨_, _, _, cl, k, h.2.symm.trans hplain⟩
          · rename_i modelObj _
            obtain ⟨cs, fs, n, hw⟩ := hfile modelObj
            split at h
            · simp only [Option.some.injEq, Prod.mk.injEq] at h
              exact ⟨cs, fs, n, cl, k, h.2.symm.trans hw⟩
            · simp only [Option.some.injEq, Prod.mk.injEq] at h
              exact ⟨cs, fs, n, cl, k, h.2.symm.trans hw⟩

/-- C10: for an experiment whose status is neither Running nor Queued, `reset`
leaves the trial map empty, the retained clonable node set empty, the pause
horizon equal to the configured stop horizon, progress 0 and status Ready. -/
theorem C10_reset_state (app : MainApp σ) (e : Experiment σ)
    (hst : e.m_expStatus ≠ Status.RUNNING ∧ e.m_expStatus ≠ Status.QUEUED) :
    (reset app e).m_trials = [] ∧ (reset app e).m_clonableNodes = [] ∧
    (reset app e).m_pauseAt = e.m_inputs.stopAt ∧
    (reset app e).m_progress = 0 ∧ (reset app e).m_expStatus = Status.READY := by
  obtain ⟨h1, h2, -, h4, -, h6, h7⟩ := reset_fresh app e hst
  exact ⟨h1, h2, h4, h6, h7⟩

/-- Witness of C10: resetting `exAfterTrial0`, whose trial 0 is finished. -/
theorem C10_reset_state_witness :
    (exAfterTrial0.m_expStatus ≠ Status.RUNNING ∧ exAfterTrial0.m_expStatus ≠ Status.QUEUED) ∧
    exAfterTrial0.m_trials.length = 1 ∧
    (reset exApp exAfterTrial0).m_trials = [] ∧
    (reset exApp exAfterTrial0).m_clonableNodes = [] ∧
    (reset exApp exAfterTrial0).m_pauseAt = 10 ∧
    (reset exApp exAfterTrial0).m_progress = 0 ∧
    (reset exApp exAfterTrial0).m_expStatus = Status.READY :=
  ⟨by decide, rfl, C10_reset_state exApp exAfterTrial0 (by decide)⟩

/-! ## The file written by the first call for a trial (C5) -/

theorem doOperation_fold (trialId : Nat) (trial : AbstractModel σ) (outs : List Output) :
    ∀ caches : List (Cache σ), (outs.map (fun o => o.addr)).Nodup →
      outs.foldl (fun cs o => o.doOperation trialId trial cs) caches =
        caches.map (fun c => if c.output.addr ∈ outs.map (fun o => o.addr)
          then c.push trialId (c.inputs trial) else c) := by
  induction outs with
  | nil =>
    intro caches _
    simp
  | cons o outs ih =>
    intro caches hnd
    simp only [List.map_cons, List.nodup_cons] at hnd
    rw [List.foldl_cons, ih _ hnd.2]
    simp only [Output.doOperation, List.map_map]
    apply List.map_congr_left
    intro c _
    simp only [Function.comp_apply, List.map_cons, List.mem_cons]
    by_cases h1 : c.output.addr = o.addr
    · have h2 : ¬ o.addr ∈ outs.map (fun o => o.addr) := hnd.1
      simp only [h1, if_true, Cache.push, true_or]
      rw [if_neg h2]
    · simp only [h1, if_false, false_or]

theorem doOperations_wired (trialId : Nat) (trial : AbstractModel σ) (e : Experiment σ)
    (hw : wired e) :
    (doOperations trialId trial e).m_inputs.fileCaches =
      e.m_inputs.fileCaches.map (fun c => c.push trialId (c.inputs trial)) := by
  simp only [doOperations]
  rw [doOperation_fold trialId trial e.m_outputs _ hw.1]
  apply List.map_congr_left
  intro c hc
  rw [if_pos (hw.2 c hc)]

theorem sameSinks_map (cs : List (Cache σ)) (f : Cache σ → Cache σ)
    (hf : ∀ c, (f c).output = c.output ∧ (f c).inputs = c.inputs) :
    sameSinks cs (cs.map f) := by
  unfold sameSinks
  rw [List.map_map]
  apply List.map_congr_left
  intro c _
  simp only [Function.comp_apply, (hf c).1, (hf c).2]

theorem sameSinks_trans (cs cs' cs'' : List (Cache σ)) (h1 : sameSinks cs cs')
    (h2 : sameSinks cs' cs'') : sameSinks cs cs'' := by
  unfold sameSinks at *
  rw [h2, h1]

theorem sameSinks_length (cs cs' : List (Cache σ)) (h : sameSinks cs cs') :
    cs'.length = cs.length := by
  have := congrArg List.length h
  simpa using this

theorem rowOf_sameSinks (cs cs' : List (Cache σ)) (t : AbstractModel σ)
    (h : sameSinks cs cs') : rowOf cs' t = rowOf cs t := by
  have key : ∀ l : List (Cache σ), l.flatMap (fun c => c.inputs t)
      = (l.map (fun c => (c.output, c.inputs))).flatMap (fun p => p.2 t) := by
    intro l
    rw [List.flatMap_map]
  unfold rowOf
  rw [key cs', key cs, h]

theorem wired_sameSinks (e e' : Experiment σ) (ho : e'.m_outputs = e.m_outputs)
    (hs : sameSinks e.m_inputs.fileCaches e'.m_inputs.fileCaches) (hw : wired e) :
    wired e' := by
  have key : e'.m_inputs.fileCaches.map (fun c => c.output.addr)
      = e.m_inputs.fileCaches.map (fun c => c.output.addr) := by
    have := congrArg (List.map (fun p : Output × (AbstractModel σ → Values) => p.1.addr)) hs
    simpa [List.map_map] using this
  refine ⟨by rw [ho]; exact hw.1, ?_⟩
  intro c hc
  rw [ho]
  have hmem : c.output.addr ∈ e.m_inputs.fileCaches.map (fun c => c.output.addr) := by
    rw [← key]; exact List.mem_map_of_mem _ hc
  obtain ⟨c0, hc0, hc0e⟩ := List.mem_map.mp hmem
  rw [← hc0e]
  exact hw.2 c0 hc0

theorem flatMap_congr_mem {α β : Type} (l : List α) (f g : α → List β)
    (h : ∀ a ∈ l, f a = g a) : l.flatMap f = l.flatMap g := by
  induction l with
  | nil => rfl
  | cons a l ih =>
    rw [List.flatMap_cons, List.flatMap_cons, h a (List.mem_cons_self _ _),
      ih (fun b hb => h b (List.mem_cons_of_mem _ hb))]

theorem bufferedText_push (trialId : Nat) (cs : List (Cache σ)) (t : AbstractModel σ)
    (n : Nat) (hlen : ∀ c ∈ cs, (c.rows trialId).length = n) :
    bufferedText trialId (cs.map (fun c => c.push trialId (c.inputs t))) (n + 1)
      = bufferedText trialId cs n ++ rowOf cs t := by
  have hrow : ∀ k, k < n →
      bufferedRow trialId (cs.map (fun c => c.push trialId (c.inputs t))) k
        = bufferedRow trialId cs k := by
    intro k hk
    unfold bufferedRow
    rw [List.flatMap_map]
    apply flatMap_congr_mem
    intro c hc
    simp only [Cache.push, if_true]
    exact List.getD_append _ _ _ k (by rw [hlen c hc]; exact hk)
  have hlast : bufferedRow trialId (cs.map (fun c => c.push trialId (c.inputs t))) n
      = cs.flatMap (fun c => c.inputs t) := by
    unfold bufferedRow
    rw [List.flatMap_map]
    apply flatMap_congr_mem
    intro c hc
    simp only [Cache.push, if_true]
    rw [List.getD_append_right _ _ _ n (by rw [hlen c hc]), hlen c hc]
    simp
  unfold bufferedText rowOf
  rw [List.range_succ, List.map_append, List.flatten_append, List.map_cons, List.map_nil,
    List.flatten_cons, List.flatten_nil, List.append_nil, hlast]
  congr 2
  apply List.map_congr_left
  intro k hk
  rw [hrow k (List.mem_range.mp hk)]

theorem writeCachedSteps_uniform (app : MainApp σ) (hopen : ∀ n, app.openOk n = true)
    (trialId : Nat) (e : Experiment σ) (n : Nat) (hcs : 0 < e.m_inputs.fileCaches.length)
    (hlen : ∀ c ∈ e.m_inputs.fileCaches, (c.rows trialId).length = n) :
    (writeCachedSteps app trialId e).2.m_inputs.fileCaches
      = e.m_inputs.fileCaches.map (fun c => c.dropRows trialId n) ∧
    (writeCachedSteps app trialId e).2.files
      = fun j => if j = trialId then
          e.files j ++ bufferedText trialId e.m_inputs.fileCaches n else e.files j := by
  cases hc : e.m_inputs.fileCaches with
  | nil => rw [hc] at hcs; simp at hcs
  | cons lead rest =>
    have hlead : (lead.rows trialId).length = n :=
      hlen lead (by rw [hc]; exact List.mem_cons_self _ _)
    cases n with
    | zero =>
      have hemp : lead.isEmpty trialId = true := by
        simp only [Cache.isEmpty, List.isEmpty_iff]
        exact List.length_eq_zero.mp hlead
      simp only [writeCachedSteps, hc, List.head?_cons, hemp, if_true]
      refine ⟨?_, ?_⟩
      · simp only [dropRows_zero, List.map_id']
      · funext j
        by_cases hj : j = trialId
        · simp [hj, bufferedText]
        · simp [hj]
    | succ m =>
      have hemp : lead.isEmpty trialId = false := by
        simp only [Cache.isEmpty]
        cases hr : lead.rows trialId with
        | nil => rw [hr] at hlead; simp at hlead
        | cons a t => rfl
      have hw : writeCachedSteps app trialId e
          = (true, (writeRow trialId)^[m + 1] { e with opens := e.opens + 1 }) := by
        simp only [writeCachedSteps, hc, List.head?_cons, hemp, Bool.false_eq_true, if_false,
          hopen, if_true, hlead]
        rw [writeRows_eq_iterate trialId m { e with opens := e.opens + 1 } lead rest hc hlead]
      have hit := writeRow_iterate trialId (m + 1) { e with opens := e.opens + 1 }
      rw [hw]
      simp only
      rw [hit.1, hit.2]
      simp only [hc]
      exact ⟨trivial, trivial⟩

theorem stepLoop_succ (app : MainApp σ) (trialId : Nat)
    (hconv : ∀ s, (app.algorithmStep s).2 = false) (hopen : ∀ n, app.openOk n = true)
    (fuel : Nat) (trial : AbstractModel σ) (e : Experiment σ)
    (hlt : trial.m_currStep < e.m_pauseAt) :
    stepLoop app trialId (fuel + 1) trial false e =
      stepLoop app trialId fuel
        ⟨trial.m_currStep + 1, trial.m_status, (app.algorithmStep trial.model).1⟩ false
        (passState app trialId
          ⟨trial.m_currStep + 1, trial.m_status, (app.algorithmStep trial.model).1⟩ e) := by
  have hw := writeCachedSteps_opens_ok app hopen trialId (doOperations trialId
    ⟨trial.m_currStep + 1, trial.m_status, (app.algorithmStep trial.model).1⟩ e)
  simp only [stepLoop, hlt, true_and, if_true, hconv, passState]
  split
  · rw [if_neg (by rw [hw]; simp)]
  · rfl

theorem passState_spec (app : MainApp σ) (hopen : ∀ n, app.openOk n = true)
    (trialId : Nat) (t : AbstractModel σ) (e : Experiment σ) (n : Nat) (hw : wired e)
    (hcs : 0 < e.m_inputs.fileCaches.length)
    (hlen : ∀ c ∈ e.m_inputs.fileCaches, (c.rows trialId).length = n) :
    ∃ n', (∀ c ∈ (passState app trialId t e).m_inputs.fileCaches,
        (c.rows trialId).length = n') ∧
      sameSinks e.m_inputs.fileCaches (passState app trialId t e).m_inputs.fileCaches ∧
      (passState app trialId t e).m_outputs = e.m_outputs ∧
      (passState app trialId t e).files trialId
          ++ bufferedText trialId (passState app trialId t e).m_inputs.fileCaches n'
        = e.files trialId ++ bufferedText trialId e.m_inputs.fileCaches n
          ++ rowOf e.m_inputs.fileCaches t ∧
      (passState app trialId t e).m_pauseAt = e.m_pauseAt ∧
      (passState app trialId t e).m_stopAt = e.m_stopAt ∧
      (passState app trialId t e).m_trials = e.m_trials := by
  have hd := doOperations_wired trialId t e hw
  obtain ⟨cs1, h1⟩ := doOperations_shape trialId t e
  have hdlen : ∀ c ∈ (doOperations trialId t e).m_inputs.fileCaches,
      (c.rows trialId).length = n + 1 := by
    intro c hc
    rw [hd] at hc
    obtain ⟨c0, hc0, rfl⟩ := List.mem_map.mp hc
    simp only [Cache.push, if_true, List.length_append, List.length_singleton, hlen c0 hc0]
  have hdcs : 0 < (doOperations trialId t e).m_inputs.fileCaches.length := by
    rw [hd, List.length_map]; exact hcs
  have hdsame : sameSinks e.m_inputs.fileCaches (doOperations trialId t e).m_inputs.fileCaches := by
    rw [hd]
    exact sameSinks_map _ _ (fun c => ⟨rfl, rfl⟩)
  have hdtext : bufferedText trialId (doOperations trialId t e).m_inputs.fileCaches (n + 1)
      = bufferedText trialId e.m_inputs.fileCaches n ++ rowOf e.m_inputs.fileCaches t := by
    rw [hd]; exact bufferedText_push trialId _ t n hlen
  have hdfiles : (doOperations trialId t e).files = e.files := by rw [h1]
  unfold passState
  split
  · obtain ⟨hwc, hwf⟩ := writeCachedSteps_uniform app hopen trialId
      (doOperations trialId t e) (n + 1) hdcs hdlen
    obtain ⟨cs2, fs2, n2, h2⟩ := writeCachedSteps_shape app trialId (doOperations trialId t e)
    refine ⟨0, ?_, ?_, ?_, ?_, ?_, ?_, ?_⟩
    · intro c hc
      rw [hwc] at hc
      obtain ⟨c0, hc0, rfl⟩ := List.mem_map.mp hc
      simp only [Cache.dropRows, if_true, List.length_drop, hdlen c0 hc0, Nat.sub_self]
    · rw [hwc]
      exact sameSinks_trans _ _ _ hdsame (sameSinks_map _ _ (fun c => ⟨rfl, rfl⟩))
    · rw [h2, h1]
    · rw [hwf]
      simp only [if_true, bufferedText, List.range_zero, List.map_nil, List.flatten_nil,
        List.append_nil]
      rw [hdfiles, ← bufferedText, ← bufferedText, hdtext, List.append_assoc]
    · rw [h2, h1]
    · rw [h2, h1]
    · rw [h2, h1]
  · refine ⟨n + 1, hdlen, hdsame, ?_, ?_, ?_, ?_, ?_⟩
    · rw [h1]
    · rw [hdfiles, hdtext, List.append_assoc]
    · rw [h1]
    · rw [h1]
    · rw [h1]

theorem stepLoop_text (app : MainApp σ) (trialId : Nat)
    (hconv : ∀ s, (app.algorithmStep s).2 = false) (hopen : ∀ n, app.openOk n = true)
    (fuel : Nat) : ∀ (trial : AbstractModel σ) (e : Experiment σ) (n : Nat),
      wired e → 0 < e.m_inputs.fileCaches.length →
      (∀ c ∈ e.m_inputs.fileCaches, (c.rows trialId).length = n) →
      trial.m_currStep + fuel = e.m_pauseAt →
      ∃ e' n', stepLoop app trialId fuel trial false e =
          (⟨e.m_pauseAt, trial.m_status, stepsFrom app fuel trial.model⟩, false, e', false) ∧
        (∀ c ∈ e'.m_inputs.fileCaches, (c.rows trialId).length = n') ∧
        sameSinks e.m_inputs.fileCaches e'.m_inputs.fileCaches ∧
        e'.files trialId ++ bufferedText trialId e'.m_inputs.fileCaches n'
          = e.files trialId ++ bufferedText trialId e.m_inputs.fileCaches n ++
            ((List.range fuel).map (fun (j : Nat) => rowOf e.m_inputs.fileCaches
              ⟨trial.m_currStep + 1 + ((j : Nat) : Int), trial.m_status,
                stepsFrom app (j + 1) trial.model⟩)).flatten ∧
        e'.m_stopAt = e.m_stopAt ∧ e'.m_trials = e.m_trials := by
  induction fuel with
  | zero =>
    intro trial e n _ _ hlen h
    have h' : trial.m_currStep = e.m_pauseAt := by simpa using h
    refine ⟨e, n, ?_, hlen, rfl, ?_, rfl, rfl⟩
    · simp only [stepLoop, stepsFrom, Function.iterate_zero, id_eq, ← h']
    · simp
  | succ k ih =>
    intro trial e n hw hcs hlen h
    have hlt : trial.m_currStep < e.m_pauseAt := by push_cast at h; omega
    rw [stepLoop_succ app trialId hconv hopen k trial e hlt]
    obtain ⟨n1, p1, p2, p3, p4, p5, p6, p7⟩ := passState_spec app hopen trialId
      ⟨trial.m_currStep + 1, trial.m_status, (app.algorithmStep trial.model).1⟩ e n hw hcs hlen
    have hw1 := wired_sameSinks e _ p3 p2 hw
    have hcs1 : 0 < (passState app trialId
        ⟨trial.m_currStep + 1, trial.m_status, (app.algorithmStep trial.model).1⟩
        e).m_inputs.fileCaches.length := by
      rw [sameSinks_length _ _ p2]; exact hcs
    obtain ⟨e', n', q1, q2, q3, q4, q5, q6⟩ := ih
      ⟨trial.m_currStep + 1, trial.m_status, (app.algorithmStep trial.model).1⟩
      (passState app trialId
        ⟨trial.m_currStep + 1, trial.m_status, (app.algorithmStep trial.model).1⟩ e)
      n1 hw1 hcs1 p1 (by rw [p5]; show trial.m_currStep + 1 + (k : Int) = e.m_pauseAt;
                           push_cast at h; omega)
    refine ⟨e', n', ?_, q2, sameSinks_trans _ _ _ p2 q3, ?_, by rw [q5, p6], by rw [q6, p7]⟩
    · rw [q1, p5]
      rfl
    · rw [q4, p4, List.range_succ_eq_map, List.map_cons, List.flatten_cons, List.map_map]
      simp only [List.append_assoc, List.append_cancel_left_eq]
      congr 1
      · simp only [Nat.cast_zero, add_zero, Nat.zero_add]
        rfl
      · congr 1
        apply List.map_congr_left
        intro j _
        simp only [Function.comp_apply]
        rw [rowOf_sameSinks _ _ _ p2]
        congr 2
        · push_cast; omega

theorem feed_and_flush (app : MainApp σ) (hopen : ∀ n, app.openOk n = true)
    (trialId : Nat) (t : AbstractModel σ) (e : Experiment σ) (n : Nat) (hw : wired e)
    (hcs : 0 < e.m_inputs.fileCaches.length)
    (hlen : ∀ c ∈ e.m_inputs.fileCaches, (c.rows trialId).length = n) :
    (∀ c ∈ (writeCachedSteps app trialId (doOperations trialId t e)).2.m_inputs.fileCaches,
        (c.rows trialId).length = 0) ∧
      sameSinks e.m_inputs.fileCaches
        (writeCachedSteps app trialId (doOperations trialId t e)).2.m_inputs.fileCaches ∧
      (writeCachedSteps app trialId (doOperations trialId t e)).2.files trialId
        = e.files trialId ++ bufferedText trialId e.m_inputs.fileCaches n
          ++ rowOf e.m_inputs.fileCaches t := by
  have hd := doOperations_wired trialId t e hw
  obtain ⟨cs1, h1⟩ := doOperations_shape trialId t e
  have hdlen : ∀ c ∈ (doOperations trialId t e).m_inputs.fileCaches,
      (c.rows trialId).length = n + 1 := by
    intro c hc
    rw [hd] at hc
    obtain ⟨c0, hc0, rfl⟩ := List.mem_map.mp hc
    simp only [Cache.push, if_true, List.length_append, List.length_singleton, hlen c0 hc0]
  have hdcs : 0 < (doOperations trialId t e).m_inputs.fileCaches.length := by
    rw [hd, List.length_map]; exact hcs
  have hdsame : sameSinks e.m_inputs.fileCaches (doOperations trialId t e).m_inputs.fileCaches := by
    rw [hd]
    exact sameSinks_map _ _ (fun c => ⟨rfl, rfl⟩)
  have hdtext : bufferedText trialId (doOperations trialId t e).m_inputs.fileCaches (n + 1)
      = bufferedText trialId e.m_inputs.fileCaches n ++ rowOf e.m_inputs.fileCaches t := by
    rw [hd]; exact bufferedText_push trialId _ t n hlen
  have hdfiles : (doOperations trialId t e).files = e.files := by rw [h1]
  obtain ⟨hwc, hwf⟩ := writeCachedSteps_uniform app hopen trialId
    (doOperations trialId t e) (n + 1) hdcs hdlen
  refine ⟨?_, ?_, ?_⟩
  · intro c hc
    rw [hwc] at hc
    obtain ⟨c0, hc0, rfl⟩ := List.mem_map.mp hc
    simp only [Cache.dropRows, if_true, List.length_drop, hdlen c0 hc0, Nat.sub_self]
  · rw [hwc]
    exact sameSinks_trans _ _ _ hdsame (sameSinks_map _ _ (fun c => ⟨rfl, rfl⟩))
  · rw [hwf]
    simp only [if_true]
    rw [hdfiles, hdtext, List.append_assoc]

theorem writeInitialStep_spec (app : MainApp σ) (hopen : ∀ n, app.openOk n = true)
    (trialId : Nat) (m0 : AbstractModel σ) (e : Experiment σ) (hw : wired e)
    (hcs : 0 < e.m_inputs.fileCaches.length)
    (hempty : ∀ c ∈ e.m_inputs.fileCaches, (c.rows trialId).length = 0) :
    (writeInitialStep app trialId m0 e).1 = true ∧
    (∀ c ∈ (writeInitialStep app trialId m0 e).2.m_inputs.fileCaches,
        (c.rows trialId).length = 0) ∧
    sameSinks e.m_inputs.fileCaches (writeInitialStep app trialId m0 e).2.m_inputs.fileCaches ∧
    (writeInitialStep app trialId m0 e).2.files trialId
      = e.m_fileHeader ++ rowOf e.m_inputs.fileCaches m0 := by
  have hne : e.m_inputs.fileCaches.isEmpty = false := by
    cases hc : e.m_inputs.fileCaches with
    | nil => rw [hc] at hcs; simp at hcs
    | cons a l => rfl
  have key := feed_and_flush app hopen trialId m0
    { e with opens := e.opens + 1
             files := fun j => if j = trialId then e.m_fileHeader else e.files j } 0 hw hcs hempty
  simp only [writeInitialStep, hne, if_true, hopen]
  refine ⟨trivial, key.1, key.2.1, ?_⟩
  rw [key.2.2]
  simp [bufferedText]

theorem lookup_append_new (trialId : Nat) (t : AbstractModel σ)
    (l : List (Nat × AbstractModel σ)) (h : l.lookup trialId = none) :
    (l ++ [(trialId, t)]).lookup trialId = some t := by
  induction l with
  | nil => simp [List.lookup]
  | cons a l ih =>
    obtain ⟨k, v⟩ := a
    rw [List.lookup_cons] at h
    rw [List.cons_append, List.lookup_cons]
    cases hb : (trialId == k) with
    | true => rw [hb] at h; simp at h
    | false =>
      rw [hb] at h
      exact ih h

theorem createTrial_ok (app : MainApp σ) (trialId : Nat) (e : Experiment σ)
    (m0 : AbstractModel σ) (hst : e.m_expStatus ≠ Status.INVALID) (hp : e.m_pauseAt ≠ 0)
    (hslot : (e.m_trials.length : Int) ≠ e.m_numTrials)
    (hnodes : (createNodes e.m_inputs.graphType e).1 ≠ [])
    (hgraph : app.graph (trialSeed e.m_inputs trialId) (createNodes e.m_inputs.graphType e).1
      = true)
    (hmodel : app.modelPlugin (trialSeed e.m_inputs trialId)
      (createNodes e.m_inputs.graphType e).1 = some m0)
    (hfile : (writeInitialStep app trialId m0 (createNodes e.m_inputs.graphType e).2).1 = true) :
    createTrial app trialId e = some (some { m0 with m_status := Status.READY },
      (writeInitialStep app trialId m0 (createNodes e.m_inputs.graphType e).2).2) := by
  obtain ⟨cl, k, hn⟩ := createNodes_shape e.m_inputs.graphType e
  have hin : (createNodes e.m_inputs.graphType e).2.m_inputs = e.m_inputs := by rw [hn]
  have h0 : ¬ (e.m_expStatus = Status.INVALID ∨ e.m_pauseAt = 0) := by
    intro h; rcases h with h | h
    · exact hst h
    · exact hp h
  unfold createTrial
  rw [if_neg h0, if_neg hslot]
  simp only [hin, if_neg hnodes, hgraph, Bool.true_eq_false, if_false, hmodel, hfile, if_true]

/-- C5: let the stop horizon and the pause horizon be `S ≥ 1`, the flush cadence
be at least 1, there be at least one file cache (each registered through its
output and holding no row for the trial), the model never signal convergence
and every file open succeed. Then the first `processTrial` call for a trial id
that is not in the trial map, whose construction succeeds with a model at step
0, leaves the file of the trial holding the header followed by exactly `S + 1`
rows, the rows of the steps `0, 1, …, S` in this order, and leaves the trial
Finished at step `S`. -/
theorem C5_first_call_writes_all_rows (app : MainApp σ) (trialId : Nat) (e : Experiment σ)
    (S : Nat) (m0 : AbstractModel σ)
    (hst : e.m_expStatus ≠ Status.INVALID) (hl : e.m_trials.lookup trialId = none)
    (hS : 1 ≤ S) (hstop : e.m_stopAt = S) (hpause : e.m_pauseAt = S)
    (_hF : 1 ≤ app.stepsToFlush)
    (hcs : 0 < e.m_inputs.fileCaches.length) (hw : wired e)
    (hempty : ∀ c ∈ e.m_inputs.fileCaches, c.rows trialId = [])
    (hconv : ∀ s, (app.algorithmStep s).2 = false) (hopen : ∀ n, app.openOk n = true)
    (hslot : (e.m_trials.length : Int) ≠ e.m_numTrials)
    (hnodes : (createNodes e.m_inputs.graphType e).1 ≠ [])
    (hgraph : app.graph (trialSeed e.m_inputs trialId) (createNodes e.m_inputs.graphType e).1
      = true)
    (hmodel : app.modelPlugin (trialSeed e.m_inputs trialId)
      (createNodes e.m_inputs.graphType e).1 = some m0)
    (hm0 : m0.m_currStep = 0) :
    ∃ final, processTrial app trialId e = some final ∧
      final.files trialId = e.m_fileHeader ++
        ((List.range (S + 1)).map
          (fun i => rowOf e.m_inputs.fileCaches (observed app m0 i))).flatten ∧
      final.m_trials.lookup trialId = some ⟨(S : Int), Status.FINISHED, stepsFrom app S m0.model⟩ := by
  -- the node set
  obtain ⟨cl, k, hn⟩ := createNodes_shape e.m_inputs.graphType e
  generalize he1 : (createNodes e.m_inputs.graphType e).2 = e1 at hn
  have i1 : e1.m_inputs = e.m_inputs := by rw [hn]
  have i2 : e1.m_outputs = e.m_outputs := by rw [hn]
  have i3 : e1.m_fileHeader = e.m_fileHeader := by rw [hn]
  have i4 : e1.m_trials = e.m_trials := by rw [hn]
  have i5 : e1.m_pauseAt = e.m_pauseAt := by rw [hn]
  have i6 : e1.m_stopAt = e.m_stopAt := by rw [hn]
  have hw1 : wired e1 := by unfold wired; rw [i1, i2]; exact hw
  have hcs1 : 0 < e1.m_inputs.fileCaches.length := by rw [i1]; exact hcs
  have hempty1 : ∀ c ∈ e1.m_inputs.fileCaches, (c.rows trialId).length = 0 := by
    rw [i1]; intro c hc; rw [hempty c hc]; rfl
  -- the file with the header and the row of step 0
  obtain ⟨f1, f2, f3, f4⟩ := writeInitialStep_spec app hopen trialId m0 e1 hw1 hcs1 hempty1
  obtain ⟨cs4, fs4, n4, hsh⟩ := writeInitialStep_shape app trialId m0 e1
  generalize he4 : (writeInitialStep app trialId m0 e1).2 = e4 at f2 f3 f4 hsh
  have j2 : e4.m_outputs = e.m_outputs := by rw [hsh, i2]
  have j4 : e4.m_trials = e.m_trials := by rw [hsh, i4]
  have j5 : e4.m_pauseAt = e.m_pauseAt := by rw [hsh, i5]
  have j6 : e4.m_stopAt = e.m_stopAt := by rw [hsh, i6]
  have hp : e.m_pauseAt ≠ 0 := by rw [hpause]; exact_mod_cast (by omega : S ≠ 0)
  have hcreate := createTrial_ok app trialId e m0 hst hp hslot hnodes hgraph hmodel
    (by rw [he1]; exact f1)
  rw [he1, he4] at hcreate
  -- the state in which the trial is stepped
  generalize hE : ({ e4 with m_trials := e4.m_trials ++
    [(trialId, ({ m0 with m_status := Status.READY } : AbstractModel σ))] } : Experiment σ) = E
  have k1 : E.m_inputs.fileCaches = e4.m_inputs.fileCaches := by rw [← hE]
  have k2 : E.m_outputs = e.m_outputs := by rw [← hE]; exact j2
  have k3 : E.files = e4.files := by rw [← hE]
  have k5 : E.m_pauseAt = (S : Int) := by rw [← hE]; show e4.m_pauseAt = S; rw [j5, hpause]
  have k6 : E.m_stopAt = (S : Int) := by rw [← hE]; show e4.m_stopAt = S; rw [j6, hstop]
  have k4 : E.m_trials.lookup trialId = some { m0 with m_status := Status.READY } := by
    rw [← hE]
    show (e4.m_trials ++ _).lookup trialId = _
    rw [j4]
    exact lookup_append_new trialId _ e.m_trials hl
  have hsE : sameSinks e.m_inputs.fileCaches E.m_inputs.fileCaches := by
    rw [k1, ← i1]; exact f3
  have hwE : wired E := wired_sameSinks e E k2 hsE hw
  have hcsE : 0 < E.m_inputs.fileCaches.length := by
    rw [sameSinks_length _ _ hsE]; exact hcs
  have hlenE : ∀ c ∈ E.m_inputs.fileCaches, (c.rows trialId).length = 0 := by
    rw [k1]; exact f2
  -- the stepping loop
  obtain ⟨e', n', q1, q2, q3, q4, q5, q6⟩ := stepLoop_text app trialId hconv hopen S
    ⟨m0.m_currStep, Status.RUNNING, m0.model⟩ E 0 hwE hcsE hlenE
    (by show m0.m_currStep + (S : Int) = E.m_pauseAt; rw [hm0, k5]; omega)
  have hcs' : 0 < e'.m_inputs.fileCaches.length := by
    rw [sameSinks_length _ _ q3]; exact hcsE
  obtain ⟨w1, w2⟩ := writeCachedSteps_uniform app hopen trialId e' n' hcs' q2
  obtain ⟨cs9, fs9, n9, hsh9⟩ := writeCachedSteps_shape app trialId e'
  have hwok := writeCachedSteps_opens_ok app hopen trialId e'
  have hfuel : (E.m_pauseAt - m0.m_currStep).toNat = S := by
    rw [k5, hm0]; simp
  refine ⟨runTrial app trialId E, ?_, ?_, ?_⟩
  · simp only [processTrial, if_neg hst, hl, hcreate, hE]
  all_goals
    have hge : e'.m_stopAt ≤ E.m_pauseAt := by rw [q5, k6, k5]
    simp only [runTrial, k4, ne_eq, not_true_eq_false, if_false, hfuel, q1,
      Bool.false_eq_true, ge_iff_le, hge, true_or, if_true, hwok, storeTrial]
  · rw [w2]
    simp only [if_true]
    rw [q4, k3, f4, i3, i1]
    simp only [bufferedText, List.range_zero, List.map_nil, List.flatten_nil, List.append_nil,
      List.append_assoc, List.append_cancel_left_eq]
    rw [List.range_succ_eq_map, List.map_cons, List.flatten_cons, List.map_map]
    congr 2
    apply List.map_congr_left
    intro j _
    simp only [Function.comp_apply, observed]
    rw [rowOf_sameSinks _ _ _ hsE, hm0]
    congr 2
    push_cast
    omega
  · rw [hsh9]
    simp only
    rw [q6, k5]
    exact lookup_storeTrial trialId _ _ E.m_trials k4

/-- Witness of C5: stop and pause horizon 10, cadence 4, one file cache: the
first call for trial 0 of the reset `exExperiment` leaves the header and eleven
rows in the file and the trial Finished at step 10. -/
theorem C5_first_call_writes_all_rows_witness :
    (reset exApp exExperiment).m_expStatus ≠ Status.INVALID ∧
    (reset exApp exExperiment).m_trials.lookup 0 = none ∧
    (reset exApp exExperiment).m_stopAt = 10 ∧ (reset exApp exExperiment).m_pauseAt = 10 ∧
    exApp.stepsToFlush = 4 ∧
    0 < (reset exApp exExperiment).m_inputs.fileCaches.length ∧
    wired (reset exApp exExperiment) ∧
    (∀ c ∈ (reset exApp exExperiment).m_inputs.fileCaches, c.rows 0 = []) ∧
    ∃ final, processTrial exApp 0 (reset exApp exExperiment) = some final ∧
      final.files 0 = exExpectedFile ∧
      final.m_trials.lookup 0 = some ⟨10, Status.FINISHED, 17⟩ :=
  ⟨by decide, rfl, rfl, rfl, rfl, by decide, by unfold wired; decide, by decide,
    (C5_first_call_writes_all_rows exApp 0 (reset exApp exExperiment) 10
      ⟨0, Status.INVALID, 7⟩ (by decide) rfl (by decide) rfl rfl (by decide) (by decide)
      (by unfold wired; decide) (by decide) (fun _ => rfl) (fun _ => rfl) (by decide)
      (by decide) rfl rfl rfl).imp
      (fun _ h => ⟨h.1, h.2.1.trans (by rfl), h.2.2⟩)⟩

/-! ## Guards of init and reset (C11) -/

/-- C11: for an experiment whose status is Running or Queued, `init` returns
false with a non-empty error message and `reset` returns without effect; in
both cases the whole state (configuration, output set, trial map, clonable node
set, pause and stop horizons, progress, status) is unchanged. `init` returns
false only in those two statuses. -/
theorem C11_init_reset_guard (app : MainApp σ) (inputs : ExpInputs σ) (error : QString)
    (e : Experiment σ) :
    ((e.m_expStatus = Status.RUNNING ∨ e.m_expStatus = Status.QUEUED) →
      (init app inputs error e).1 = false ∧ (init app inputs error e).2.1 ≠ [] ∧
      (init app inputs error e).2.2 = e ∧ reset app e = e) ∧
    ((init app inputs error e).1 = false →
      e.m_expStatus = Status.RUNNING ∨ e.m_expStatus = Status.QUEUED) := by
  refine ⟨?_, ?_⟩
  · intro h
    simp only [init, reset, if_pos h]
    exact ⟨trivial, by decide, trivial, trivial⟩
  · intro h
    by_contra hn
    simp only [init, if_neg hn] at h
    exact Bool.noConfusion h

/-- Witness of C11: `init` and `reset` on the running experiment `exRunning`. -/
theorem C11_init_reset_guard_witness :
    exRunning.m_expStatus = Status.RUNNING ∧
    (init exApp exTwinInputs [] exRunning).1 = false ∧
    (init exApp exTwinInputs [] exRunning).2.1 ≠ [] ∧
    (init exApp exTwinInputs [] exRunning).2.2 = exRunning ∧
    reset exApp exRunning = exRunning :=
  ⟨rfl, (C11_init_reset_guard exApp exTwinInputs [] exRunning).1 (Or.inl rfl)⟩

/-! ## Removing an output (C12) -/

/-- C12: `removeOutput` returns true if and only if the status is Ready, the
buffer of the sink is empty and the sink is a member of the output set; when it
returns true the output set is the old set without that sink, when it returns
false the state, and so the output set, is unchanged. -/
theorem C12_removeOutput_iff (output : Output) (outputIsEmpty : Bool) (e : Experiment σ) :
    ((removeOutput output outputIsEmpty e).1 = true ↔
      (e.m_expStatus = Status.READY ∧ outputIsEmpty = true ∧
        output.addr ∈ e.m_outputs.map (fun o => o.addr))) ∧
    ((removeOutput output outputIsEmpty e).1 = true →
      ∀ o, o ∈ (removeOutput output outputIsEmpty e).2.m_outputs ↔
        (o ∈ e.m_outputs ∧ o.addr ≠ output.addr)) ∧
    ((removeOutput output outputIsEmpty e).1 = false →
      (removeOutput output outputIsEmpty e).2 = e) := by
  have hany : e.m_outputs.any (fun x => x.addr == output.addr) = true ↔
      output.addr ∈ e.m_outputs.map (fun o => o.addr) := by
    simp only [List.any_eq_true, beq_iff_eq, List.mem_map]
  by_cases h1 : e.m_expStatus = Status.READY
  · cases outputIsEmpty with
    | false => simp [removeOutput, h1]
    | true =>
      cases h3 : e.m_outputs.any (fun x => x.addr == output.addr) with
      | false =>
        have hn : ¬ output.addr ∈ e.m_outputs.map (fun o => o.addr) := by
          rw [← hany, h3]; exact Bool.noConfusion
        refine ⟨⟨?_, fun h => absurd h.2.2 hn⟩, ?_, ?_⟩ <;> simp [removeOutput, h1, h3]
      | true =>
        refine ⟨⟨fun _ => ⟨h1, rfl, hany.mp h3⟩, ?_⟩, ?_, ?_⟩
        · intro _; simp [removeOutput, h1, h3]
        · intro _ o
          simp [removeOutput, h1, h3]
        · simp [removeOutput, h1, h3]
  · refine ⟨⟨?_, fun h => absurd h.1 h1⟩, ?_, ?_⟩ <;> simp [removeOutput, h1]

/-- Witness of C12: removing the first of the two outputs of `exBuffered`, which
is Ready, once its buffer is reported empty. -/
theorem C12_removeOutput_iff_witness :
    exBuffered.m_expStatus = Status.READY ∧
    exOutput.addr ∈ exBuffered.m_outputs.map (fun o => o.addr) ∧
    (removeOutput exOutput true exBuffered).1 = true ∧
    (∀ o, o ∈ (removeOutput exOutput true exBuffered).2.m_outputs ↔
      (o ∈ exBuffered.m_outputs ∧ o.addr ≠ exOutput.addr)) ∧
    (removeOutput exOutput false exBuffered).2 = exBuffered :=
  ⟨rfl, by decide,
    (C12_removeOutput_iff exOutput true exBuffered).1.mpr ⟨rfl, rfl, by decide⟩,
    (C12_removeOutput_iff exOutput true exBuffered).2.1 rfl,
    (C12_removeOutput_iff exOutput false exBuffered).2.2 rfl⟩

/-! ## The output set after init (C13) -/

theorem insertOutput_nodup (o : Output) (s : List Output)
    (h : (s.map (fun x => x.addr)).Nodup) :
    ((insertOutput o s).map (fun x => x.addr)).Nodup := by
  unfold insertOutput
  split
  · exact h
  · rename_i hn
    rw [List.map_append, List.map_cons, List.map_nil]
    refine List.Nodup.append h (List.nodup_singleton _) ?_
    intro a ha hb
    simp only [List.mem_singleton] at hb
    subst hb
    apply hn
    obtain ⟨x, hx, hxa⟩ := List.mem_map.mp ha
    simp only [List.any_eq_true, beq_iff_eq]
    exact ⟨x, hx, hxa⟩

theorem insertOutput_mem (o : Output) (s : List Output) :
    (∀ x, x ∈ s → x ∈ insertOutput o s) ∧
    (∀ x, x ∈ insertOutput o s → x ∈ s ∨ x = o) ∧
    o.addr ∈ (insertOutput o s).map (fun x => x.addr) := by
  unfold insertOutput
  split
  · rename_i h
    refine ⟨fun _ hx => hx, fun _ hx => Or.inl hx, ?_⟩
    simp only [List.any_eq_true, beq_iff_eq] at h
    obtain ⟨x, hx, hxa⟩ := h
    exact List.mem_map.mpr ⟨x, hx, hxa⟩
  · refine ⟨fun _ hx => List.mem_append_left _ hx, ?_, ?_⟩
    · intro x hx
      rcases List.mem_append.mp hx with h | h
      · exact Or.inl h
      · exact Or.inr (List.mem_singleton.mp h)
    · exact List.mem_map.mpr ⟨o, List.mem_append_right _ (List.mem_singleton.mpr rfl), rfl⟩

theorem initCaches_fold (caches : List (Cache σ)) :
    ∀ acc : QString × List Output, (acc.2.map (fun x => x.addr)).Nodup →
      let r := caches.foldl
        (fun acc c => (acc.1 ++ (c.printableHeader ++ [',']), insertOutput c.output acc.2)) acc
      (r.2.map (fun x => x.addr)).Nodup ∧
      (∀ x, x ∈ acc.2 → x ∈ r.2) ∧
      (∀ x, x ∈ r.2 → x ∈ acc.2 ∨ ∃ c ∈ caches, x = c.output) ∧
      (∀ c ∈ caches, c.output.addr ∈ r.2.map (fun x => x.addr)) := by
  induction caches with
  | nil =>
    intro acc h
    exact ⟨h, fun _ hx => hx, fun _ hx => Or.inl hx, fun c hc => absurd hc (List.not_mem_nil c)⟩
  | cons c cs ih =>
    intro acc h
    obtain ⟨m1, m2, m3⟩ := insertOutput_mem c.output acc.2
    obtain ⟨i1, i2, i3, i4⟩ := ih (acc.1 ++ (c.printableHeader ++ [',']), insertOutput c.output acc.2)
      (insertOutput_nodup c.output acc.2 h)
    simp only [List.foldl_cons]
    refine ⟨i1, fun x hx => i2 x (m1 x hx), ?_, ?_⟩
    · intro x hx
      rcases i3 x hx with h1 | ⟨c', hc', hx'⟩
      · rcases m2 x h1 with h2 | h2
        · exact Or.inl h2
        · exact Or.inr ⟨c, List.mem_cons_self _ _, h2⟩
      · exact Or.inr ⟨c', List.mem_cons_of_mem _ hc', hx'⟩
    · intro c' hc'
      rcases List.mem_cons.mp hc' with h1 | h1
      · subst h1
        obtain ⟨x, hx, hxa⟩ := List.mem_map.mp m3
        exact List.mem_map.mpr ⟨x, i2 x hx, hxa⟩
      · exact i4 c' h1

theorem init_outputs (app : MainApp σ) (inputs : ExpInputs σ) (error : QString)
    (e : Experiment σ)
    (hst : e.m_expStatus ≠ Status.RUNNING ∧ e.m_expStatus ≠ Status.QUEUED) :
    (init app inputs error e).1 = true ∧
    (init app inputs error e).2.2.m_outputs = (initCaches inputs.fileCaches).2 := by
  have h : ¬ (e.m_expStatus = Status.RUNNING ∨ e.m_expStatus = Status.QUEUED) := by
    intro h'; rcases h' with h' | h'
    · exact hst.1 h'
    · exact hst.2 h'
  unfold init
  rw [if_neg h]
  refine ⟨rfl, ?_⟩
  simp only [reset, deleteTrials]
  cases hc : inputs.fileCaches with
  | nil => simp [initCaches, h]
  | cons a l => simp [h]

theorem two_members_length {α : Type} (l : List α) (a b : α) (ha : a ∈ l) (hb : b ∈ l)
    (hab : a ≠ b) : 2 ≤ l.length := by
  cases l with
  | nil => exact absurd ha (List.not_mem_nil a)
  | cons x l =>
    cases l with
    | nil =>
      have h1 := List.mem_singleton.mp ha
      have h2 := List.mem_singleton.mp hb
      exact absurd (h1.trans h2.symm) hab
    | cons y l => simp

/-- C13 (counterexample): the two file caches of `exTwinInputs` have distinct
output objects that are equal under `operator==`; after `init` the output set
holds both of them, two sinks for the one tuple, not one. -/
theorem C13_counterexample_both_kept :
    exOutput.addr ≠ (⟨2, 0, 0, 0⟩ : Output).addr ∧
    exOutput.sameAs ⟨2, 0, 0, 0⟩ = true ∧
    exTwinInputs.fileCaches.map (fun c => c.output) = [exOutput, ⟨2, 0, 0, 0⟩] ∧
    (init exApp exTwinInputs [] exExperiment).1 = true ∧
    (init exApp exTwinInputs [] exExperiment).2.2.m_outputs = [exOutput, ⟨2, 0, 0, 0⟩] ∧
    ((init exApp exTwinInputs [] exExperiment).2.2.m_outputs.filter
      (fun o => o.sameAs exOutput)).length = 2 := by
  refine ⟨by decide, rfl, rfl, rfl, rfl, rfl⟩

/-- C13 (amended): the output set is keyed by the identity of the output
object. When two file caches of the configuration have distinct output objects
that are equal under `operator==`, the output set after `init` contains both of
them, so at least two sinks for that tuple; it holds one member per distinct
output object of the file caches and nothing else, and `searchOutput` for the
tuple returns a member equal under `operator==`. -/
theorem C13_init_keeps_distinct_objects (app : MainApp σ) (inputs : ExpInputs σ)
    (error : QString) (e : Experiment σ) (c1 c2 : Cache σ)
    (hst : e.m_expStatus ≠ Status.RUNNING ∧ e.m_expStatus ≠ Status.QUEUED)
    (hobj : ∀ c ∈ inputs.fileCaches, ∀ c' ∈ inputs.fileCaches,
      c.output.addr = c'.output.addr → c.output = c'.output)
    (hc1 : c1 ∈ inputs.fileCaches) (hc2 : c2 ∈ inputs.fileCaches)
    (hne : c1.output.addr ≠ c2.output.addr)
    (hsame : c1.output.sameAs c2.output = true) :
    (init app inputs error e).1 = true ∧
    c1.output ∈ (init app inputs error e).2.2.m_outputs ∧
    c2.output ∈ (init app inputs error e).2.2.m_outputs ∧
    2 ≤ ((init app inputs error e).2.2.m_outputs.filter
      (fun o => o.sameAs c1.output)).length ∧
    ((init app inputs error e).2.2.m_outputs.map (fun o => o.addr)).Nodup ∧
    (∀ o ∈ (init app inputs error e).2.2.m_outputs, ∃ c ∈ inputs.fileCaches, o = c.output) ∧
    ∃ o, searchOutput c1.output (init app inputs error e).2.2 = some o ∧
      o ∈ (init app inputs error e).2.2.m_outputs ∧ o.sameAs c1.output = true := by
  obtain ⟨hret, hout⟩ := init_outputs app inputs error e hst
  obtain ⟨i1, -, i3, i4⟩ := initCaches_fold inputs.fileCaches ([], []) List.nodup_nil
  have hfrom : ∀ o ∈ (initCaches inputs.fileCaches).2, ∃ c ∈ inputs.fileCaches, o = c.output := by
    intro o ho
    rcases i3 o ho with h | h
    · exact absurd h (List.not_mem_nil o)
    · exact h
  have hmem : ∀ c ∈ inputs.fileCaches, c.output ∈ (initCaches inputs.fileCaches).2 := by
    intro c hc
    obtain ⟨o, ho, hoa⟩ := List.mem_map.mp (i4 c hc)
    obtain ⟨c', hc', hoc'⟩ := hfrom o ho
    have : c'.output = c.output := hobj c' hc' c hc (by rw [← hoc']; exact hoa)
    rw [← this, ← hoc']; exact ho
  have hrefl : c1.output.sameAs c1.output = true := by simp [Output.sameAs]
  have hsymm : c2.output.sameAs c1.output = true := by
    simp only [Output.sameAs, Bool.and_eq_true, beq_iff_eq] at hsame ⊢
    exact ⟨⟨hsame.1.1.symm, hsame.1.2.symm⟩, hsame.2.symm⟩
  have hdiff : c1.output ≠ c2.output := fun h => hne (congrArg (fun o => o.addr) h)
  rw [hout]
  refine ⟨hret, hmem c1 hc1, hmem c2 hc2, ?_, i1, hfrom, ?_⟩
  · exact two_members_length _ c1.output c2.output
      (List.mem_filter.mpr ⟨hmem c1 hc1, hrefl⟩) (List.mem_filter.mpr ⟨hmem c2 hc2, hsymm⟩) hdiff
  · cases hf : List.find? (fun o => o.sameAs c1.output) (initCaches inputs.fileCaches).2 with
    | none =>
      have := List.find?_eq_none.mp hf c1.output (hmem c1 hc1)
      exact absurd hrefl this
    | some o =>
      have hp := List.find?_some hf
      refine ⟨o, ?_, List.mem_of_find?_eq_some hf, hp⟩
      simp only [searchOutput, hout, hf]

/-- Witness of C13 (amended): `init` with the configuration `exTwinInputs`. -/
theorem C13_init_keeps_distinct_objects_witness :
    (exExperiment.m_expStatus ≠ Status.RUNNING ∧ exExperiment.m_expStatus ≠ Status.QUEUED) ∧
    exCache ∈ exTwinInputs.fileCaches ∧
    exCache.output.addr ≠ (⟨2, 0, 0, 0⟩ : Output).addr ∧
    exCache.output.sameAs ⟨2, 0, 0, 0⟩ = true ∧
    (init exApp exTwinInputs [] exExperiment).1 = true ∧
    exCache.output ∈ (init exApp exTwinInputs [] exExperiment).2.2.m_outputs ∧
    (⟨2, 0, 0, 0⟩ : Output) ∈ (init exApp exTwinInputs [] exExperiment).2.2.m_outputs ∧
    2 ≤ ((init exApp exTwinInputs [] exExperiment).2.2.m_outputs.filter
      (fun o => o.sameAs exCache.output)).length :=
  have h := C13_init_keeps_distinct_objects exApp exTwinInputs [] exExperiment exCache
    { exCache with output := ⟨2, 0, 0, 0⟩ } (by decide)
    (by
      intro c hc c' hc' hcc
      simp only [exTwinInputs, List.mem_cons, List.mem_singleton, List.not_mem_nil,
        or_false] at hc hc'
      rcases hc with rfl | rfl <;> rcases hc' with rfl | rfl
      · rfl
      · exact absurd hcc (by decide)
      · exact absurd hcc (by decide)
      · rfl)
    (List.mem_cons_self _ _) (List.mem_cons_of_mem _ (List.mem_cons_self _ _))
    (by decide) rfl
  ⟨by decide, List.mem_cons_self _ _, by decide, rfl, h.1, h.2.1, h.2.2.1, h.2.2.2.1⟩

/-! ## Trials that are not Ready (C16) -/

/-- C16: for a trial that is in the trial map with status Running, Finished or
Invalid, `processTrial` returns the state it was given: no algorithm step is
made, no sink is fed, no file is written, and the step counter and status of
the trial and the status of the experiment are unchanged. -/
theorem C16_processTrial_not_ready (app : MainApp σ) (trialId : Nat) (e : Experiment σ)
    (trial : AbstractModel σ) (hl : e.m_trials.lookup trialId = some trial)
    (hs : trial.m_status = Status.RUNNING ∨ trial.m_status = Status.FINISHED ∨
      trial.m_status = Status.INVALID) :
    processTrial app trialId e = some e := by
  have hnr : trial.m_status ≠ Status.READY := by
    rcases hs with h | h | h <;> rw [h] <;> decide
  unfold processTrial
  split
  · rfl
  · simp only [hl, runTrial, if_pos hnr]

/-- Witness of C16: trial 0 of `exAfterTrial0` is Finished at step 10. -/
theorem C16_processTrial_not_ready_witness :
    exAfterTrial0.m_trials.lookup 0 = some ⟨10, Status.FINISHED, 17⟩ ∧
    processTrial exApp 0 exAfterTrial0 = some exAfterTrial0 :=
  ⟨rfl, C16_processTrial_not_ready exApp 0 exAfterTrial0 ⟨10, Status.FINISHED, 17⟩ rfl
    (Or.inr (Or.inl rfl))⟩

/-! ## Pause horizon 0 (C18) -/

/-- C18: when the status is not Invalid, the pause horizon is 0 and the trial id
is not in the trial map, `createTrial` returns no trial and leaves the whole
state as it was (no node set built or cloned, no plugin instantiated, no file
touched); `processTrial` then creates no trial: the trial map and the clonable
node set are unchanged and the status of the experiment is Invalid. -/
theorem C18_pause_horizon_zero (app : MainApp σ) (trialId : Nat) (e : Experiment σ)
    (hst : e.m_expStatus ≠ Status.INVALID) (hp : e.m_pauseAt = 0)
    (hl : e.m_trials.lookup trialId = none) :
    createTrial app trialId e = some (none, e) ∧
    ∃ s, processTrial app trialId e = some s ∧ s.m_trials = e.m_trials ∧
      s.m_clonableNodes = e.m_clonableNodes ∧ s.clones = e.clones ∧ s.files = e.files ∧
      s.opens = e.opens ∧ s.m_expStatus = Status.INVALID := by
  have hc : createTrial app trialId e = some (none, e) := by
    unfold createTrial
    rw [if_pos (Or.inr hp)]
  refine ⟨hc, pause (setExpStatus Status.INVALID e), ?_, rfl, rfl, rfl, rfl, rfl, rfl⟩
  simp only [processTrial, if_neg hst, hl, hc]

/-- Witness of C18: trial 1 of `exPaused`, whose pause horizon is 0. -/
theorem C18_pause_horizon_zero_witness :
    exPaused.m_expStatus ≠ Status.INVALID ∧ exPaused.m_pauseAt = 0 ∧
    exPaused.m_trials.lookup 1 = none ∧
    createTrial exApp 1 exPaused = some (none, exPaused) ∧
    ∃ s, processTrial exApp 1 exPaused = some s ∧ s.m_trials = exPaused.m_trials ∧
      s.m_clonableNodes = exPaused.m_clonableNodes ∧ s.clones = exPaused.clones ∧
      s.files = exPaused.files ∧ s.opens = exPaused.opens ∧
      s.m_expStatus = Status.INVALID :=
  ⟨by decide, rfl, rfl, C18_pause_horizon_zero exApp 1 exPaused (by decide) rfl rfl⟩

/-! ## The trial map never outgrows the trial count (C15) -/

theorem stepLoop_general (app : MainApp σ) (trialId : Nat) (fuel : Nat) :
    ∀ (trial : AbstractModel σ) (conv : Bool) (e : Experiment σ),
      ∃ k : Nat,
        (stepLoop app trialId fuel trial conv e).1.model = stepsFrom app k trial.model ∧
        (stepLoop app trialId fuel trial conv e).1.m_currStep = trial.m_currStep + k ∧
        ((stepLoop app trialId fuel trial conv e).2.2.2 = false →
          (stepLoop app trialId fuel trial conv e).2.2.1.m_expStatus = e.m_expStatus ∧
          (stepLoop app trialId fuel trial conv e).2.2.1.m_pauseAt = e.m_pauseAt ∧
          (stepLoop app trialId fuel trial conv e).1.m_status = trial.m_status) ∧
        ((stepLoop app trialId fuel trial conv e).2.2.2 = true →
          (stepLoop app trialId fuel trial conv e).2.2.1.m_expStatus = Status.INVALID ∧
          (stepLoop app trialId fuel trial conv e).1.m_status = Status.INVALID) := by
  induction fuel with
  | zero =>
    intro trial conv e
    refine ⟨0, rfl, by simp [stepLoop], fun _ => ⟨rfl, rfl, rfl⟩, fun h => ?_⟩
    simp [stepLoop] at h
  | succ n ih =>
    intro trial conv e
    have hnext : ∀ (T : AbstractModel σ) (c : Bool) (e1 : Experiment σ),
        T.model = (app.algorithmStep trial.model).1 → T.m_currStep = trial.m_currStep + 1 →
        T.m_status = trial.m_status →
        e1.m_expStatus = e.m_expStatus → e1.m_pauseAt = e.m_pauseAt →
        ∃ k : Nat,
          (stepLoop app trialId n T c e1).1.model = stepsFrom app k trial.model ∧
          (stepLoop app trialId n T c e1).1.m_currStep = trial.m_currStep + k ∧
          ((stepLoop app trialId n T c e1).2.2.2 = false →
            (stepLoop app trialId n T c e1).2.2.1.m_expStatus = e.m_expStatus ∧
            (stepLoop app trialId n T c e1).2.2.1.m_pauseAt = e.m_pauseAt ∧
            (stepLoop app trialId n T c e1).1.m_status = trial.m_status) ∧
          ((stepLoop app trialId n T c e1).2.2.2 = true →
            (stepLoop app trialId n T c e1).2.2.1.m_expStatus = Status.INVALID ∧
            (stepLoop app trialId n T c e1).1.m_status = Status.INVALID) := by
      intro T c e1 hm hc hs h1 h2
      obtain ⟨k, a1, a2, a3, a4⟩ := ih T c e1
      refine ⟨k + 1, ?_, ?_, ?_, a4⟩
      · rw [a1, hm]; rfl
      · rw [a2, hc]; push_cast; omega
      · intro hf
        obtain ⟨b1, b2, b3⟩ := a3 hf
        exact ⟨b1.trans h1, b2.trans h2, b3.trans hs⟩
    simp only [stepLoop]
    split
    · obtain ⟨cs1, h1⟩ := doOperations_shape trialId
        ⟨trial.m_currStep + 1, trial.m_status, (app.algorithmStep trial.model).1⟩ e
      obtain ⟨cs2, fs2, n2, h2⟩ := writeCachedSteps_shape app trialId (doOperations trialId
        ⟨trial.m_currStep + 1, trial.m_status, (app.algorithmStep trial.model).1⟩ e)
      split
      · split
        · refine ⟨1, rfl, by simp, fun h => ?_, fun _ => ⟨rfl, rfl⟩⟩
          simp at h
        · exact hnext _ _ _ rfl rfl rfl (by rw [h2, h1]) (by rw [h2, h1])
      · exact hnext _ _ _ rfl rfl rfl (by rw [h1]) (by rw [h1])
    · refine ⟨0, rfl, by simp, fun _ => ⟨rfl, rfl, rfl⟩, fun h => ?_⟩
      simp at h

theorem runTrial_cases (app : MainApp σ) (trialId : Nat) (e : Experiment σ)
    (t : AbstractModel σ) (hl : e.m_trials.lookup trialId = some t) :
    runTrial app trialId e = e ∨
    ∃ (t' : AbstractModel σ) (k : Nat),
      (runTrial app trialId e).m_trials
        = e.m_trials.map (fun kv => if kv.1 = trialId then (kv.1, t') else kv) ∧
      t'.model = stepsFrom app k t.model ∧ t'.m_currStep = t.m_currStep + k ∧
      ((runTrial app trialId e).m_expStatus = Status.INVALID ∨
        ((runTrial app trialId e).m_expStatus = e.m_expStatus ∧
          (runTrial app trialId e).m_pauseAt = e.m_pauseAt)) := by
  simp only [runTrial, hl]
  split
  · exact Or.inl rfl
  · right
    generalize hfuel : (e.m_pauseAt - t.m_currStep).toNat = fuel
    obtain ⟨k, g1, g2, g3, g4⟩ := stepLoop_general app trialId fuel
      ⟨t.m_currStep, Status.RUNNING, t.model⟩ false e
    obtain ⟨cs, fs, n, st, pa, hsh⟩ := stepLoop_shape app trialId fuel
      ⟨t.m_currStep, Status.RUNNING, t.model⟩ false e
    obtain ⟨cs2, fs2, n2, hsh2⟩ := writeCachedSteps_shape app trialId
      (stepLoop app trialId fuel ⟨t.m_currStep, Status.RUNNING, t.model⟩ false e).2.2.1
    have htr : (stepLoop app trialId fuel ⟨t.m_currStep, Status.RUNNING, t.model⟩
        false e).2.2.1.m_trials = e.m_trials := by rw [hsh]
    have wtr : (writeCachedSteps app trialId (stepLoop app trialId fuel
        ⟨t.m_currStep, Status.RUNNING, t.model⟩ false e).2.2.1).2.m_trials = e.m_trials := by
      rw [hsh2]; exact htr
    have wst : (writeCachedSteps app trialId (stepLoop app trialId fuel
        ⟨t.m_currStep, Status.RUNNING, t.model⟩ false e).2.2.1).2.m_expStatus
        = (stepLoop app trialId fuel ⟨t.m_currStep, Status.RUNNING, t.model⟩
            false e).2.2.1.m_expStatus := by rw [hsh2]
    have wpa : (writeCachedSteps app trialId (stepLoop app trialId fuel
        ⟨t.m_currStep, Status.RUNNING, t.model⟩ false e).2.2.1).2.m_pauseAt
        = (stepLoop app trialId fuel ⟨t.m_currStep, Status.RUNNING, t.model⟩
            false e).2.2.1.m_pauseAt := by rw [hsh2]
    split
    · rename_i hf
      refine ⟨_, k, ?_, g1, g2, Or.inl ?_⟩
      · simp only [storeTrial, htr]
      · exact (g4 hf).1
    · rename_i hf
      have hf' : (stepLoop app trialId fuel ⟨t.m_currStep, Status.RUNNING, t.model⟩
          false e).2.2.2 = false := by simpa using hf
      obtain ⟨b1, b2, -⟩ := g3 hf'
      split
      · split
        · refine ⟨⟨_, Status.FINISHED, _⟩, k, ?_, g1, g2, Or.inr ⟨?_, ?_⟩⟩
          · simp only [storeTrial, wtr]
          · exact wst.trans b1
          · exact wpa.trans b2
        · refine ⟨⟨_, Status.INVALID, _⟩, k, ?_, g1, g2, Or.inl rfl⟩
          simp only [storeTrial, pause, setExpStatus, wtr]
      · refine ⟨⟨_, Status.READY, _⟩, k, ?_, g1, g2, Or.inr ⟨b1, b2⟩⟩
        simp only [storeTrial, htr]

theorem lookup_none_not_mem (k : Nat) (l : List (Nat × AbstractModel σ))
    (h : l.lookup k = none) : k ∉ l.map Prod.fst := by
  induction l with
  | nil => simp
  | cons a l ih =>
    obtain ⟨k', v⟩ := a
    rw [List.lookup_cons] at h
    cases hb : (k == k') with
    | true => rw [hb] at h; simp at h
    | false =>
      rw [hb] at h
      simp only [List.map_cons, List.mem_cons, not_or]
      exact ⟨by simpa using hb, ih h⟩

theorem mapInv_processTrial (app : MainApp σ) (T : Int) (trialId : Nat)
    (s s' : Experiment σ) (hinv : mapInv T s) (h : processTrial app trialId s = some s') :
    mapInv T s' := by
  obtain ⟨i1, i2, i3, i4⟩ := hinv
  unfold processTrial at h
  split at h
  · simp only [Option.some.injEq] at h
    subst h
    exact ⟨i1, i2, i3, i4⟩
  · rename_i hst
    split at h
    · rename_i t hl
      simp only [Option.some.injEq] at h
      subst h
      obtain ⟨cs, fs, n, st, pa, tr, hsh, hkeys⟩ := runTrial_shape app trialId s
      have hnum : (runTrial app trialId s).m_numTrials = s.m_numTrials := by rw [hsh]
      have htr : (runTrial app trialId s).m_trials = tr := by rw [hsh]
      have hlen : tr.length = s.m_trials.length := by
        have := congrArg List.length hkeys
        simpa using this
      refine ⟨hnum.trans i1, by rw [htr, hlen]; exact i2, by rw [htr, hkeys]; exact i3, ?_⟩
      rcases runTrial_cases app trialId s t hl with h0 | ⟨t', k, -, -, -, h1 | ⟨h1, h2⟩⟩
      · rw [h0]; exact i4
      · intro hne; exact absurd h1 hne
      · intro hne hpos
        rw [h2]
        rw [h1] at hne
        rw [htr, hlen] at hpos
        exact i4 hne hpos
    · rename_i hl
      split at h
      · simp at h
      · rename_i e1 hc
        simp only [Option.some.injEq] at h
        subst h
        obtain ⟨cs, fs, n, cl, k, he1⟩ := createTrial_shape app trialId s e1 none hc
        refine ⟨?_, ?_, ?_, fun hne => absurd rfl hne⟩
        · show e1.m_numTrials = T
          rw [he1]; exact i1
        · show (e1.m_trials.length : Int) ≤ T
          rw [he1]; exact i2
        · show (e1.m_trials.map Prod.fst).Nodup
          rw [he1]; exact i3
      · rename_i t e1 hc
        simp only [Option.some.injEq] at h
        subst h
        obtain ⟨-, hp, hsz, -, -⟩ := createTrial_success app trialId s e1 t hc
        obtain ⟨cs, fs, n, cl, k, he1⟩ := createTrial_shape app trialId s e1 (some t) hc
        have e1tr : e1.m_trials = s.m_trials := by rw [he1]
        have e1num : e1.m_numTrials = s.m_numTrials := by rw [he1]
        have e1pa : e1.m_pauseAt = s.m_pauseAt := by rw [he1]
        generalize hE : ({ e1 with m_trials := e1.m_trials ++ [(trialId, t)] } : Experiment σ) = E
        have Etr : E.m_trials = s.m_trials ++ [(trialId, t)] := by rw [← hE, ← e1tr]
        have Enum : E.m_numTrials = s.m_numTrials := by rw [← hE]; exact e1num
        have Epa : E.m_pauseAt = s.m_pauseAt := by rw [← hE]; exact e1pa
        have El : E.m_trials.lookup trialId = some t := by
          rw [Etr]; exact lookup_append_new trialId t s.m_trials hl
        obtain ⟨cs', fs', n', st', pa', tr, hsh, hkeys⟩ := runTrial_shape app trialId E
        have hnum : (runTrial app trialId E).m_numTrials = E.m_numTrials := by rw [hsh]
        have htr : (runTrial app trialId E).m_trials = tr := by rw [hsh]
        have hlen : tr.length = s.m_trials.length + 1 := by
          have := congrArg List.length hkeys
          rw [Etr] at this
          simpa using this
        refine ⟨by rw [hnum, Enum]; exact i1, ?_, ?_, ?_⟩
        · rw [htr, hlen]
          rw [i1] at hsz
          push_cast
          omega
        · rw [htr, hkeys, Etr, List.map_append, List.map_cons, List.map_nil]
          refine List.Nodup.append i3 (List.nodup_singleton _) ?_
          intro a ha hb
          rw [List.mem_singleton] at hb
          subst hb
          exact lookup_none_not_mem a s.m_trials hl ha
        · rcases runTrial_cases app trialId E t El with h0 | ⟨t', k', -, -, -, h1 | ⟨-, h2⟩⟩
          · intro _ _; rw [h0, Epa]; exact hp
          · intro hne; exact absurd h1 hne
          · intro _ _; rw [h2, Epa]; exact hp

theorem mapInv_run (app : MainApp σ) (T : Int) (ids : List Nat) :
    ∀ s s' : Experiment σ, mapInv T s → processTrials app ids s = some s' → mapInv T s' := by
  induction ids with
  | nil =>
    intro s s' hinv h
    have : s = s' := by simpa [processTrials] using h
    subst this
    exact hinv
  | cons a l ih =>
    intro s s' hinv h
    simp only [processTrials] at h
    cases hp : processTrial app a s with
    | none => rw [hp] at h; simp at h
    | some s1 =>
      rw [hp] at h
      exact ih s1 s' (mapInv_processTrial app T a s s1 hinv hp) h

/-- C15: let `s` be the state after any sequence of `processTrial` calls, with
arbitrary trial ids, on an experiment reset with trial count `T ≥ 1`. The trial
map of `s` holds at most `T` trials, each id once. A call for an id that is in
the map constructs nothing and keeps the mapped trial: the ids of the map and
the node-set bookkeeping are unchanged and the model of the trial is the old one
advanced by some number of algorithm steps. A call for a new id when the map
holds `T` trials (the experiment not being Invalid) aborts inside `createTrial`,
so nothing is inserted. -/
theorem C15_trial_map_bounded (app : MainApp σ) (e s : Experiment σ) (ids : List Nat)
    (hst : e.m_expStatus ≠ Status.RUNNING ∧ e.m_expStatus ≠ Status.QUEUED)
    (hT : 1 ≤ e.m_numTrials)
    (hrun : processTrials app ids (reset app e) = some s) :
    (s.m_trials.length : Int) ≤ e.m_numTrials ∧ (s.m_trials.map Prod.fst).Nodup ∧
    (∀ trialId t, s.m_trials.lookup trialId = some t →
      ∃ s' t' k, processTrial app trialId s = some s' ∧
        s'.m_trials.map Prod.fst = s.m_trials.map Prod.fst ∧
        s'.clones = s.clones ∧ s'.m_clonableNodes = s.m_clonableNodes ∧
        s'.m_trials.lookup trialId = some t' ∧
        t'.model = stepsFrom app k t.model ∧ t'.m_currStep = t.m_currStep + (k : Nat)) ∧
    (∀ trialId, s.m_expStatus ≠ Status.INVALID → s.m_trials.lookup trialId = none →
      (s.m_trials.length : Int) = e.m_numTrials →
      createTrial app trialId s = none ∧ processTrial app trialId s = none) := by
  obtain ⟨r1, r2, r3, -⟩ := reset_fresh app e hst
  have hinv0 : mapInv e.m_numTrials (reset app e) := by
    refine ⟨r3, ?_, ?_, ?_⟩
    · rw [r1]; simp only [List.length_nil, Nat.cast_zero]; omega
    · rw [r1]; exact List.nodup_nil
    · intro _ hpos; rw [r1] at hpos; simp at hpos
  obtain ⟨i1, i2, i3, i4⟩ := mapInv_run app e.m_numTrials ids _ s hinv0 hrun
  refine ⟨i2, i3, ?_, ?_⟩
  · intro trialId t hl
    by_cases hs : s.m_expStatus = Status.INVALID
    · refine ⟨s, t, 0, ?_, rfl, rfl, rfl, hl, rfl, by simp⟩
      simp only [processTrial, if_pos hs]
    · obtain ⟨cs, fs, n, st, pa, tr, hsh, hkeys⟩ := runTrial_shape app trialId s
      have hp : processTrial app trialId s = some (runTrial app trialId s) := by
        simp only [processTrial, if_neg hs, hl]
      rcases runTrial_cases app trialId s t hl with h0 | ⟨t', k, h1, h2, h3, -⟩
      · rw [h0] at hp
        exact ⟨s, t, 0, hp, rfl, rfl, rfl, hl, rfl, by simp⟩
      · refine ⟨runTrial app trialId s, t', k, hp, ?_, ?_, ?_, ?_, h2, h3⟩
        · rw [hsh]; exact hkeys
        · rw [hsh]
        · rw [hsh]
        · rw [h1]; exact lookup_storeTrial trialId t' t s.m_trials hl
  · intro trialId hs hl hfull
    have hpos : 0 < s.m_trials.length := by
      have : (0 : Int) < (s.m_trials.length : Int) := by omega
      exact_mod_cast this
    have hpa : s.m_pauseAt ≠ 0 := i4 hs hpos
    have h0 : ¬ (s.m_expStatus = Status.INVALID ∨ s.m_pauseAt = 0) := by
      intro h; rcases h with h | h
      · exact hs h
      · exact hpa h
    have hc : createTrial app trialId s = none := by
      unfold createTrial
      rw [if_neg h0, if_pos (by rw [i1]; exact hfull)]
    refine ⟨hc, ?_⟩
    simp only [processTrial, if_neg hs, hl, hc]

/-- Witness of C15: after the calls for the ids 0, 1 and 2 on `exExperiment`
(three trials) the map holds three trials; a call for trial 1 keeps the map and
a call for the new id 3 aborts. -/
theorem C15_trial_map_bounded_witness :
    (exExperiment.m_expStatus ≠ Status.RUNNING ∧ exExperiment.m_expStatus ≠ Status.QUEUED) ∧
    1 ≤ exExperiment.m_numTrials ∧
    processTrials exApp [0, 1, 2] (reset exApp exExperiment) = some exAllTrials ∧
    exAllTrials.m_trials.length = 3 ∧
    (exAllTrials.m_trials.length : Int) ≤ exExperiment.m_numTrials ∧
    (createTrial exApp 3 exAllTrials = none ∧ processTrial exApp 3 exAllTrials = none) :=
  have h := C15_trial_map_bounded exApp exExperiment exAllTrials [0, 1, 2] (by decide)
    (by decide) rfl
  ⟨by decide, by decide, rfl, rfl, h.1, h.2.2.2 3 (by decide) rfl rfl⟩

/-! ## Progress 360 (C14) -/

theorem updateProgressValue_all_at_pause (e : Experiment σ)
    (hrun : e.m_expStatus = Status.RUNNING) (hT : 1 ≤ e.m_numTrials)
    (hlen : (e.m_trials.length : Int) = e.m_numTrials) (hp : 1 ≤ e.m_pauseAt)
    (hall : ∀ kv ∈ e.m_trials, kv.2.m_currStep = e.m_pauseAt) :
    (updateProgressValue e).m_progress = 360 := by
  have hsum : ∀ l : List (Nat × AbstractModel σ), (∀ kv ∈ l, kv.2.m_currStep = e.m_pauseAt) →
      (l.map (fun t => ((Int.tdiv t.2.m_currStep e.m_pauseAt : Int) : ℚ))).sum
        = ((l.length : Int) : ℚ) := by
    intro l
    induction l with
    | nil => intro _; simp
    | cons a l ih =>
      intro h
      have ha : Int.tdiv a.2.m_currStep e.m_pauseAt = 1 := by
        rw [h a (List.mem_cons_self _ _)]
        exact Int.tdiv_self (by omega)
      rw [List.map_cons, List.sum_cons, ih (fun kv hkv => h kv (List.mem_cons_of_mem _ hkv)), ha,
        List.length_cons]
      push_cast
      ring
  have hTq : (e.m_numTrials : ℚ) ≠ 0 := by
    have : (0 : ℤ) < e.m_numTrials := by omega
    exact_mod_cast this.ne'
  have hceil : ⌈((e.m_numTrials : ℚ) * 360 / (e.m_numTrials : ℚ))⌉ = 360 := by
    rw [mul_comm, mul_div_assoc, div_self hTq, mul_one]
    exact_mod_cast Int.ceil_intCast (360 : ℤ)
  have h1 : e.m_expStatus ≠ Status.FINISHED := by rw [hrun]; decide
  have h2 : e.m_expStatus ≠ Status.INVALID := by rw [hrun]; decide
  simp only [updateProgressValue, if_neg h1, if_neg h2, if_pos hrun, hsum e.m_trials hall, hlen,
    hceil]
  rfl

theorem reachable_run (app : MainApp σ) (e0 : Experiment σ) (ids : List Nat) :
    ∀ s s' : Experiment σ, Reachable app e0 s → processTrials app ids s = some s' →
      Reachable app e0 s' := by
  induction ids with
  | nil =>
    intro s s' hr h
    have : s = s' := by simpa [processTrials] using h
    subst this
    exact hr
  | cons a l ih =>
    intro s s' hr h
    simp only [processTrials] at h
    cases hp : processTrial app a s with
    | none => rw [hp] at h; simp at h
    | some s1 =>
      rw [hp] at h
      exact ih s1 s' (Reachable.call s s1 a hr hp) h

/-- C14 (counterexample): `exAtPause` is reached from the reset `exExperiment`
by the dispatcher setting it Running, the pause horizon set to 5 (stop horizon
10) and `processTrial` calls for its three trials; its status is Running, not
Finished, and `updateProgressValue` leaves progress 360. -/
theorem C14_counterexample_running_at_360 :
    Reachable exApp exExperiment exAtPause ∧
    exAtPause.m_expStatus = Status.RUNNING ∧ exAtPause.m_expStatus ≠ Status.FINISHED ∧
    exAtPause.m_pauseAt = 5 ∧ exAtPause.m_stopAt = 10 ∧
    exAtPause.m_trials.map (fun kv => (kv.1, kv.2.m_currStep, kv.2.m_status))
      = [(0, 5, Status.READY), (1, 5, Status.READY), (2, 5, Status.READY)] ∧
    (updateProgressValue exAtPause).m_progress = 360 := by
  refine ⟨?_, rfl, ?_, rfl, rfl, rfl, ?_⟩
  · have hr : Reachable exApp exExperiment
        { setExpStatus Status.RUNNING (reset exApp exExperiment) with m_pauseAt := 5 } :=
      Reachable.horizon (setExpStatus Status.RUNNING (reset exApp exExperiment)) 5
        (Reachable.status (reset exApp exExperiment) Status.RUNNING Reachable.start)
        (by decide) (by decide)
    exact reachable_run exApp exExperiment [0, 1, 2]
      { setExpStatus Status.RUNNING (reset exApp exExperiment) with m_pauseAt := 5 }
      exAtPause hr rfl
  · rw [show exAtPause.m_expStatus = Status.RUNNING from rfl]; decide
  · have h1 : exAtPause.m_numTrials = 3 := rfl
    have h2 : exAtPause.m_pauseAt = 5 := rfl
    have h3 : exAtPause.m_trials
        = [(0, ⟨5, Status.READY, 12⟩), (1, ⟨5, Status.READY, 13⟩), (2, ⟨5, Status.READY, 14⟩)] :=
      rfl
    refine updateProgressValue_all_at_pause exAtPause rfl ?_ ?_ ?_ ?_
    · rw [h1]; decide
    · rw [h1, h3]; rfl
    · rw [h2]; decide
    · intro kv hkv
      rw [h2]
      rw [h3] at hkv
      simp only [List.mem_cons, List.mem_singleton, List.not_mem_nil, or_false] at hkv
      rcases hkv with rfl | rfl | rfl <;> rfl

/-- C14 (amended): if `updateProgressValue` changes progress to 360, the status
of the experiment is Finished or Running. A Finished experiment gets progress
360, and so does a Running experiment of `T ≥ 1` trials as soon as each of the
`T` trials stands at the pause horizon (at least 1), also when that horizon is
below the stop horizon: progress 360 is not reserved to Finished. This holds in
every state, reachable or not. -/
theorem C14_progress_360 (e : Experiment σ) :
    ((updateProgressValue e).m_progress = 360 → e.m_progress ≠ 360 →
      e.m_expStatus = Status.FINISHED ∨ e.m_expStatus = Status.RUNNING) ∧
    (e.m_expStatus = Status.FINISHED → (updateProgressValue e).m_progress = 360) ∧
    (e.m_expStatus = Status.RUNNING → 1 ≤ e.m_numTrials →
      (e.m_trials.length : Int) = e.m_numTrials → 1 ≤ e.m_pauseAt →
      (∀ kv ∈ e.m_trials, kv.2.m_currStep = e.m_pauseAt) →
      (updateProgressValue e).m_progress = 360) := by
  refine ⟨?_, ?_, updateProgressValue_all_at_pause e⟩
  · intro h hne
    by_cases h1 : e.m_expStatus = Status.FINISHED
    · exact Or.inl h1
    · by_cases h3 : e.m_expStatus = Status.RUNNING
      · exact Or.inr h3
      · exfalso
        by_cases h2 : e.m_expStatus = Status.INVALID
        · simp [updateProgressValue, h1, h2] at h
        · simp only [updateProgressValue, if_neg h1, if_neg h2, if_neg h3] at h
          exact hne h
  · intro h
    simp only [updateProgressValue, if_pos h]

/-- Witness of C14 (amended): the Running experiment `exAtPause`, whose three
trials stand at the pause horizon 5 below the stop horizon 10. -/
theorem C14_progress_360_witness :
    exAtPause.m_expStatus = Status.RUNNING ∧ exAtPause.m_numTrials = 3 ∧
    exAtPause.m_pauseAt = 5 ∧ exAtPause.m_stopAt = 10 ∧
    exAtPause.m_trials
      = [(0, ⟨5, Status.READY, 12⟩), (1, ⟨5, Status.READY, 13⟩), (2, ⟨5, Status.READY, 14⟩)] ∧
    (updateProgressValue exAtPause).m_progress = 360 := by
  have h1 : exAtPause.m_numTrials = 3 := rfl
  have h2 : exAtPause.m_pauseAt = 5 := rfl
  have h3 : exAtPause.m_trials
      = [(0, ⟨5, Status.READY, 12⟩), (1, ⟨5, Status.READY, 13⟩), (2, ⟨5, Status.READY, 14⟩)] :=
    rfl
  refine ⟨rfl, h1, h2, rfl, h3, (C14_progress_360 exAtPause).2.2 rfl ?_ ?_ ?_ ?_⟩
  · rw [h1]; decide
  · rw [h1, h3]; rfl
  · rw [h2]; decide
  · intro kv hkv
    rw [h2]
    rw [h3] at hkv
    simp only [List.mem_cons, List.mem_singleton, List.not_mem_nil, or_false] at hkv
    rcases hkv with rfl | rfl | rfl <;> rfl

/-! ## Convergence before the pause horizon (C17) -/

theorem stepLoop_pass (app : MainApp σ) (trialId : Nat) (fuel : Nat)
    (trial : AbstractModel σ) (e : Experiment σ) (hlt : trial.m_currStep < e.m_pauseAt)
    (hok : ¬ flushFails app trialId
      ⟨trial.m_currStep + 1, trial.m_status, (app.algorithmStep trial.model).1⟩ e) :
    stepLoop app trialId (fuel + 1) trial false e =
      stepLoop app trialId fuel
        ⟨trial.m_currStep + 1, trial.m_status, (app.algorithmStep trial.model).1⟩
        (app.algorithmStep trial.model).2
        (passState app trialId
          ⟨trial.m_currStep + 1, trial.m_status, (app.algorithmStep trial.model).1⟩ e) := by
  unfold flushFails at hok
  simp only [stepLoop, hlt, true_and, if_true, passState]
  split
  · rename_i hc
    have hw : ¬ (writeCachedSteps app trialId (doOperations trialId
        ⟨trial.m_currStep + 1, trial.m_status, (app.algorithmStep trial.model).1⟩ e)).1
          = false := fun h => hok ⟨hc, h⟩
    rw [if_neg hw]
  · rfl

theorem stepLoop_fail (app : MainApp σ) (trialId : Nat) (fuel : Nat)
    (trial : AbstractModel σ) (e : Experiment σ) (hlt : trial.m_currStep < e.m_pauseAt)
    (hff : flushFails app trialId
      ⟨trial.m_currStep + 1, trial.m_status, (app.algorithmStep trial.model).1⟩ e) :
    stepLoop app trialId (fuel + 1) trial false e =
      (⟨trial.m_currStep + 1, Status.INVALID, (app.algorithmStep trial.model).1⟩,
        (app.algorithmStep trial.model).2,
        pause (setExpStatus Status.INVALID (writeCachedSteps app trialId (doOperations trialId
          ⟨trial.m_currStep + 1, trial.m_status, (app.algorithmStep trial.model).1⟩ e)).2),
        true) := by
  unfold flushFails at hff
  simp only [stepLoop, hlt, true_and, if_true]
  rw [if_pos hff.1, if_pos hff.2]

theorem stepLoop_converged (app : MainApp σ) (trialId : Nat) (fuel : Nat)
    (trial : AbstractModel σ) (e : Experiment σ) :
    stepLoop app trialId fuel trial true e = (trial, true, e, false) := by
  cases fuel with
  | zero => rfl
  | succ n => simp [stepLoop]

theorem passState_pauseAt (app : MainApp σ) (trialId : Nat) (t : AbstractModel σ)
    (e : Experiment σ) : (passState app trialId t e).m_pauseAt = e.m_pauseAt := by
  obtain ⟨cs1, h1⟩ := doOperations_shape trialId t e
  obtain ⟨cs2, fs2, n2, h2⟩ := writeCachedSteps_shape app trialId (doOperations trialId t e)
  unfold passState
  split
  · rw [h2, h1]
  · rw [h1]

theorem stepLoop_converges (app : MainApp σ) (trialId : Nat) (j : Nat) :
    ∀ (trial : AbstractModel σ) (e : Experiment σ) (fuel : Nat),
      (∀ i, i < j → (app.algorithmStep (stepsFrom app i trial.model)).2 = false) →
      (app.algorithmStep (stepsFrom app j trial.model)).2 = true →
      trial.m_currStep + (j : Int) + 1 ≤ e.m_pauseAt →
      (stepLoop app trialId j trial false e).2.2.2 = false →
      (stepLoop app trialId (j + 1 + fuel) trial false e).1.m_currStep
        = trial.m_currStep + (j : Int) + 1 ∧
      (stepLoop app trialId (j + 1 + fuel) trial false e).1.model
        = stepsFrom app (j + 1) trial.model ∧
      (stepLoop app trialId (j + 1 + fuel) trial false e).2.1 = true := by
  induction j with
  | zero =>
    intro trial e fuel _ hconv hle _
    have hlt : trial.m_currStep < e.m_pauseAt := by push_cast at hle; omega
    have hc : (app.algorithmStep trial.model).2 = true := hconv
    have hfuel : 0 + 1 + fuel = fuel + 1 := by omega
    rw [hfuel]
    by_cases hff : flushFails app trialId
        ⟨trial.m_currStep + 1, trial.m_status, (app.algorithmStep trial.model).1⟩ e
    · rw [stepLoop_fail app trialId fuel trial e hlt hff]
      exact ⟨by simp, rfl, hc⟩
    · rw [stepLoop_pass app trialId fuel trial e hlt hff, hc, stepLoop_converged]
      exact ⟨by simp, rfl, rfl⟩
  | succ j ih =>
    intro trial e fuel hfirst hconv hle hreach
    have hlt : trial.m_currStep < e.m_pauseAt := by push_cast at hle; omega
    have hc : (app.algorithmStep trial.model).2 = false := hfirst 0 (Nat.succ_pos j)
    have hfuel : j + 1 + 1 + fuel = (j + 1 + fuel) + 1 := by omega
    rw [hfuel]
    by_cases hff : flushFails app trialId
        ⟨trial.m_currStep + 1, trial.m_status, (app.algorithmStep trial.model).1⟩ e
    · rw [stepLoop_fail app trialId j trial e hlt hff] at hreach
      exact absurd hreach (by simp)
    · rw [stepLoop_pass app trialId j trial e hlt hff, hc] at hreach
      rw [stepLoop_pass app trialId (j + 1 + fuel) trial e hlt hff, hc]
      obtain ⟨a1, a2, a3⟩ := ih
        ⟨trial.m_currStep + 1, trial.m_status, (app.algorithmStep trial.model).1⟩
        (passState app trialId
          ⟨trial.m_currStep + 1, trial.m_status, (app.algorithmStep trial.model).1⟩ e)
        fuel
        (fun i hi => hfirst (i + 1) (Nat.succ_lt_succ hi))
        hconv
        (by rw [passState_pauseAt]; show trial.m_currStep + 1 + (j : Int) + 1 ≤ e.m_pauseAt
            push_cast at hle; omega)
        hreach
      refine ⟨?_, ?_, a3⟩
      · rw [a1]; show trial.m_currStep + 1 + (j : Int) + 1 = _; push_cast; omega
      · rw [a2]; rfl

/-- C17: let a Ready trial of a non-Invalid experiment have a model that first
signals convergence on the `k`-th algorithm step of the call, `k = j + 1`, with
`currStep + k ≤ pauseAt`, the call reaching that step (no cadence flush fails
during the first `j` passes). Then `processTrial` makes exactly `k` steps and
leaves `currStep` increased by `k`. When the final flush succeeds the trial is
Finished, whatever the stop horizon; when the final flush fails the trial and
the experiment are Invalid; they are Invalid too when the cadence flush of the
`k`-th pass itself fails. -/
theorem C17_convergence_finishes (app : MainApp σ) (trialId : Nat) (e : Experiment σ)
    (trial : AbstractModel σ) (j : Nat)
    (hst : e.m_expStatus ≠ Status.INVALID)
    (hl : e.m_trials.lookup trialId = some trial)
    (hready : trial.m_status = Status.READY)
    (hfirst : ∀ i, i < j → (app.algorithmStep (stepsFrom app i trial.model)).2 = false)
    (hconv : (app.algorithmStep (stepsFrom app j trial.model)).2 = true)
    (hle : trial.m_currStep + (j : Int) + 1 ≤ e.m_pauseAt)
    (hreach : (firstPasses app trialId trial e j).2.2.2 = false) :
    ∃ final t', processTrial app trialId e = some final ∧
      final.m_trials.lookup trialId = some t' ∧
      t'.m_currStep = trial.m_currStep + (j : Int) + 1 ∧
      t'.model = stepsFrom app (j + 1) trial.model ∧
      ((loopOf app trialId trial e).2.2.2 = false →
        (finalFlush app trialId trial e).1 = true →
        t'.m_status = Status.FINISHED ∧ final.m_expStatus = e.m_expStatus) ∧
      ((loopOf app trialId trial e).2.2.2 = false →
        (finalFlush app trialId trial e).1 = false →
        t'.m_status = Status.INVALID ∧ final.m_expStatus = Status.INVALID) ∧
      ((loopOf app trialId trial e).2.2.2 = true →
        t'.m_status = Status.INVALID ∧ final.m_expStatus = Status.INVALID) := by
  obtain ⟨f, hf⟩ : ∃ f, (e.m_pauseAt - trial.m_currStep).toNat = j + 1 + f := by
    refine ⟨(e.m_pauseAt - trial.m_currStep).toNat - (j + 1), ?_⟩
    have : (j : Int) + 1 ≤ e.m_pauseAt - trial.m_currStep := by omega
    omega
  have hL : loopOf app trialId trial e
      = stepLoop app trialId (j + 1 + f) ⟨trial.m_currStep, Status.RUNNING, trial.model⟩
          false e := by
    unfold loopOf; rw [hf]
  obtain ⟨c1, c2, c3⟩ := stepLoop_converges app trialId j
    ⟨trial.m_currStep, Status.RUNNING, trial.model⟩ e f hfirst hconv hle hreach
  obtain ⟨k', -, -, g3, g4⟩ := stepLoop_general app trialId (j + 1 + f)
    ⟨trial.m_currStep, Status.RUNNING, trial.model⟩ false e
  obtain ⟨cs, fs, n, st, pa, hsh⟩ := stepLoop_shape app trialId (j + 1 + f)
    ⟨trial.m_currStep, Status.RUNNING, trial.model⟩ false e
  rw [← hL] at c1 c2 c3 g3 g4 hsh
  have htr : (loopOf app trialId trial e).2.2.1.m_trials = e.m_trials := by rw [hsh]
  obtain ⟨cs2, fs2, n2, hsh2⟩ := writeCachedSteps_shape app trialId
    (loopOf app trialId trial e).2.2.1
  have wtr : (finalFlush app trialId trial e).2.m_trials = e.m_trials := by
    unfold finalFlush; rw [hsh2]; exact htr
  have wst : (finalFlush app trialId trial e).2.m_expStatus
      = (loopOf app trialId trial e).2.2.1.m_expStatus := by
    unfold finalFlush; rw [hsh2]
  have hp : processTrial app trialId e = some (runTrial app trialId e) := by
    simp only [processTrial, if_neg hst, hl]
  have hrun : runTrial app trialId e =
      if (loopOf app trialId trial e).2.2.2 then
        storeTrial trialId (loopOf app trialId trial e).1 (loopOf app trialId trial e).2.2.1
      else if (finalFlush app trialId trial e).1 then
        storeTrial trialId { (loopOf app trialId trial e).1 with m_status := Status.FINISHED }
          (finalFlush app trialId trial e).2
      else
        pause (setExpStatus Status.INVALID
          (storeTrial trialId { (loopOf app trialId trial e).1 with m_status := Status.INVALID }
            (finalFlush app trialId trial e).2)) := by
    simp only [runTrial, hl, hready, ne_eq, not_true_eq_false, if_false]
    have hcond : (loopOf app trialId trial e).1.m_currStep
        ≥ (loopOf app trialId trial e).2.2.1.m_stopAt ∨
        (loopOf app trialId trial e).2.1 = true := Or.inr c3
    simp only [loopOf, finalFlush] at hcond ⊢
    rw [if_pos hcond]
  cases hfail : (loopOf app trialId trial e).2.2.2 with
  | true =>
    obtain ⟨b1, b2⟩ := g4 hfail
    refine ⟨runTrial app trialId e, (loopOf app trialId trial e).1, hp, ?_, c1, c2,
      fun h => Bool.noConfusion h, fun h => Bool.noConfusion h, fun _ => ⟨b2, ?_⟩⟩
    · rw [hrun, hfail]
      simp only [if_true, storeTrial, htr]
      exact lookup_storeTrial trialId _ trial e.m_trials hl
    · rw [hrun, hfail]
      exact b1
  | false =>
    obtain ⟨b1, -, -⟩ := g3 hfail
    cases hw : (finalFlush app trialId trial e).1 with
    | true =>
      refine ⟨runTrial app trialId e,
        { (loopOf app trialId trial e).1 with m_status := Status.FINISHED }, hp, ?_, c1, c2,
        fun _ _ => ⟨rfl, ?_⟩, fun _ h => Bool.noConfusion h, fun h => Bool.noConfusion h⟩
      · rw [hrun, hfail, hw]
        simp only [Bool.false_eq_true, if_false, if_true, storeTrial, wtr]
        exact lookup_storeTrial trialId _ trial e.m_trials hl
      · rw [hrun, hfail, hw]
        simp only [Bool.false_eq_true, if_false, if_true, storeTrial]
        exact wst.trans b1
    | false =>
      refine ⟨runTrial app trialId e,
        { (loopOf app trialId trial e).1 with m_status := Status.INVALID }, hp, ?_, c1, c2,
        fun _ h => Bool.noConfusion h, fun _ _ => ⟨rfl, ?_⟩, fun h => Bool.noConfusion h⟩
      · rw [hrun, hfail, hw]
        simp only [Bool.false_eq_true, if_false, storeTrial, pause, setExpStatus, wtr]
        exact lookup_storeTrial trialId _ trial e.m_trials hl
      · rw [hrun, hfail, hw]
        rfl

/-- Witness of C17: trial 0 of `exCreated` is Ready at step 0 with pause horizon
5 and stop horizon 10; the model of `exAppConv` converges on the second step.
The trial is left at step 2, Finished when the final flush succeeds and Invalid,
with the experiment, when it fails (`exAppConvNoOpen`). -/
theorem C17_convergence_finishes_witness :
    exCreated.m_expStatus ≠ Status.INVALID ∧
    exCreated.m_trials.lookup 0 = some ⟨0, Status.READY, 7⟩ ∧
    exCreated.m_pauseAt = 5 ∧ exCreated.m_stopAt = 10 ∧
    (exAppConv.algorithmStep 7).2 = false ∧ (exAppConv.algorithmStep 8).2 = true ∧
    (firstPasses exAppConv 0 ⟨0, Status.READY, 7⟩ exCreated 1).2.2.2 = false ∧
    (∃ final t', processTrial exAppConv 0 exCreated = some final ∧
      final.m_trials.lookup 0 = some t' ∧ t'.m_currStep = 2 ∧
      t'.m_status = Status.FINISHED ∧ final.m_expStatus = exCreated.m_expStatus) ∧
    (∃ final t', processTrial exAppConvNoOpen 0 exCreated = some final ∧
      final.m_trials.lookup 0 = some t' ∧ t'.m_currStep = 2 ∧
      t'.m_status = Status.INVALID ∧ final.m_expStatus = Status.INVALID) :=
  ⟨by decide, rfl, rfl, rfl, rfl, rfl, rfl,
    (C17_convergence_finishes exAppConv 0 exCreated ⟨0, Status.READY, 7⟩ 1 (by decide) rfl rfl
      (fun i hi => by
        have : i = 0 := by omega
        subst this
        rfl) rfl (by decide) rfl).imp
      (fun _ h => h.imp (fun _ h' =>
        ⟨h'.1, h'.2.1, h'.2.2.1, (h'.2.2.2.2.1 rfl rfl).1, (h'.2.2.2.2.1 rfl rfl).2⟩)),
    (C17_convergence_finishes exAppConvNoOpen 0 exCreated ⟨0, Status.READY, 7⟩ 1 (by decide)
      rfl rfl
      (fun i hi => by
        have : i = 0 := by omega
        subst this
        rfl) rfl (by decide) rfl).imp
      (fun _ h => h.imp (fun _ h' =>
        ⟨h'.1, h'.2.1, h'.2.2.1, (h'.2.2.2.2.2.1 rfl rfl).1, (h'.2.2.2.2.2.1 rfl rfl).2⟩))⟩

/-! ## Rows buffered between flushes (C19) -/

theorem emod_succ (a F : Int) (hF : 1 ≤ F) (h : (a + 1) % F ≠ 0) :
    (a + 1) % F = a % F + 1 := by
  have h1 := Int.emod_nonneg a (by omega : F ≠ 0)
  have h2 := Int.emod_lt_of_pos a (by omega : 0 < F)
  have h3 := Int.emod_add_ediv a F
  have key : a + 1 = (a % F + 1) + F * (a / F) := by omega
  rw [key, Int.add_mul_emod_self_left] at h ⊢
  by_cases h4 : a % F + 1 < F
  · exact Int.emod_eq_of_lt (by omega) h4
  · have : a % F + 1 = F := by omega
    rw [this, Int.emod_self] at h
    exact absurd rfl h

theorem passState_count (app : MainApp σ) (hopen : ∀ n, app.openOk n = true)
    (hF : 1 ≤ app.stepsToFlush) (trialId : Nat) (T : AbstractModel σ) (e : Experiment σ)
    (hw : wired e) (hcs : 0 < e.m_inputs.fileCaches.length) (hT : 1 ≤ T.m_currStep)
    (hlen : ∀ c ∈ e.m_inputs.fileCaches,
      ((c.rows trialId).length : Int) = (T.m_currStep - 1) % app.stepsToFlush) :
    ∀ c ∈ (passState app trialId T e).m_inputs.fileCaches,
      ((c.rows trialId).length : Int) = T.m_currStep % app.stepsToFlush := by
  have hn0 := Int.emod_nonneg (T.m_currStep - 1) (by omega : app.stepsToFlush ≠ 0)
  have hlenN : ∀ c ∈ e.m_inputs.fileCaches,
      (c.rows trialId).length = ((T.m_currStep - 1) % app.stepsToFlush).toNat := by
    intro c hc
    have := hlen c hc
    omega
  have hd := doOperations_wired trialId T e hw
  have hdlen : ∀ c ∈ (doOperations trialId T e).m_inputs.fileCaches,
      (c.rows trialId).length = ((T.m_currStep - 1) % app.stepsToFlush).toNat + 1 := by
    intro c hc
    rw [hd] at hc
    obtain ⟨c0, hc0, rfl⟩ := List.mem_map.mp hc
    simp only [Cache.push, if_true, List.length_append, List.length_singleton, hlenN c0 hc0]
  have hdcs : 0 < (doOperations trialId T e).m_inputs.fileCaches.length := by
    rw [hd, List.length_map]; exact hcs
  have htm : Int.tmod T.m_currStep app.stepsToFlush = T.m_currStep % app.stepsToFlush :=
    Int.tmod_eq_emod (by omega) (by omega)
  unfold passState
  split
  · rename_i hc
    obtain ⟨hwc, -⟩ := writeCachedSteps_uniform app hopen trialId
      (doOperations trialId T e) _ hdcs hdlen
    intro c hcm
    rw [hwc] at hcm
    obtain ⟨c0, hc0, rfl⟩ := List.mem_map.mp hcm
    simp only [Cache.dropRows, if_true, List.length_drop, hdlen c0 hc0, Nat.sub_self]
    rw [← htm, hc.2]
    rfl
  · rename_i hc
    have hne : T.m_currStep % app.stepsToFlush ≠ 0 := by
      intro h0
      apply hc
      exact ⟨by omega, by rw [htm]; exact h0⟩
    have hs := emod_succ (T.m_currStep - 1) app.stepsToFlush hF
      (by rw [Int.sub_add_cancel]; exact hne)
    rw [Int.sub_add_cancel] at hs
    intro c hcm
    rw [hdlen c hcm, hs]
    push_cast
    rw [Int.toNat_of_nonneg hn0]

theorem stepLoop_count (app : MainApp σ) (hopen : ∀ n, app.openOk n = true)
    (hF : 1 ≤ app.stepsToFlush) (trialId : Nat) (n : Nat) :
    ∀ (trial : AbstractModel σ) (conv : Bool) (e : Experiment σ),
      wired e → 0 < e.m_inputs.fileCaches.length → 0 ≤ trial.m_currStep →
      (∀ c ∈ e.m_inputs.fileCaches,
        ((c.rows trialId).length : Int) = trial.m_currStep % app.stepsToFlush) →
      (stepLoop app trialId n trial conv e).2.2.2 = false ∧
      wired (stepLoop app trialId n trial conv e).2.2.1 ∧
      0 < (stepLoop app trialId n trial conv e).2.2.1.m_inputs.fileCaches.length ∧
      0 ≤ (stepLoop app trialId n trial conv e).1.m_currStep ∧
      ∀ c ∈ (stepLoop app trialId n trial conv e).2.2.1.m_inputs.fileCaches,
        ((c.rows trialId).length : Int)
          = (stepLoop app trialId n trial conv e).1.m_currStep % app.stepsToFlush := by
  induction n with
  | zero =>
    intro trial conv e hw hcs h0 hlen
    exact ⟨rfl, hw, hcs, h0, hlen⟩
  | succ n ih =>
    intro trial conv e hw hcs h0 hlen
    by_cases hcond : trial.m_currStep < e.m_pauseAt ∧ conv = false
    · obtain ⟨hlt, hcf⟩ := hcond
      subst hcf
      have hok : ¬ flushFails app trialId
          ⟨trial.m_currStep + 1, trial.m_status, (app.algorithmStep trial.model).1⟩ e := by
        intro hff
        have := writeCachedSteps_opens_ok app hopen trialId (doOperations trialId
          ⟨trial.m_currStep + 1, trial.m_status, (app.algorithmStep trial.model).1⟩ e)
        rw [hff.2] at this
        exact Bool.noConfusion this
      rw [stepLoop_pass app trialId n trial e hlt hok]
      have hn0 := Int.emod_nonneg trial.m_currStep (by omega : app.stepsToFlush ≠ 0)
      have hlenN : ∀ c ∈ e.m_inputs.fileCaches,
          (c.rows trialId).length = (trial.m_currStep % app.stepsToFlush).toNat := by
        intro c hc
        have := hlen c hc
        omega
      obtain ⟨n1, -, p2, p3, -⟩ := passState_spec app hopen trialId
        ⟨trial.m_currStep + 1, trial.m_status, (app.algorithmStep trial.model).1⟩ e _ hw hcs hlenN
      have hcount := passState_count app hopen hF trialId
        ⟨trial.m_currStep + 1, trial.m_status, (app.algorithmStep trial.model).1⟩ e hw hcs
        (by show (1 : Int) ≤ trial.m_currStep + 1; omega)
        (by
          intro c hc
          show ((c.rows trialId).length : Int) = (trial.m_currStep + 1 - 1) % app.stepsToFlush
          rw [Int.add_sub_cancel]
          exact hlen c hc)
      exact ih _ _ _ (wired_sameSinks e _ p3 p2 hw)
        (by rw [sameSinks_length _ _ p2]; exact hcs)
        (by show (0 : Int) ≤ trial.m_currStep + 1; omega) hcount
    · have hst : stepLoop app trialId (n + 1) trial conv e = (trial, conv, e, false) := by
        simp only [stepLoop, if_neg hcond]
      rw [hst]
      exact ⟨rfl, hw, hcs, h0, hlen⟩

theorem createTrial_inv (app : MainApp σ) (trialId : Nat) (e e1 : Experiment σ)
    (trial : AbstractModel σ) (h : createTrial app trialId e = some (some trial, e1)) :
    ∃ (m0 : AbstractModel σ) (seed : Int) (nodes : Nodes),
      app.modelPlugin seed nodes = some m0 ∧
      trial = { m0 with m_status := Status.READY } ∧
      e1 = (writeInitialStep app trialId m0 (createNodes e.m_inputs.graphType e).2).2 := by
  unfold createTrial at h
  split at h
  · simp at h
  · split at h
    · simp at h
    · simp only at h
      split at h
      · simp at h
      · split at h
        · simp at h
        · split at h
          · simp at h
          · rename_i modelObj hm
            split at h
            · simp only [Option.some.injEq, Prod.mk.injEq] at h
              exact ⟨modelObj, _, _, hm, h.1.symm, h.2.symm⟩
            · simp at h

/-! ## What a call leaves untouched in the caches -/

theorem doOperations_proj {β : Type} (g : Cache σ → β) (trialId : Nat)
    (hpush : ∀ (c : Cache σ) (v : Values), g (c.push trialId v) = g c)
    (trial : AbstractModel σ) (e : Experiment σ) :
    (doOperations trialId trial e).m_inputs.fileCaches.map g = e.m_inputs.fileCaches.map g := by
  simp only [doOperations]
  generalize e.m_inputs.fileCaches = cs
  generalize e.m_outputs = outs
  induction outs generalizing cs with
  | nil => rfl
  | cons o outs ih =>
    rw [List.foldl_cons, ih]
    simp only [Output.doOperation, List.map_map]
    apply List.map_congr_left
    intro c _
    simp only [Function.comp_apply]
    split
    · exact hpush c _
    · rfl

theorem writeRow_proj {β : Type} (g : Cache σ → β) (trialId : Nat)
    (hflush : ∀ c : Cache σ, g (c.flushFrontRow trialId) = g c) (e : Experiment σ) :
    (writeRow trialId e).m_inputs.fileCaches.map g = e.m_inputs.fileCaches.map g := by
  simp only [writeRow, List.map_map]
  apply List.map_congr_left
  intro c _
  exact hflush c

theorem writeRows_proj {β : Type} (g : Cache σ → β) (trialId : Nat)
    (hflush : ∀ c : Cache σ, g (c.flushFrontRow trialId) = g c) (fuel : Nat) :
    ∀ e : Experiment σ,
      (writeRows trialId fuel e).m_inputs.fileCaches.map g = e.m_inputs.fileCaches.map g := by
  induction fuel with
  | zero => intro e; rfl
  | succ n ih =>
    intro e
    simp only [writeRows]
    split
    · exact writeRow_proj g trialId hflush e
    · split
      · exact writeRow_proj g trialId hflush e
      · rw [ih]; exact writeRow_proj g trialId hflush e

theorem writeCachedSteps_proj {β : Type} (g : Cache σ → β) (app : MainApp σ) (trialId : Nat)
    (hflush : ∀ c : Cache σ, g (c.flushFrontRow trialId) = g c) (e : Experiment σ) :
    (writeCachedSteps app trialId e).2.m_inputs.fileCaches.map g
      = e.m_inputs.fileCaches.map g := by
  unfold writeCachedSteps
  split
  · rfl
  · split
    · rfl
    · split
      · exact writeRows_proj g trialId hflush _ _
      · rfl

theorem stepLoop_proj {β : Type} (g : Cache σ → β) (app : MainApp σ) (trialId : Nat)
    (hpush : ∀ (c : Cache σ) (v : Values), g (c.push trialId v) = g c)
    (hflush : ∀ c : Cache σ, g (c.flushFrontRow trialId) = g c) (fuel : Nat) :
    ∀ (trial : AbstractModel σ) (conv : Bool) (e : Experiment σ),
      (stepLoop app trialId fuel trial conv e).2.2.1.m_inputs.fileCaches.map g
        = e.m_inputs.fileCaches.map g := by
  induction fuel with
  | zero => intro trial conv e; rfl
  | succ n ih =>
    intro trial conv e
    simp only [stepLoop]
    split
    · split
      · split
        · simp only [pause, setExpStatus]
          rw [writeCachedSteps_proj g app trialId hflush, doOperations_proj g trialId hpush]
        · rw [ih, writeCachedSteps_proj g app trialId hflush, doOperations_proj g trialId hpush]
      · rw [ih, doOperations_proj g trialId hpush]
    · rfl

theorem runTrial_proj {β : Type} (g : Cache σ → β) (app : MainApp σ) (trialId : Nat)
    (hpush : ∀ (c : Cache σ) (v : Values), g (c.push trialId v) = g c)
    (hflush : ∀ c : Cache σ, g (c.flushFrontRow trialId) = g c) (e : Experiment σ) :
    (runTrial app trialId e).m_inputs.fileCaches.map g = e.m_inputs.fileCaches.map g := by
  simp only [runTrial]
  split
  · rfl
  · split
    · rfl
    · split
      · simp only [storeTrial]
        exact stepLoop_proj g app trialId hpush hflush _ _ _ _
      · split
        · split
          · simp only [storeTrial]
            rw [writeCachedSteps_proj g app trialId hflush]
            exact stepLoop_proj g app trialId hpush hflush _ _ _ _
          · simp only [storeTrial, pause, setExpStatus]
            rw [writeCachedSteps_proj g app trialId hflush]
            exact stepLoop_proj g app trialId hpush hflush _ _ _ _
        · simp only [storeTrial]
          exact stepLoop_proj g app trialId hpush hflush _ _ _ _

theorem writeInitialStep_proj {β : Type} (g : Cache σ → β) (app : MainApp σ) (trialId : Nat)
    (hpush : ∀ (c : Cache σ) (v : Values), g (c.push trialId v) = g c)
    (hflush : ∀ c : Cache σ, g (c.flushFrontRow trialId) = g c)
    (modelObj : AbstractModel σ) (e : Experiment σ) :
    (writeInitialStep app trialId modelObj e).2.m_inputs.fileCaches.map g
      = e.m_inputs.fileCaches.map g := by
  simp only [writeInitialStep]
  split
  · split
    · rw [writeCachedSteps_proj g app trialId hflush, doOperations_proj g trialId hpush]
    · rfl
  · rfl

theorem rows_push_ne (j trialId : Nat) (h : j ≠ trialId) (c : Cache σ) (v : Values) :
    (c.push trialId v).rows j = c.rows j := by
  simp only [Cache.push, if_neg h]

theorem rows_flush_ne (j trialId : Nat) (h : j ≠ trialId) (c : Cache σ) :
    (c.flushFrontRow trialId).rows j = c.rows j := by
  simp only [Cache.flushFrontRow, if_neg h]

/-! ## Rows buffered from one call to the next -/

theorem lookup_storeTrial_ne (j trialId : Nat) (h : j ≠ trialId) (t : AbstractModel σ)
    (l : List (Nat × AbstractModel σ)) :
    (l.map (fun kv => if kv.1 = trialId then (kv.1, t) else kv)).lookup j = l.lookup j := by
  induction l with
  | nil => rfl
  | cons a l ih =>
    obtain ⟨k, v⟩ := a
    rw [List.map_cons]
    by_cases hk : k = trialId
    · have hb : (j == k) = false := by
        simp only [beq_eq_false_iff_ne, ne_eq]
        rw [hk]; exact h
      rw [if_pos hk, List.lookup_cons, List.lookup_cons, hb]
      exact ih
    · rw [if_neg hk, List.lookup_cons, List.lookup_cons, ih]

theorem lookup_append_ne (j trialId : Nat) (h : j ≠ trialId) (t : AbstractModel σ)
    (l : List (Nat × AbstractModel σ)) :
    (l ++ [(trialId, t)]).lookup j = l.lookup j := by
  induction l with
  | nil =>
    have hb : (j == trialId) = false := by
      simp only [beq_eq_false_iff_ne, ne_eq]; exact h
    simp only [List.nil_append, List.lookup_cons, hb, List.lookup_nil]
  | cons a l ih =>
    obtain ⟨k, v⟩ := a
    rw [List.cons_append, List.lookup_cons, List.lookup_cons, ih]

theorem runTrial_lookup_ne (app : MainApp σ) (j trialId : Nat) (h : j ≠ trialId)
    (e : Experiment σ) :
    (runTrial app trialId e).m_trials.lookup j = e.m_trials.lookup j := by
  cases hl : e.m_trials.lookup trialId with
  | none => simp only [runTrial, hl]
  | some t =>
    rcases runTrial_cases app trialId e t hl with h1 | ⟨t', k, h1, -⟩
    · rw [h1]
    · rw [h1]
      exact lookup_storeTrial_ne j trialId h t' e.m_trials

theorem rows_forall (j : Nat) (cs cs' : List (Cache σ))
    (h : cs'.map (fun c => c.rows j) = cs.map (fun c => c.rows j))
    (P : List Values → Prop) (hP : ∀ c ∈ cs, P (c.rows j)) : ∀ c ∈ cs', P (c.rows j) := by
  intro c hc
  have hm : c.rows j ∈ cs'.map (fun c => c.rows j) := List.mem_map_of_mem _ hc
  rw [h] at hm
  obtain ⟨c0, hc0, hc0e⟩ := List.mem_map.mp hm
  rw [← hc0e]
  exact hP c0 hc0

theorem trialRows_frame (app : MainApp σ) (j : Nat) (s s' : Experiment σ)
    (hrows : s'.m_inputs.fileCaches.map (fun c => c.rows j)
      = s.m_inputs.fileCaches.map (fun c => c.rows j))
    (hl : s'.m_trials.lookup j = s.m_trials.lookup j) (h : trialRows app j s) :
    trialRows app j s' := by
  unfold trialRows at h ⊢
  rw [hl]
  refine ⟨fun hn => rows_forall j _ _ hrows (fun r => r = []) (h.1 hn), ?_⟩
  intro t ht
  obtain ⟨h0, hR, hFin⟩ := h.2 t ht
  refine ⟨h0, fun hr => ?_, fun hf => ?_⟩
  · exact rows_forall j _ _ hrows
      (fun r => ((r.length : Nat) : Int) = t.m_currStep % app.stepsToFlush) (hR hr)
  · exact rows_forall j _ _ hrows (fun r => r.length = 0) (hFin hf)

theorem runTrial_sameSinks (app : MainApp σ) (trialId : Nat) (e : Experiment σ) :
    sameSinks e.m_inputs.fileCaches (runTrial app trialId e).m_inputs.fileCaches ∧
    (runTrial app trialId e).m_outputs = e.m_outputs := by
  refine ⟨runTrial_proj (fun c => (c.output, c.inputs)) app trialId (fun _ _ => rfl)
    (fun _ => rfl) e, ?_⟩
  obtain ⟨cs, fs, n, st, pa, tr, hsh, -⟩ := runTrial_shape app trialId e
  rw [hsh]

theorem runTrial_trialRows (app : MainApp σ) (hopen : ∀ n, app.openOk n = true)
    (hF : 1 ≤ app.stepsToFlush) (trialId : Nat) (e : Experiment σ)
    (hw : wired e) (hcs : 0 < e.m_inputs.fileCaches.length)
    (hinv : trialRows app trialId e) : trialRows app trialId (runTrial app trialId e) := by
  cases hl : e.m_trials.lookup trialId with
  | none =>
    have : runTrial app trialId e = e := by simp only [runTrial, hl]
    rw [this]; exact hinv
  | some trial =>
    by_cases hready : trial.m_status = Status.READY
    case neg =>
      have : runTrial app trialId e = e := by simp only [runTrial, hl, ne_eq, hready,
        not_false_eq_true, if_true]
      rw [this]; exact hinv
    case pos =>
      obtain ⟨h0, hR, -⟩ := hinv.2 trial hl
      have hlen := hR hready
      generalize hfuel : (e.m_pauseAt - trial.m_currStep).toNat = fuel
      obtain ⟨q1, q2, q3, q4, q5⟩ := stepLoop_count app hopen hF trialId fuel
        ⟨trial.m_currStep, Status.RUNNING, trial.model⟩ false e hw hcs h0 hlen
      obtain ⟨cs, fs, n, st, pa, hsh⟩ := stepLoop_shape app trialId fuel
        ⟨trial.m_currStep, Status.RUNNING, trial.model⟩ false e
      obtain ⟨cs2, fs2, n2, hsh2⟩ := writeCachedSteps_shape app trialId
        (stepLoop app trialId fuel ⟨trial.m_currStep, Status.RUNNING, trial.model⟩
          false e).2.2.1
      have htr : (stepLoop app trialId fuel ⟨trial.m_currStep, Status.RUNNING, trial.model⟩
          false e).2.2.1.m_trials = e.m_trials := by rw [hsh]
      have wtr : (writeCachedSteps app trialId (stepLoop app trialId fuel
          ⟨trial.m_currStep, Status.RUNNING, trial.model⟩ false e).2.2.1).2.m_trials
          = e.m_trials := by rw [hsh2]; exact htr
      have hwok := writeCachedSteps_opens_ok app hopen trialId
        (stepLoop app trialId fuel ⟨trial.m_currStep, Status.RUNNING, trial.model⟩
          false e).2.2.1
      have hn0 := Int.emod_nonneg (stepLoop app trialId fuel
        ⟨trial.m_currStep, Status.RUNNING, trial.model⟩ false e).1.m_currStep
        (by omega : app.stepsToFlush ≠ 0)
      have q5N : ∀ c ∈ (stepLoop app trialId fuel
          ⟨trial.m_currStep, Status.RUNNING, trial.model⟩ false e).2.2.1.m_inputs.fileCaches,
          (c.rows trialId).length
            = ((stepLoop app trialId fuel ⟨trial.m_currStep, Status.RUNNING, trial.model⟩
                false e).1.m_currStep % app.stepsToFlush).toNat := by
        intro c hc
        have := q5 c hc
        omega
      obtain ⟨hwc, -⟩ := writeCachedSteps_uniform app hopen trialId _ _ q3 q5N
      simp only [runTrial, hl, hready, ne_eq, not_true_eq_false, if_false, hfuel, q1,
        Bool.false_eq_true, hwok, if_true]
      unfold trialRows
      split
      · simp only [storeTrial, wtr]
        rw [lookup_storeTrial trialId _ trial e.m_trials hl]
        refine ⟨fun hn => Option.noConfusion hn, ?_⟩
        intro t ht
        simp only [Option.some.injEq] at ht
        subst ht
        refine ⟨q4, fun hr => Status.noConfusion hr, fun _ => ?_⟩
        intro c hcm
        rw [hwc] at hcm
        obtain ⟨c0, hc0, rfl⟩ := List.mem_map.mp hcm
        simp only [Cache.dropRows, if_true, List.length_drop, q5N c0 hc0, Nat.sub_self]
      · simp only [storeTrial, htr]
        rw [lookup_storeTrial trialId _ trial e.m_trials hl]
        refine ⟨fun hn => Option.noConfusion hn, ?_⟩
        intro t ht
        simp only [Option.some.injEq] at ht
        subst ht
        exact ⟨q4, fun _ => q5, fun hf => Status.noConfusion hf⟩

theorem runTrial_rowsInv (app : MainApp σ) (hopen : ∀ n, app.openOk n = true)
    (hF : 1 ≤ app.stepsToFlush) (trialId : Nat) (e : Experiment σ) (hinv : rowsInv app e) :
    rowsInv app (runTrial app trialId e) := by
  obtain ⟨hw, hcs, hall⟩ := hinv
  obtain ⟨hs, ho⟩ := runTrial_sameSinks app trialId e
  refine ⟨wired_sameSinks e _ ho hs hw, by rw [sameSinks_length _ _ hs]; exact hcs, ?_⟩
  intro j
  by_cases hj : j = trialId
  · subst hj
    exact runTrial_trialRows app hopen hF j e hw hcs (hall j)
  · exact trialRows_frame app j e _
      (runTrial_proj (fun c => c.rows j) app trialId (rows_push_ne j trialId hj)
        (rows_flush_ne j trialId hj) e)
      (runTrial_lookup_ne app j trialId hj e) (hall j)

theorem writeInitialStep_ok (app : MainApp σ) (hopen : ∀ n, app.openOk n = true)
    (trialId : Nat) (modelObj : AbstractModel σ) (e : Experiment σ) :
    (writeInitialStep app trialId modelObj e).1 = true := by
  simp only [writeInitialStep, hopen, if_true]
  split <;> rfl

theorem createTrial_none (app : MainApp σ) (hopen : ∀ n, app.openOk n = true)
    (trialId : Nat) (e e1 : Experiment σ) (h : createTrial app trialId e = some (none, e1)) :
    e1.m_inputs = e.m_inputs ∧ e1.m_outputs = e.m_outputs ∧ e1.m_trials = e.m_trials := by
  obtain ⟨cl, k, hn⟩ := createNodes_shape e.m_inputs.graphType e
  have hplain : (createNodes e.m_inputs.graphType e).2.m_inputs = e.m_inputs ∧
      (createNodes e.m_inputs.graphType e).2.m_outputs = e.m_outputs ∧
      (createNodes e.m_inputs.graphType e).2.m_trials = e.m_trials := by
    rw [hn]; exact ⟨rfl, rfl, rfl⟩
  unfold createTrial at h
  split at h
  · simp only [Option.some.injEq, Prod.mk.injEq, true_and] at h
    rw [← h]; exact ⟨rfl, rfl, rfl⟩
  · split at h
    · simp at h
    · simp only at h
      split at h
      · simp only [Option.some.injEq, Prod.mk.injEq, true_and] at h
        rw [← h]; exact hplain
      · split at h
        · simp only [Option.some.injEq, Prod.mk.injEq, true_and] at h
          rw [← h]; exact hplain
        · split at h
          · simp only [Option.some.injEq, Prod.mk.injEq, true_and] at h
            rw [← h]; exact hplain
          · rename_i modelObj _
            rw [if_pos (writeInitialStep_ok app hopen trialId modelObj _)] at h
            simp at h

theorem createTrial_rowsInv (app : MainApp σ) (hopen : ∀ n, app.openOk n = true)
    (hplug : ∀ seed nodes m, app.modelPlugin seed nodes = some m → m.m_currStep = 0)
    (trialId : Nat) (e e1 : Experiment σ) (trial : AbstractModel σ)
    (hinv : rowsInv app e) (hl : e.m_trials.lookup trialId = none)
    (hc : createTrial app trialId e = some (some trial, e1)) :
    trial.m_currStep = 0 ∧ trial.m_status = Status.READY ∧
    (∀ c ∈ e1.m_inputs.fileCaches, (c.rows trialId).length = 0) ∧
    ({ e1 with m_trials := e1.m_trials ++ [(trialId, trial)] } :
      Experiment σ).m_trials.lookup trialId = some trial ∧
    rowsInv app { e1 with m_trials := e1.m_trials ++ [(trialId, trial)] } := by
  obtain ⟨hw, hcs, hall⟩ := hinv
  obtain ⟨m0, seed, nodes, hm, hm0, he1⟩ := createTrial_inv app trialId e e1 trial hc
  obtain ⟨cl, k, hn⟩ := createNodes_shape e.m_inputs.graphType e
  obtain ⟨cs, fs, n, cl', k', hsh⟩ := createTrial_shape app trialId e e1 (some trial) hc
  have i1 : (createNodes e.m_inputs.graphType e).2.m_inputs = e.m_inputs := by rw [hn]
  have i2 : (createNodes e.m_inputs.graphType e).2.m_outputs = e.m_outputs := by rw [hn]
  have hw1 : wired (createNodes e.m_inputs.graphType e).2 := by
    unfold wired; rw [i1, i2]; exact hw
  have hempty := (hall trialId).1 hl
  obtain ⟨-, f2, f3, -⟩ := writeInitialStep_spec app hopen trialId m0
    (createNodes e.m_inputs.graphType e).2 hw1 (by rw [i1]; exact hcs)
    (by rw [i1]; intro c hc'; rw [hempty c hc']; rfl)
  rw [← he1, i1] at f3
  rw [← he1] at f2
  have ho : e1.m_outputs = e.m_outputs := by rw [hsh]
  have htr : e1.m_trials = e.m_trials := by rw [hsh]
  have hzero : trial.m_currStep = 0 := by rw [hm0]; exact hplug seed nodes m0 hm
  have hready : trial.m_status = Status.READY := by rw [hm0]
  have hnew : (e1.m_trials ++ [(trialId, trial)]).lookup trialId = some trial := by
    rw [htr]; exact lookup_append_new trialId trial e.m_trials hl
  have hw2 : wired e1 := wired_sameSinks e e1 ho f3 hw
  refine ⟨hzero, hready, f2, hnew, ?_, ?_, ?_⟩
  · exact hw2
  · show 0 < e1.m_inputs.fileCaches.length
    rw [sameSinks_length _ _ f3]; exact hcs
  · intro j
    by_cases hj : j = trialId
    · subst hj
      refine ⟨fun hnone => ?_, ?_⟩
      · have hnone' : (e1.m_trials ++ [(j, trial)]).lookup j = none := hnone
        rw [hnew] at hnone'
        exact Option.noConfusion hnone'
      · intro t ht
        have ht' : (e1.m_trials ++ [(j, trial)]).lookup j = some t := ht
        rw [hnew] at ht'
        simp only [Option.some.injEq] at ht'
        subst ht'
        refine ⟨by rw [hzero], fun _ => ?_, fun _ => f2⟩
        intro c hcm
        have := f2 c hcm
        rw [this, hzero]
        simp
    · refine trialRows_frame app j e _ ?_ ?_ (hall j)
      · show e1.m_inputs.fileCaches.map (fun c => c.rows j) = _
        rw [he1, writeInitialStep_proj (fun c => c.rows j) app trialId
          (rows_push_ne j trialId hj) (rows_flush_ne j trialId hj), i1]
      · show (e1.m_trials ++ [(trialId, trial)]).lookup j = _
        rw [htr]
        exact lookup_append_ne j trialId hj trial e.m_trials

theorem processTrial_rowsInv (app : MainApp σ) (hopen : ∀ n, app.openOk n = true)
    (hF : 1 ≤ app.stepsToFlush)
    (hplug : ∀ seed nodes m, app.modelPlugin seed nodes = some m → m.m_currStep = 0)
    (trialId : Nat) (s s' : Experiment σ) (hinv : rowsInv app s)
    (h : processTrial app trialId s = some s') : rowsInv app s' := by
  unfold processTrial at h
  split at h
  · simp only [Option.some.injEq] at h
    rw [← h]; exact hinv
  · split at h
    · simp only [Option.some.injEq] at h
      rw [← h]
      exact runTrial_rowsInv app hopen hF trialId s hinv
    · rename_i hl
      split at h
      · simp at h
      · rename_i e1 hc
        simp only [Option.some.injEq] at h
        rw [← h]
        obtain ⟨c1, c2, c3⟩ := createTrial_none app hopen trialId s e1 hc
        obtain ⟨hw, hcs, hall⟩ := hinv
        refine ⟨?_, ?_, ?_⟩
        · show wired e1
          unfold wired; rw [c1, c2]; exact hw
        · show 0 < e1.m_inputs.fileCaches.length
          rw [c1]; exact hcs
        · intro j
          refine trialRows_frame app j s _ ?_ ?_ (hall j)
          · show e1.m_inputs.fileCaches.map (fun c => c.rows j) = _
            rw [c1]
          · show e1.m_trials.lookup j = _
            rw [c3]
      · rename_i trial e1 hc
        simp only [Option.some.injEq] at h
        rw [← h]
        exact runTrial_rowsInv app hopen hF trialId _
          (createTrial_rowsInv app hopen hplug trialId s e1 trial hinv hl hc).2.2.2.2

theorem flushAll_fold (outs : List Output) :
    ∀ caches : List (Cache σ),
      outs.foldl (fun cs o => o.flushAll cs) caches =
        caches.map (fun c => if c.output.addr ∈ outs.map (fun o => o.addr)
          then { c with rows := fun _ => [] } else c) := by
  induction outs with
  | nil =>
    intro caches
    simp
  | cons o outs ih =>
    intro caches
    rw [List.foldl_cons, ih]
    simp only [Output.flushAll, List.map_map]
    apply List.map_congr_left
    intro c _
    simp only [Function.comp_apply, List.map_cons, List.mem_cons]
    by_cases h1 : c.output.addr = o.addr
    · simp only [h1, if_true, true_or]
      split <;> rfl
    · simp only [h1, if_false, false_or]

theorem reset_rowsInv (app : MainApp σ) (e : Experiment σ)
    (hst : e.m_expStatus ≠ Status.RUNNING ∧ e.m_expStatus ≠ Status.QUEUED)
    (hw : wired e) (hcs : 0 < e.m_inputs.fileCaches.length) :
    rowsInv app (reset app e) := by
  have h : ¬ (e.m_expStatus = Status.RUNNING ∨ e.m_expStatus = Status.QUEUED) := by
    intro h'; rcases h' with h' | h'
    · exact hst.1 h'
    · exact hst.2 h'
  have hcaches : (reset app e).m_inputs.fileCaches
      = e.m_inputs.fileCaches.map (fun c => { c with rows := fun _ => [] }) := by
    simp only [reset, if_neg h, deleteTrials]
    rw [flushAll_fold]
    apply List.map_congr_left
    intro c hc
    rw [if_pos (hw.2 c hc)]
  have hout : (reset app e).m_outputs = e.m_outputs := by
    simp only [reset, if_neg h, deleteTrials]
  have hsame : sameSinks e.m_inputs.fileCaches (reset app e).m_inputs.fileCaches := by
    rw [hcaches]
    exact sameSinks_map _ _ (fun c => ⟨rfl, rfl⟩)
  have hempty : ∀ j, ∀ c ∈ (reset app e).m_inputs.fileCaches, c.rows j = [] := by
    intro j c hc
    rw [hcaches] at hc
    obtain ⟨c0, -, rfl⟩ := List.mem_map.mp hc
    rfl
  obtain ⟨r1, -⟩ := reset_fresh app e hst
  refine ⟨wired_sameSinks e _ hout hsame hw, by rw [sameSinks_length _ _ hsame]; exact hcs, ?_⟩
  intro j
  refine ⟨fun _ => hempty j, ?_⟩
  intro t ht
  rw [r1] at ht
  simp at ht

theorem init_rowsInv (app : MainApp σ) (inputs : ExpInputs σ) (error : QString)
    (e : Experiment σ)
    (hst : e.m_expStatus ≠ Status.RUNNING ∧ e.m_expStatus ≠ Status.QUEUED)
    (hcs : 0 < inputs.fileCaches.length) :
    rowsInv app (init app inputs error e).2.2 ∧
    (init app inputs error e).2.2.m_expStatus = Status.READY := by
  have h : ¬ (e.m_expStatus = Status.RUNNING ∨ e.m_expStatus = Status.QUEUED) := by
    intro h'; rcases h' with h' | h'
    · exact hst.1 h'
    · exact hst.2 h'
  have hne : inputs.fileCaches.isEmpty = false := by
    cases hc : inputs.fileCaches with
    | nil => rw [hc] at hcs; simp at hcs
    | cons a l => rfl
  have hX : (init app inputs error e).2.2 = reset app
      { e with
        m_outputs := (initCaches inputs.fileCaches).2
        m_inputs := inputs
        m_fileHeader := chop (initCaches inputs.fileCaches).1 1 ++ ['\n']
        m_numTrials := inputs.trials
        m_autoDeleteTrials := inputs.autoDelete } := by
    simp only [init, if_neg h, hne, if_true]
  obtain ⟨i1, -, -, i4⟩ := initCaches_fold inputs.fileCaches ([], []) List.nodup_nil
  generalize hY : ({ e with
        m_outputs := (initCaches inputs.fileCaches).2
        m_inputs := inputs
        m_fileHeader := chop (initCaches inputs.fileCaches).1 1 ++ ['\n']
        m_numTrials := inputs.trials
        m_autoDeleteTrials := inputs.autoDelete } : Experiment σ) = Y at hX
  have hYst : Y.m_expStatus ≠ Status.RUNNING ∧ Y.m_expStatus ≠ Status.QUEUED := by
    rw [← hY]; exact hst
  have hYw : wired Y := by
    rw [← hY]; exact ⟨i1, i4⟩
  have hYcs : 0 < Y.m_inputs.fileCaches.length := by
    rw [← hY]; exact hcs
  rw [hX]
  exact ⟨reset_rowsInv app Y hYst hYw hYcs, (reset_fresh app Y hYst).2.2.2.2.2.2⟩

theorem reachable_rowsInv (app : MainApp σ) (hopen : ∀ n, app.openOk n = true)
    (hF : 1 ≤ app.stepsToFlush)
    (hplug : ∀ seed nodes m, app.modelPlugin seed nodes = some m → m.m_currStep = 0)
    (e0 s : Experiment σ) (h0 : rowsInv app (reset app e0)) (hr : Reachable app e0 s) :
    rowsInv app s := by
  induction hr with
  | start => exact h0
  | call s s' trialId _ hp ih => exact processTrial_rowsInv app hopen hF hplug trialId s s' ih hp
  | horizon s p _ _ _ ih => exact ih
  | status s st _ ih => exact ih

/-- C19: let the flush cadence be `F ≥ 1`, every file open succeed and the
model plugin hand over its models at step 0, and let `s` be any state reached
from an experiment that `init` set up with at least one file cache, by
`processTrial` calls for arbitrary trial ids, changes of the pause horizon and
status changes of the dispatcher. For every trial id:
(1) right after `createTrial` returns a trial, the trial is at step 0 and every
file cache holds 0 rows for it;
(2), (3) after any number of passes of the stepping loop, in the call that
created the trial as in a later call that resumes it, every file cache holds
`currStep mod F` rows for it, fewer than `F`;
(4) between two calls every file cache holds `currStep mod F` rows for a Ready
trial, and (5) 0 rows for a Finished trial;
(6) a call `processTrial` leaves `currStep mod F` rows for the trial if it
leaves it Ready and 0 rows if it marks it Finished. -/
theorem C19_buffered_rows (app : MainApp σ) (inputs : ExpInputs σ) (error : QString)
    (e s : Experiment σ) (trialId : Nat)
    (hF : 1 ≤ app.stepsToFlush) (hopen : ∀ n, app.openOk n = true)
    (hplug : ∀ seed nodes m, app.modelPlugin seed nodes = some m → m.m_currStep = 0)
    (hst : e.m_expStatus ≠ Status.RUNNING ∧ e.m_expStatus ≠ Status.QUEUED)
    (hcs : 0 < inputs.fileCaches.length)
    (hr : Reachable app (init app inputs error e).2.2 s) :
    (∀ trial e1, s.m_trials.lookup trialId = none →
      createTrial app trialId s = some (some trial, e1) →
      trial.m_currStep = 0 ∧ ∀ c ∈ e1.m_inputs.fileCaches, (c.rows trialId).length = 0) ∧
    (∀ trial e1 (n : Nat), s.m_trials.lookup trialId = none →
      createTrial app trialId s = some (some trial, e1) →
      ∀ c ∈ (firstPasses app trialId trial
          { e1 with m_trials := e1.m_trials ++ [(trialId, trial)] } n).2.2.1.m_inputs.fileCaches,
        ((c.rows trialId).length : Int)
          = (firstPasses app trialId trial
              { e1 with m_trials := e1.m_trials ++ [(trialId, trial)] } n).1.m_currStep
            % app.stepsToFlush ∧
        ((c.rows trialId).length : Int) < app.stepsToFlush) ∧
    (∀ t (n : Nat), s.m_trials.lookup trialId = some t → t.m_status = Status.READY →
      ∀ c ∈ (firstPasses app trialId t s n).2.2.1.m_inputs.fileCaches,
        ((c.rows trialId).length : Int)
          = (firstPasses app trialId t s n).1.m_currStep % app.stepsToFlush ∧
        ((c.rows trialId).length : Int) < app.stepsToFlush) ∧
    (∀ t, s.m_trials.lookup trialId = some t → t.m_status = Status.READY →
      ∀ c ∈ s.m_inputs.fileCaches,
        ((c.rows trialId).length : Int) = t.m_currStep % app.stepsToFlush) ∧
    (∀ t, s.m_trials.lookup trialId = some t → t.m_status = Status.FINISHED →
      ∀ c ∈ s.m_inputs.fileCaches, (c.rows trialId).length = 0) ∧
    (∀ s' t', processTrial app trialId s = some s' →
      s'.m_trials.lookup trialId = some t' →
      (t'.m_status = Status.READY → ∀ c ∈ s'.m_inputs.fileCaches,
        ((c.rows trialId).length : Int) = t'.m_currStep % app.stepsToFlush) ∧
      (t'.m_status = Status.FINISHED → ∀ c ∈ s'.m_inputs.fileCaches,
        (c.rows trialId).length = 0)) := by
  obtain ⟨hi, hist⟩ := init_rowsInv app inputs error e hst hcs
  have h0 : rowsInv app (reset app (init app inputs error e).2.2) :=
    reset_rowsInv app _ ⟨by rw [hist]; decide, by rw [hist]; decide⟩ hi.1 hi.2.1
  have hinv : rowsInv app s := reachable_rowsInv app hopen hF hplug _ s h0 hr
  have hloop : ∀ (E : Experiment σ) (t : AbstractModel σ) (n : Nat), rowsInv app E →
      E.m_trials.lookup trialId = some t → t.m_status = Status.READY →
      ∀ c ∈ (firstPasses app trialId t E n).2.2.1.m_inputs.fileCaches,
        ((c.rows trialId).length : Int)
          = (firstPasses app trialId t E n).1.m_currStep % app.stepsToFlush ∧
        ((c.rows trialId).length : Int) < app.stepsToFlush := by
    intro E t n hE hl hready c hc
    obtain ⟨g0, gR, -⟩ := (hE.2.2 trialId).2 t hl
    obtain ⟨-, -, -, -, q5⟩ := stepLoop_count app hopen hF trialId n
      { t with m_status := Status.RUNNING } false E hE.1 hE.2.1 g0 (gR hready)
    have hq := q5 c hc
    refine ⟨hq, ?_⟩
    rw [hq]
    exact Int.emod_lt_of_pos _ (by omega)
  refine ⟨?_, ?_, ?_, ?_, ?_, ?_⟩
  · intro trial e1 hl hc
    obtain ⟨c1, -, c3, -⟩ := createTrial_rowsInv app hopen hplug trialId s e1 trial hinv hl hc
    exact ⟨c1, c3⟩
  · intro trial e1 n hl hc
    obtain ⟨-, c2, -, c4, c5⟩ := createTrial_rowsInv app hopen hplug trialId s e1 trial hinv hl hc
    exact hloop _ trial n c5 c4 c2
  · intro t n hl hready
    exact hloop s t n hinv hl hready
  · intro t hl hready
    exact ((hinv.2.2 trialId).2 t hl).2.1 hready
  · intro t hl hfin
    exact ((hinv.2.2 trialId).2 t hl).2.2 hfin
  · intro s' t' hp hl
    have hinv' := processTrial_rowsInv app hopen hF hplug trialId s s' hinv hp
    exact ((hinv'.2.2 trialId).2 t' hl).2

/-- Witness of C19 with `exApp` (cadence 4) and the experiment `init` sets up
for `exInputs`: a first call creates trial 0 and pauses it at step 5 with one
row buffered; in the call that resumes it two passes of the loop lead to step 7
with three rows buffered; at the end of that call the trial is Finished at step
10 and no row is buffered. -/
theorem C19_buffered_rows_witness :
    1 ≤ exApp.stepsToFlush ∧ 0 < exInputs.fileCaches.length ∧
    Reachable exApp exInit exPausedAt5 ∧ Reachable exApp exInit exFinishedAt10 ∧
    exPausedAt5.m_trials.lookup 0 = some ⟨5, Status.READY, 12⟩ ∧
    exFinishedAt10.m_trials.lookup 0 = some ⟨10, Status.FINISHED, 17⟩ ∧
    (∀ c ∈ exPausedAt5.m_inputs.fileCaches, ((c.rows 0).length : Int) = 5 % 4) ∧
    (firstPasses exApp 0 ⟨5, Status.READY, 12⟩ exPausedAt5 2).1.m_currStep = 7 ∧
    (∀ c ∈ (firstPasses exApp 0 ⟨5, Status.READY, 12⟩ exPausedAt5 2).2.2.1.m_inputs.fileCaches,
      ((c.rows 0).length : Int)
        = (firstPasses exApp 0 ⟨5, Status.READY, 12⟩ exPausedAt5 2).1.m_currStep
          % exApp.stepsToFlush ∧
      ((c.rows 0).length : Int) < exApp.stepsToFlush) ∧
    (∀ c ∈ exFinishedAt10.m_inputs.fileCaches, (c.rows 0).length = 0) := by
  have hplug : ∀ seed nodes m, exApp.modelPlugin seed nodes = some m → m.m_currStep = 0 := by
    intro seed nodes m hm
    simp only [exApp, Option.some.injEq] at hm
    rw [← hm]
  have hstop : (reset exApp exInit).m_stopAt = 10 := rfl
  have hr1 : Reachable exApp exInit { reset exApp exInit with m_pauseAt := 5 } :=
    Reachable.horizon (reset exApp exInit) 5 Reachable.start (by decide)
      (by rw [hstop]; decide)
  have hr2 : Reachable exApp exInit exReadyAt5 :=
    Reachable.call { reset exApp exInit with m_pauseAt := 5 } exReadyAt5 0 hr1 rfl
  have hstop2 : exReadyAt5.m_stopAt = 10 := rfl
  have hr3 : Reachable exApp exInit exPausedAt5 :=
    Reachable.horizon exReadyAt5 10 hr2 (by decide) (le_of_eq hstop2.symm)
  have hr4 : Reachable exApp exInit exFinishedAt10 :=
    Reachable.call exPausedAt5 exFinishedAt10 0 hr3 rfl
  have hP := C19_buffered_rows exApp exInputs [] exExperiment exPausedAt5 0 (by decide)
    (fun _ => rfl) hplug (by decide) (by decide) hr3
  have hQ := C19_buffered_rows exApp exInputs [] exExperiment exFinishedAt10 0 (by decide)
    (fun _ => rfl) hplug (by decide) (by decide) hr4
  exact ⟨by decide, by decide, hr3, hr4, rfl, rfl,
    hP.2.2.2.1 ⟨5, Status.READY, 12⟩ rfl rfl, rfl,
    hP.2.2.1 ⟨5, Status.READY, 12⟩ 2 rfl rfl,
    hQ.2.2.2.2.1 ⟨10, Status.FINISHED, 17⟩ rfl rfl⟩

end evoplex
